import Mathlib

/-!
# Order clean-up service: SKU parser and order expander

A shallow embedding of `internal/parser/product_parser.go` and
`internal/service/order_service.go`.

Conventions of the embedding.

* A Go `string` is a `List Char`: the sequence of code points of a valid UTF-8
  string.  Byte offsets (`len`, `strings.Index`, slice bounds) are computed on
  the UTF-8 encoding, see `utf8`.
* A Go `int` is an `Int` in the 64-bit range; additions that can leave the
  range are reduced with `wrapInt`.
* A call returns `Except Fault _`: `Fault.ErrInvalidProductFormat` is the error
  value returned by the code, `Fault.slicePanic` is the run-time panic
  "slice bounds out of range".
* `float64` arithmetic is a parameter (`FloatOps`); `exactOps` instantiates it
  with exact rational arithmetic.
* The iteration order of `range` over a Go map is a parameter (`MapOrder`).
-/

namespace Bewell

/-- A Go string, as the list of its code points. -/
abbrev Str := List Char

/-! ## Go library functions used by the code -/

/-- UTF-8 encoding of one code point, as byte values. -/
def utf8Char (c : Char) : List Nat :=
  let v := c.toNat
  if v < 128 then [v]
  else if v < 2048 then [192 + v / 64, 128 + v % 64]
  else if v < 65536 then [224 + v / 4096, 128 + v / 64 % 64, 128 + v % 64]
  else [240 + v / 262144, 128 + v / 4096 % 64, 128 + v / 64 % 64, 128 + v % 64]

/-- The bytes of a Go string. -/
def utf8 : Str → List Nat
  | [] => []
  | c :: cs => utf8Char c ++ utf8 cs

/-- Go `unicode.IsSpace`. -/
def isSpace (c : Char) : Bool :=
  let v := c.toNat
  (9 ≤ v && v ≤ 13) || v == 32 || v == 133 || v == 160 || v == 5760 ||
  (8192 ≤ v && v ≤ 8202) || v == 8232 || v == 8233 || v == 8239 || v == 8287 || v == 12288

/-- Go `strings.TrimLeft` with `unicode.IsSpace`. -/
def trimLeft : Str → Str
  | [] => []
  | c :: cs => if isSpace c then trimLeft cs else c :: cs

/-- Go `strings.TrimSpace`: leading and trailing white space removed. -/
def TrimSpace (s : Str) : Str :=
  (trimLeft (trimLeft s).reverse).reverse

/-- Go `strings.ReplaceAll(s, "%20", "")`: the non-overlapping occurrences of
`%20`, found from the left, are deleted. -/
def removePct20 : Str → Str
  | [] => []
  | '%' :: '2' :: '0' :: cs => removePct20 cs
  | c :: cs => c :: removePct20 cs

/-- Go `strings.Split(s, sep)` for a one-character separator; `cur` is the
reversed part read since the last separator. -/
def splitAux (sep : Char) : Str → Str → List Str
  | [], cur => [cur.reverse]
  | c :: cs, cur => if c = sep then cur.reverse :: splitAux sep cs [] else splitAux sep cs (c :: cur)

/-- Go `strings.Split(s, sep)` for a one-character separator. -/
def Split (s : Str) (sep : Char) : List Str := splitAux sep s []

/-- Go `strings.Contains(s, "*")` for a one-character needle. -/
def Contains (s : Str) (c : Char) : Bool := s.any (fun d => d == c)

/-- Go `strings.Index(s, c)` for a one-character needle: the byte offset of the
first occurrence, or `-1`. -/
def Index (s : Str) (c : Char) : Int :=
  if Contains s c then ((utf8 (s.takeWhile (fun d => d != c))).length : Int) else -1

/-- Lower bound of the Go `int` type. -/
def minInt : Int := -9223372036854775808

/-- Upper bound of the Go `int` type. -/
def maxInt : Int := 9223372036854775807

/-- Two-complement reduction of an integer to the Go `int` range. -/
def wrapInt (x : Int) : Int := (x + 9223372036854775808) % 18446744073709551616 - 9223372036854775808

/-- ASCII digit. -/
def isDigit (c : Char) : Bool := 48 ≤ c.toNat && c.toNat ≤ 57

/-- Value of a digit string, most significant digit first. -/
def digitsValue (ds : Str) : Nat := ds.foldl (fun a c => 10 * a + (c.toNat - 48)) 0

/-- Sign and digits of the argument of `Atoi`: `true` for a leading `-`. -/
def atoiSign (s : Str) : Bool × Str :=
  match s with
  | '-' :: r => (true, r)
  | '+' :: r => (false, r)
  | _ => (false, s)

/-- Signed value of the argument of `Atoi`. -/
def atoiValue (s : Str) : Int :=
  if (atoiSign s).1 then -(digitsValue (atoiSign s).2 : Int) else (digitsValue (atoiSign s).2 : Int)

/-- Go `strconv.Atoi`: an optional sign and one or more decimal digits, whose
value lies in the `int` range; `none` stands for a non-nil error. -/
def Atoi (s : Str) : Option Int :=
  if (atoiSign s).2.isEmpty || !(atoiSign s).2.all isDigit then none
  else if atoiValue s < minInt ∨ maxInt < atoiValue s then none
  else some (atoiValue s)

/-! ## The product pattern

`(FG0[A-Z0-9]{1,2})-(CLEAR|MATTE|PRIVACY)-([A-Z0-9-]+)` with the leftmost-first
semantics of Go `regexp`: the leftmost start position wins, and at one position
the alternatives are tried in the order of a backtracking matcher (two
characters of the film code before one, the textures in the order written, the
longest model token). -/

/-- Character class `[A-Z0-9]`. -/
def isCodeChar (c : Char) : Bool :=
  (65 ≤ c.toNat && c.toNat ≤ 90) || (48 ≤ c.toNat && c.toNat ≤ 57)

/-- Character class `[A-Z0-9-]`. -/
def isModelChar (c : Char) : Bool := isCodeChar c || c.toNat == 45

/-- The alternatives of the second group, in the order of the pattern. -/
def textures : List Str := ["CLEAR".toList, "MATTE".toList, "PRIVACY".toList]

/-- Result of `FindStringSubmatch`: the whole match and the three groups. -/
structure Submatch where
  /-- The whole match, `matches[0]`. -/
  full : Str
  /-- The film code, `matches[1]`. -/
  film : Str
  /-- The texture, `matches[2]`. -/
  texture : Str
  /-- The model token, `matches[3]`. -/
  model : Str
deriving DecidableEq, Repr

/-- If `p` is a prefix of `s`, the rest of `s`. -/
def dropPrefix? : Str → Str → Option Str
  | [], s => some s
  | _ :: _, [] => none
  | p :: ps, c :: cs => if p = c then dropPrefix? ps cs else none

/-- Match `-([A-Z0-9-]+)` at the start of `s`, after film code and texture. -/
def matchModel (film texture s : Str) : Option Submatch :=
  match s with
  | '-' :: r =>
    if (r.takeWhile isModelChar).isEmpty then none
    else some ⟨film ++ '-' :: (texture ++ '-' :: r.takeWhile isModelChar), film, texture,
      r.takeWhile isModelChar⟩
  | _ => none

/-- Match `(CLEAR|MATTE|PRIVACY)-([A-Z0-9-]+)` at the start of `s`, trying the
alternatives `ts` in order. -/
def matchTexture (film : Str) (s : Str) : List Str → Option Submatch
  | [] => none
  | t :: ts =>
    match dropPrefix? t s with
    | some r =>
      match matchModel film t r with
      | some m => some m
      | none => matchTexture film s ts
    | none => matchTexture film s ts

/-- Match `-(CLEAR|MATTE|PRIVACY)-([A-Z0-9-]+)` at the start of `s`. -/
def matchRest (film s : Str) : Option Submatch :=
  match s with
  | '-' :: r => matchTexture film r textures
  | _ => none

/-- The first attempt at a position: a film code with two characters after
`FG0`; `a` is the first of them and `r` the input after it. -/
def matchFilm2 (a : Char) (r : Str) : Option Submatch :=
  match r with
  | b :: r2 => if isCodeChar b then matchRest ['F', 'G', '0', a, b] r2 else none
  | [] => none

/-- Match the whole pattern at the start of `s`: `[A-Z0-9]{1,2}` is greedy, so
two characters are tried before one. -/
def matchAt (s : Str) : Option Submatch :=
  match s with
  | 'F' :: 'G' :: '0' :: a :: r =>
    if isCodeChar a then
      match matchFilm2 a r with
      | some m => some m
      | none => matchRest ['F', 'G', '0', a] r
    else none
  | _ => none

/-- Go `FindStringSubmatch`: the leftmost match, `none` for a nil result. -/
def FindStringSubmatch : Str → Option Submatch
  | [] => none
  | c :: cs =>
    match matchAt (c :: cs) with
    | some m => some m
    | none => FindStringSubmatch cs

/-- Go `FindString`: the text of the leftmost match, `""` without one. -/
def FindString (s : Str) : Str :=
  match FindStringSubmatch s with
  | some m => m.full
  | none => []

/-! ## `internal/parser/product_parser.go` -/

/-- Outcome of a call other than a normal result. -/
inductive Fault where
  /-- The error value `domain.ErrInvalidProductFormat`. -/
  | ErrInvalidProductFormat
  /-- Run-time panic: slice bounds out of range. -/
  | slicePanic
deriving DecidableEq, Repr

/-- Modelled from the spec: the record `domain.Product` (the package `domain`
is not among the sources); fields as in section 3 of the specification. -/
structure Product where
  /-- Normalised product code. -/
  ProductId : Str
  /-- Film code and texture. -/
  MaterialId : Str
  /-- Device model token. -/
  ModelId : Str
  /-- Quantity. -/
  Qty : Int
deriving DecidableEq, Repr

/-- Start index `idx - len(match)` of the slice taken on line 91. -/
def sliceStart (productStr found : Str) : Int :=
  Index productStr '*' - ((utf8 found).length : Int)

/-- The bytes of `productStr[idx-len(match):idx]`, for a start index that is
not negative. -/
def sliceBefore (productStr found : Str) : List Nat :=
  (utf8 (productStr.takeWhile (fun d => d != '*'))).drop (sliceStart productStr found).toNat

/-- Lines 87-97 of `cleanProductString`, on the trimmed string. -/
def locate (productStr : Str) : Except Fault Str :=
  if !(FindString productStr).isEmpty then
    if 0 < Index productStr '*' then
      if sliceStart productStr (FindString productStr) < 0 then Except.error Fault.slicePanic
      else if (utf8 (FindString productStr)).isPrefixOf
          (sliceBefore productStr (FindString productStr)) then
        Except.ok (FindString productStr ++ productStr.dropWhile (fun d => d != '*'))
      else Except.ok (FindString productStr)
    else Except.ok (FindString productStr)
  else Except.ok productStr

/-- The method `cleanProductString`. -/
def cleanProductString (productStr : Str) : Except Fault Str :=
  locate (removePct20 (TrimSpace productStr))

/-- Lines 38-49 of `Parse`: the quantity marker is split off. -/
def splitQuantity (cleanProductStr : Str) : Str × Int :=
  if Contains cleanProductStr '*' then
    match Split cleanProductStr '*' with
    | [p0, p1] =>
      match Atoi p1 with
      | some qty => if 0 < qty then (p0, qty) else (p0, 1)
      | none => (p0, 1)
    | _ => (cleanProductStr, 1)
  else (cleanProductStr, 1)

/-- Lines 51-63 of `Parse`: the pattern match with its second attempt. -/
def extract (cleanProductStr : Str) : Option Submatch :=
  match FindStringSubmatch cleanProductStr with
  | some m => some m
  | none =>
    let fullStr := FindString cleanProductStr
    if !fullStr.isEmpty then FindStringSubmatch fullStr else none

/-- Body of the loop of `Parse` for one segment. -/
def parseSegment (productStr : Str) : Except Fault Product :=
  match cleanProductString productStr with
  | Except.error e => Except.error e
  | Except.ok cleaned =>
    let sq := splitQuantity cleaned
    match extract sq.1 with
    | none => Except.error Fault.ErrInvalidProductFormat
    | some m => Except.ok ⟨m.full, m.film ++ '-' :: m.texture, m.model, sq.2⟩

/-- The loop of `Parse` over the segments; it stops at the first fault. -/
def parseSegments : List Str → Except Fault (List Product)
  | [] => Except.ok []
  | s :: rest =>
    match parseSegment s with
    | Except.error e => Except.error e
    | Except.ok p =>
      match parseSegments rest with
      | Except.error e => Except.error e
      | Except.ok ps => Except.ok (p :: ps)

/-- The method `Parse`. -/
def Parse (platformProductId : Str) : Except Fault (List Product) :=
  parseSegments (Split platformProductId '/')

/-! ## `internal/service/order_service.go` -/

/-- The `float64` operations used by `ProcessOrders`. -/
structure FloatOps (F : Type) where
  /-- Conversion `float64(n)`, also used for the constants `100` and `0.00`. -/
  ofInt : Int → F
  /-- Division. -/
  div : F → F → F
  /-- Multiplication. -/
  mul : F → F → F
  /-- Go `math.Round`: nearest integer, halves away from zero. -/
  round : F → F

/-- Nearest integer, halves away from zero, on rationals. -/
def roundHalfAway (x : ℚ) : ℚ :=
  if 0 ≤ x then ((⌊x + 1 / 2⌋ : Int) : ℚ) else -((⌊-x + 1 / 2⌋ : Int) : ℚ)

/-- Exact arithmetic on rationals. -/
def exactOps : FloatOps ℚ where
  ofInt := fun n => (n : ℚ)
  div := fun a b => a / b
  mul := fun a b => a * b
  round := roundHalfAway

/-- The statement `unitPrice = math.Round(unitPrice*100) / 100`. -/
def round2 {F : Type} (A : FloatOps F) (x : F) : F :=
  A.div (A.round (A.mul x (A.ofInt 100))) (A.ofInt 100)

/-- Order in which `range` visits the entries of a map; the argument is the
list of entries in order of insertion, the number is the position of the input
line whose map is visited.  Go leaves the order unspecified. -/
structure MapOrder where
  /-- The entries in the order visited. -/
  order : Nat → List (Str × Int) → List (Str × Int)
  /-- Every entry is visited once. -/
  perm : ∀ i m, List.Perm (order i m) m

/-- Entries visited in order of insertion. -/
def insertionOrder : MapOrder where
  order := fun _ m => m
  perm := fun _ m => List.Perm.refl m

/-- Entries visited in reverse order of insertion. -/
def reverseOrder : MapOrder where
  order := fun _ m => m.reverse
  perm := fun _ m => List.reverse_perm m

/-- Modelled from the spec: the record `domain.InputOrder` (the package
`domain` is not among the sources); fields as in section 3 of the
specification and in the tests. -/
structure InputOrder (F : Type) where
  /-- Line number of the input. -/
  No : Int
  /-- Raw SKU. -/
  PlatformProductId : Str
  /-- Quantity of the input line. -/
  Qty : Int
  /-- Unit price of the input line. -/
  UnitPrice : F
  /-- Total price of the input line. -/
  TotalPrice : F

/-- Modelled from the spec: the record `domain.CleanedOrder` (the package
`domain` is not among the sources); fields as in section 3 of the
specification and in the tests. -/
structure CleanedOrder (F : Type) where
  /-- Output line number. -/
  No : Int
  /-- Product code. -/
  ProductId : Str
  /-- Film code and texture, empty on complementary lines. -/
  MaterialId : Str
  /-- Model token, empty on complementary lines. -/
  ModelId : Str
  /-- Quantity. -/
  Qty : Int
  /-- Unit price. -/
  UnitPrice : F
  /-- Total price. -/
  TotalPrice : F
deriving DecidableEq, Repr

/-- The line appended for one product (lines 40-53). -/
def productLine {F : Type} (A : FloatOps F) (pricePerProduct : F) (orderNo : Int)
    (product : Product) : CleanedOrder F :=
  let unitPrice := A.div pricePerProduct (A.ofInt product.Qty)
  let unitPrice := round2 A unitPrice
  { No := orderNo
    ProductId := product.ProductId
    MaterialId := product.MaterialId
    ModelId := product.ModelId
    Qty := product.Qty
    UnitPrice := unitPrice
    TotalPrice := A.mul unitPrice (A.ofInt product.Qty) }

/-- State of the loops: `cleanedOrders` and `orderNo`.  The counter is at most
one more than the length of the slice, so it stays in the `int` range. -/
abbrev Acc (F : Type) := List (CleanedOrder F) × Int

/-- The first inner loop (lines 39-58); the third component is `totalQty`. -/
def productLoop {F : Type} (A : FloatOps F) (pricePerProduct : F) :
    List Product → Acc F × Int → Acc F × Int
  | [], st => st
  | product :: rest, ((cleanedOrders, orderNo), totalQty) =>
    productLoop A pricePerProduct rest
      ((cleanedOrders ++ [productLine A pricePerProduct orderNo product], orderNo + 1),
        wrapInt (totalQty + product.Qty))

/-- The statement `textureQty[texture] += qty` on the entries in order of
insertion. -/
def mapAdd : List (Str × Int) → Str → Int → List (Str × Int)
  | [], texture, qty => [(texture, wrapInt (0 + qty))]
  | (k, v) :: rest, texture, qty =>
    if k = texture then (k, wrapInt (v + qty)) :: rest else (k, v) :: mapAdd rest texture qty

/-- The second inner loop (lines 60-68). -/
def textureLoop : List Product → List (Str × Int) → List (Str × Int)
  | [], textureQty => textureQty
  | product :: rest, textureQty =>
    match Split product.MaterialId '-' with
    | [_, texture] => textureLoop rest (mapAdd textureQty texture product.Qty)
    | _ => textureLoop rest textureQty

/-- The complementary line for the wiping cloth (lines 73-79). -/
def clothLine {F : Type} (A : FloatOps F) (orderNo totalQty : Int) : CleanedOrder F :=
  { No := orderNo
    ProductId := "WIPING-CLOTH".toList
    MaterialId := []
    ModelId := []
    Qty := totalQty
    UnitPrice := A.ofInt 0
    TotalPrice := A.ofInt 0 }

/-- The complementary line for one texture (lines 84-90). -/
def cleanerLine {F : Type} (A : FloatOps F) (orderNo : Int) (entry : Str × Int) :
    CleanedOrder F :=
  { No := orderNo
    ProductId := entry.1 ++ "-CLEANNER".toList
    MaterialId := []
    ModelId := []
    Qty := entry.2
    UnitPrice := A.ofInt 0
    TotalPrice := A.ofInt 0 }

/-- The third inner loop (lines 83-92), over the entries in the order visited. -/
def cleanerLoop {F : Type} (A : FloatOps F) : List (Str × Int) → Acc F → Acc F
  | [], st => st
  | entry :: rest, (cleanedOrders, orderNo) =>
    cleanerLoop A rest (cleanedOrders ++ [cleanerLine A orderNo entry], orderNo + 1)

/-- Body of the outer loop for the input line at position `i`, after a
successful `Parse`. -/
def expandLine {F : Type} (A : FloatOps F) (ord : MapOrder) (i : Nat) (totalPrice : F)
    (products : List Product) (st : Acc F) : Acc F :=
  let pricePerProduct := A.div totalPrice (A.ofInt (products.length : Int))
  let r := productLoop A pricePerProduct products (st, 0)
  let textureQty := textureLoop products []
  let cleanedOrders := r.1.1 ++ [clothLine A r.1.2 r.2]
  let orderNo := r.1.2 + 1
  cleanerLoop A (ord.order i textureQty) (cleanedOrders, orderNo)

/-- The outer loop (lines 29-93) from the input line at position `i` on. -/
def orderLoop {F : Type} (A : FloatOps F) (ord : MapOrder) :
    List (InputOrder F) → Nat → Acc F → Except Fault (Acc F)
  | [], _, st => Except.ok st
  | input :: rest, i, st =>
    match Parse input.PlatformProductId with
    | Except.error e => Except.error e
    | Except.ok products => orderLoop A ord rest (i + 1) (expandLine A ord i input.TotalPrice products st)

/-- The method `ProcessOrders`. -/
def ProcessOrders {F : Type} (A : FloatOps F) (ord : MapOrder) (inputOrders : List (InputOrder F)) :
    Except Fault (List (CleanedOrder F)) :=
  match orderLoop A ord inputOrders 0 ([], 1) with
  | Except.error e => Except.error e
  | Except.ok st => Except.ok st.1

/-! ## The lines emitted for one input line -/

/-- Product lines numbered from `orderNo` on. -/
def productLines {F : Type} (A : FloatOps F) (pricePerProduct : F) :
    Int → List Product → List (CleanedOrder F)
  | _, [] => []
  | orderNo, p :: ps =>
    productLine A pricePerProduct orderNo p :: productLines A pricePerProduct (orderNo + 1) ps

/-- Cleaner lines numbered from `orderNo` on. -/
def cleanerLines {F : Type} (A : FloatOps F) : Int → List (Str × Int) → List (CleanedOrder F)
  | _, [] => []
  | orderNo, e :: es => cleanerLine A orderNo e :: cleanerLines A (orderNo + 1) es

/-- Value of `totalQty` after the first inner loop. -/
def totalQty (ps : List Product) : Int :=
  ps.foldl (fun a p => wrapInt (a + p.Qty)) 0

/-- The output lines of one input line: product lines, the wiping cloth and
the cleaner lines. -/
structure LineBlock (F : Type) where
  /-- The product lines. -/
  products : List (CleanedOrder F)
  /-- The line after the product lines. -/
  cloth : CleanedOrder F
  /-- The lines after the cloth line. -/
  cleaners : List (CleanedOrder F)

/-- The lines of a block in output order. -/
def LineBlock.lines {F : Type} (b : LineBlock F) : List (CleanedOrder F) :=
  b.products ++ b.cloth :: b.cleaners

/-- The block emitted for the input line at position `i` with total price
`totalPrice` and parsed products `ps`, when the counter stands at `orderNo`. -/
def blockOf {F : Type} (A : FloatOps F) (ord : MapOrder) (i : Nat) (totalPrice : F)
    (ps : List Product) (orderNo : Int) : LineBlock F :=
  { products := productLines A (A.div totalPrice (A.ofInt (ps.length : Int))) orderNo ps
    cloth := clothLine A (orderNo + ps.length) (totalQty ps)
    cleaners := cleanerLines A (orderNo + ps.length + 1) (ord.order i (textureLoop ps [])) }

/-- The product a product line was made from. -/
def CleanedOrder.product {F : Type} (l : CleanedOrder F) : Product :=
  ⟨l.ProductId, l.MaterialId, l.ModelId, l.Qty⟩

/-! ## Notions used in the statements -/

/-- A film code: `FG0` followed by 1 or 2 characters of `[A-Z0-9]`. -/
def IsFilmCode (F : Str) : Prop :=
  ∃ a, isCodeChar a = true ∧ (F = ['F', 'G', '0', a] ∨
    ∃ b, isCodeChar b = true ∧ F = ['F', 'G', '0', a, b])

/-- Shape of a match of the pattern. -/
def Shape (m : Submatch) : Prop :=
  IsFilmCode m.film ∧
  m.texture ∈ textures ∧ m.model ≠ [] ∧ (∀ c ∈ m.model, isModelChar c = true) ∧
  m.full = m.film ++ '-' :: (m.texture ++ '-' :: m.model)

/-- The text after a match does not continue the model token. -/
def StopsModel (rest : Str) : Prop := ∀ c r, rest = c :: r → isModelChar c = false

/-- The texture of a product: the part of MaterialId after its first `-`. -/
def textureOf (p : Product) : Str := (p.MaterialId.dropWhile (fun c => c != '-')).drop 1

/-- Sum of the quantities of the products with texture `t`. -/
def textureSum (t : Str) (ps : List Product) : Int :=
  ((ps.filter (fun p => decide (textureOf p = t))).map Product.Qty).sum

/-- Value stored under a key. -/
def mapGet : List (Str × Int) → Str → Option Int
  | [], _ => none
  | (k, v) :: rest, t => if k = t then some v else mapGet rest t

/-- The line at position `k` (counted from 0) of a successful result. -/
def lineAt {F : Type} (r : Except Fault (List (CleanedOrder F))) (k : Nat) :
    Option (CleanedOrder F) :=
  match r with
  | Except.ok out => out.get? k
  | Except.error _ => none

/-- The lines are numbered consecutively from `start` on. -/
def NumberedFrom {F : Type} : Int → List (CleanedOrder F) → Prop
  | _, [] => True
  | start, l :: ls => l.No = start ∧ NumberedFrom (start + 1) ls

/-- The text after the quantity marker as `Parse` reads it: trailing white
space trimmed, then every `%20` deleted. -/
def cleanSuffix (r : Str) : Str := removePct20 (trimLeft r.reverse).reverse

/-- Sum of the values of a map. -/
def mapTotal (m : List (Str × Int)) : Int := (m.map Prod.snd).sum

/-- The noise before the product code as `Parse` reads it: leading white space
trimmed, then every `%20` deleted. -/
def cleanPrefix (N : Str) : Str := removePct20 (trimLeft N)

/-- No match of the pattern starts at a position inside `pre` when `pre` is
followed by `rest`. -/
def noMatchStartsIn : Str → Str → Bool
  | [], _ => true
  | c :: cs, rest => (matchAt (c :: cs ++ rest)).isNone && noMatchStartsIn cs rest

/-! ## IEEE 754 binary64 arithmetic

The `float64` operations of Go, round to nearest with ties to even.  Every
finite `float64` is a whole multiple of 2^-1074, the smallest positive value;
a finite value is kept as its sign and its magnitude counted in that unit.
The NaN values are not told apart. -/

/-- A `float64` value. -/
inductive F64 where
  /-- A finite value: `neg` is the sign bit, `mag` the magnitude in units of
  2^-1074; `finite true 0` is the negative zero. -/
  | finite (neg : Bool) (mag : Nat)
  /-- An infinity. -/
  | inf (neg : Bool)
  /-- Not a number. -/
  | nan
deriving DecidableEq, Repr

/-- Nearest integer to `num / den`, ties to the even one. -/
def roundTiesEven (num den : Nat) : Nat :=
  if 2 * (num % den) < den then num / den
  else if den < 2 * (num % den) then num / den + 1
  else if num / den % 2 = 0 then num / den
  else num / den + 1

/-- Number of halvings that bring `n` below 2, with `fuel` steps at most. -/
def log2Steps : Nat → Nat → Nat
  | 0, _ => 0
  | fuel + 1, n => if n < 2 then 0 else log2Steps fuel (n / 2) + 1

/-- Number of halvings that bring `n` below 2, counted 64 at a time while `n`
has more than 64 bits, with `fuel` such steps at most. -/
def log2Chunks : Nat → Nat → Nat
  | 0, _ => 0
  | fuel + 1, n => if n < 2 ^ 64 then log2Steps 64 n else log2Chunks fuel (n / 2 ^ 64) + 64

/-- Position of the leading bit of `n`: the floor of its binary logarithm, and
0 for 0. -/
def floorLog2 (n : Nat) : Nat := log2Chunks n n

/-- Nearest magnitude with 53 significant bits to `num / den` units, ties to
the even significand; below 2^53 units the spacing is one unit. -/
def roundMag (num den : Nat) : Nat :=
  roundTiesEven num (den * 2 ^ (floorLog2 (num / den) - 52)) * 2 ^ (floorLog2 (num / den) - 52)

/-- The `float64` nearest to `num / den` units with the given sign; a result of
2^1024 or more is an infinity. -/
def F64.ofQuot (neg : Bool) (num den : Nat) : F64 :=
  if roundMag num den < 2 ^ 2098 then F64.finite neg (roundMag num den) else F64.inf neg

/-- Conversion `float64(n)` of an `int`. -/
def F64.ofInt (n : Int) : F64 := F64.ofQuot (decide (n < 0)) (n.natAbs * 2 ^ 1074) 1

/-- Product of two `float64`. -/
def F64.mul : F64 → F64 → F64
  | F64.nan, _ => F64.nan
  | _, F64.nan => F64.nan
  | F64.inf s, F64.inf t => F64.inf (s != t)
  | F64.inf s, F64.finite t m => if m = 0 then F64.nan else F64.inf (s != t)
  | F64.finite s m, F64.inf t => if m = 0 then F64.nan else F64.inf (s != t)
  | F64.finite s a, F64.finite t b => F64.ofQuot (s != t) (a * b) (2 ^ 1074)

/-- Quotient of two `float64`. -/
def F64.div : F64 → F64 → F64
  | F64.nan, _ => F64.nan
  | _, F64.nan => F64.nan
  | F64.inf _, F64.inf _ => F64.nan
  | F64.inf s, F64.finite t _ => F64.inf (s != t)
  | F64.finite s _, F64.inf t => F64.finite (s != t) 0
  | F64.finite s a, F64.finite t b =>
    if b = 0 then (if a = 0 then F64.nan else F64.inf (s != t))
    else F64.ofQuot (s != t) (a * 2 ^ 1074) b

/-- Go `math.Round` on `float64`: the nearest integer, halves away from zero;
zeros, infinities and NaN are returned as they are. -/
def F64.round : F64 → F64
  | F64.finite s m => F64.finite s ((2 * m + 2 ^ 1074) / 2 ^ 1075 * 2 ^ 1074)
  | F64.inf s => F64.inf s
  | F64.nan => F64.nan

/-- The arithmetic of the Go type `float64`. -/
def float64Ops : FloatOps F64 where
  ofInt := F64.ofInt
  div := F64.div
  mul := F64.mul
  round := F64.round

/-- The rational value of a finite `float64`. -/
def F64.toRat : F64 → Option ℚ
  | F64.finite s m => some ((if s then -1 else 1) * (m : ℚ) / 2 ^ 1074)
  | _ => none

/-! ## Test inputs of `test/order_test.go` -/

/-- Input of "Case 1: Only one product". -/
def case1 : List (InputOrder ℚ) :=
  [⟨1, "FG0A-CLEAR-IPHONE16PROMAX".toList, 2, 50, 100⟩]

/-- Input of "Case 2: One product with wrong prefix". -/
def case2 : List (InputOrder ℚ) :=
  [⟨1, "x2-3&FG0A-CLEAR-IPHONE16PROMAX".toList, 2, 50, 100⟩]

/-- Input of "Case 6", a bundle with a quantity marker. -/
def case6 : List (InputOrder ℚ) :=
  [⟨1, "--FG0A-CLEAR-OPPOA3*2/FG0A-MATTE-OPPOA3".toList, 1, 120, 120⟩]

/-- Input of "Case 7", two input lines. -/
def case7 : List (InputOrder ℚ) :=
  [⟨1, "--FG0A-CLEAR-OPPOA3*2/FG0A-MATTE-OPPOA3*2".toList, 1, 160, 160⟩,
   ⟨2, "FG0A-PRIVACY-IPHONE16PROMAX".toList, 1, 50, 50⟩]

/-- Expected run of the code on `case6` with the map visited in order of insertion. -/
def case6Out : List (CleanedOrder ℚ) :=
  [⟨1, "FG0A-CLEAR-OPPOA3".toList, "FG0A-CLEAR".toList, "OPPOA3".toList, 2, 30, 60⟩,
   ⟨2, "FG0A-MATTE-OPPOA3".toList, "FG0A-MATTE".toList, "OPPOA3".toList, 1, 60, 60⟩,
   ⟨3, "WIPING-CLOTH".toList, [], [], 3, 0, 0⟩,
   ⟨4, "CLEAR-CLEANNER".toList, [], [], 2, 0, 0⟩,
   ⟨5, "MATTE-CLEANNER".toList, [], [], 1, 0, 0⟩]

/-- Run of the code on `case6` with the map visited in reverse order of insertion. -/
def case6OutReversed : List (CleanedOrder ℚ) :=
  [⟨1, "FG0A-CLEAR-OPPOA3".toList, "FG0A-CLEAR".toList, "OPPOA3".toList, 2, 30, 60⟩,
   ⟨2, "FG0A-MATTE-OPPOA3".toList, "FG0A-MATTE".toList, "OPPOA3".toList, 1, 60, 60⟩,
   ⟨3, "WIPING-CLOTH".toList, [], [], 3, 0, 0⟩,
   ⟨4, "MATTE-CLEANNER".toList, [], [], 1, 0, 0⟩,
   ⟨5, "CLEAR-CLEANNER".toList, [], [], 2, 0, 0⟩]

/-- Run of the code on `case7` with the maps visited in order of insertion. -/
def case7Out : List (CleanedOrder ℚ) :=
  [⟨1, "FG0A-CLEAR-OPPOA3".toList, "FG0A-CLEAR".toList, "OPPOA3".toList, 2, 40, 80⟩,
   ⟨2, "FG0A-MATTE-OPPOA3".toList, "FG0A-MATTE".toList, "OPPOA3".toList, 2, 40, 80⟩,
   ⟨3, "WIPING-CLOTH".toList, [], [], 4, 0, 0⟩,
   ⟨4, "CLEAR-CLEANNER".toList, [], [], 2, 0, 0⟩,
   ⟨5, "MATTE-CLEANNER".toList, [], [], 2, 0, 0⟩,
   ⟨6, "FG0A-PRIVACY-IPHONE16PROMAX".toList, "FG0A-PRIVACY".toList, "IPHONE16PROMAX".toList,
     1, 50, 50⟩,
   ⟨7, "WIPING-CLOTH".toList, [], [], 1, 0, 0⟩,
   ⟨8, "PRIVACY-CLEANNER".toList, [], [], 1, 0, 0⟩]

/-- A line whose two products share a texture and have quantities that add up
to one more than the largest `int`. -/
def hugeTexture : List (InputOrder ℚ) :=
  [⟨1, "FG0A-MATTE-X*9223372036854775807/FG0A-MATTE-Y*1".toList, 1, 100, 100⟩]

/-- A line whose two products have the largest `int` as quantity. -/
def hugeQty : List (InputOrder ℚ) :=
  [⟨1, "FG0A-CLEAR-X*9223372036854775807/FG0A-CLEAR-Y*9223372036854775807".toList, 1, 100, 100⟩]

/-- The line of `case6`, same SKU and total price, with other values in the
fields No, Qty and UnitPrice. -/
def case6Relabelled : List (InputOrder ℚ) :=
  [⟨7, "--FG0A-CLEAR-OPPOA3*2/FG0A-MATTE-OPPOA3".toList, 5, 3, 120⟩]

/-- A line whose two products have different textures and the largest `int`
as quantity. -/
def hugeTwoTextures : List (InputOrder ℚ) :=
  [⟨1, "FG0A-CLEAR-X*9223372036854775807/FG0A-MATTE-Y*9223372036854775807".toList, 1, 100, 100⟩]

/-- A batch whose first SKU makes `Parse` abort and whose second SKU contains
no product code. -/
def panicThenInvalid : List (InputOrder ℚ) :=
  [⟨1, "2*FG0A-CLEAR-IPHONE16PROMAX".toList, 1, 100, 100⟩,
   ⟨2, "RANDOM-TEXT".toList, 1, 50, 50⟩]

/-- A batch whose second SKU contains no product code. -/
def validThenInvalid : List (InputOrder ℚ) :=
  [⟨1, "FG0A-CLEAR-IPHONE16PROMAX".toList, 2, 50, 100⟩,
   ⟨2, "RANDOM-TEXT".toList, 1, 50, 50⟩]

/-- One line for one product with quantity 200 and total price 201. -/
def tie201 : List (InputOrder F64) :=
  [⟨1, "FG0A-CLEAR-X*200".toList, 1, F64.ofInt 201, F64.ofInt 201⟩]

/-- One line for one product with quantity 40 and total price 3. -/
def tie3 : List (InputOrder F64) :=
  [⟨1, "FG0A-CLEAR-X*40".toList, 1, F64.ofInt 3, F64.ofInt 3⟩]

/-- One line for one product with quantity 3 and total price 100. -/
def third100 : List (InputOrder F64) :=
  [⟨1, "FG0A-CLEAR-X*3".toList, 1, F64.ofInt 100, F64.ofInt 100⟩]

/-! ## Evaluation lemmas -/

/-- A map with one entry is visited in one way. -/
theorem order_singleton (ord : MapOrder) (i : Nat) (e : Str × Int) : ord.order i [e] = [e] :=
  List.perm_singleton.mp (ord.perm i [e])

/-- Symbolic run of `ProcessOrders` on a line with the SKU of case 1. -/
theorem run_case1 {F : Type} (A : FloatOps F) (ord : MapOrder) (n q : Int) (u t : F) :
    ProcessOrders A ord [⟨n, "FG0A-CLEAR-IPHONE16PROMAX".toList, q, u, t⟩] =
      Except.ok [productLine A (A.div t (A.ofInt 1)) 1
          ⟨"FG0A-CLEAR-IPHONE16PROMAX".toList, "FG0A-CLEAR".toList, "IPHONE16PROMAX".toList, 1⟩,
        clothLine A 2 1, cleanerLine A 3 ("CLEAR".toList, 1)] := by
  have h : ProcessOrders A ord [⟨n, "FG0A-CLEAR-IPHONE16PROMAX".toList, q, u, t⟩] =
      Except.ok (cleanerLoop A (ord.order 0 [("CLEAR".toList, 1)])
        ([productLine A (A.div t (A.ofInt 1)) 1
          ⟨"FG0A-CLEAR-IPHONE16PROMAX".toList, "FG0A-CLEAR".toList, "IPHONE16PROMAX".toList, 1⟩,
          clothLine A 2 1], 3)).1 := rfl
  rw [h, order_singleton]
  rfl

/-- Symbolic run of `ProcessOrders` on a line with the SKU of case 2. -/
theorem run_case2 {F : Type} (A : FloatOps F) (ord : MapOrder) (n q : Int) (u t : F) :
    ProcessOrders A ord [⟨n, "x2-3&FG0A-CLEAR-IPHONE16PROMAX".toList, q, u, t⟩] =
      Except.ok [productLine A (A.div t (A.ofInt 1)) 1
          ⟨"FG0A-CLEAR-IPHONE16PROMAX".toList, "FG0A-CLEAR".toList, "IPHONE16PROMAX".toList, 1⟩,
        clothLine A 2 1, cleanerLine A 3 ("CLEAR".toList, 1)] := by
  have h : ProcessOrders A ord [⟨n, "x2-3&FG0A-CLEAR-IPHONE16PROMAX".toList, q, u, t⟩] =
      Except.ok (cleanerLoop A (ord.order 0 [("CLEAR".toList, 1)])
        ([productLine A (A.div t (A.ofInt 1)) 1
          ⟨"FG0A-CLEAR-IPHONE16PROMAX".toList, "FG0A-CLEAR".toList, "IPHONE16PROMAX".toList, 1⟩,
          clothLine A 2 1], 3)).1 := rfl
  rw [h, order_singleton]
  rfl

/-- Exact value of the unit price `100 / 1 / 1`. -/
theorem price_case1 :
    productLine exactOps (exactOps.div 100 (exactOps.ofInt 1)) 1
      ⟨"FG0A-CLEAR-IPHONE16PROMAX".toList, "FG0A-CLEAR".toList, "IPHONE16PROMAX".toList, 1⟩ =
    ⟨1, "FG0A-CLEAR-IPHONE16PROMAX".toList, "FG0A-CLEAR".toList, "IPHONE16PROMAX".toList,
      1, 100, 100⟩ := by
  simp only [productLine, round2, exactOps, roundHalfAway]
  norm_num

/-! ## Shape of the parsed products -/

theorem matchModel_spec (film t s : Str) (m : Submatch) (h : matchModel film t s = some m) :
    m.film = film ∧ m.texture = t ∧ m.model ≠ [] ∧ (∀ c ∈ m.model, isModelChar c = true) ∧
      m.full = film ++ '-' :: (t ++ '-' :: m.model) ∧
      ∃ r, s = '-' :: r ∧ m.model = r.takeWhile isModelChar := by
  unfold matchModel at h
  split at h
  · rename_i r
    by_cases hne : (r.takeWhile isModelChar).isEmpty = true
    · simp [hne] at h
    simp only [hne, Bool.false_eq_true, if_false, Option.some.injEq] at h
    subst h
    refine ⟨rfl, rfl, ?_, ?_, rfl, r, rfl, rfl⟩
    · intro h0
      apply hne
      rw [show List.takeWhile isModelChar r = [] from h0]
      rfl
    · intro c hc
      exact (List.mem_takeWhile_imp hc)
  · exact absurd h (by simp)

theorem matchTexture_spec (film s : Str) (ts : List Str) (m : Submatch)
    (h : matchTexture film s ts = some m) :
    ∃ t r, t ∈ ts ∧ dropPrefix? t s = some r ∧ matchModel film t r = some m := by
  induction ts with
  | nil => simp [matchTexture] at h
  | cons t ts ih =>
    unfold matchTexture at h
    split at h
    · rename_i r hr
      split at h
      · rename_i m1 hm
        simp only [Option.some.injEq] at h
        subst h
        exact ⟨t, r, List.mem_cons_self _ _, hr, hm⟩
      · obtain ⟨t1, r1, h1, h2⟩ := ih h
        exact ⟨t1, r1, List.mem_cons_of_mem _ h1, h2⟩
    · obtain ⟨t1, r1, h1, h2⟩ := ih h
      exact ⟨t1, r1, List.mem_cons_of_mem _ h1, h2⟩

theorem matchRest_shape (film s : Str) (m : Submatch) (h : matchRest film s = some m) :
    m.film = film ∧ m.texture ∈ textures ∧ m.model ≠ [] ∧ (∀ c ∈ m.model, isModelChar c = true) ∧
      m.full = film ++ '-' :: (m.texture ++ '-' :: m.model) := by
  unfold matchRest at h
  split at h
  · obtain ⟨t, r, ht, -, hm⟩ := matchTexture_spec _ _ _ _ h
    obtain ⟨h1, h2, h3, h4, h5, -⟩ := matchModel_spec _ _ _ _ hm
    exact ⟨h1, h2 ▸ ht, h3, h4, h2 ▸ h5⟩
  · exact absurd h (by simp)

theorem matchFilm2_shape (a : Char) (r : Str) (m : Submatch) (h : matchFilm2 a r = some m) :
    ∃ b, isCodeChar b = true ∧ m.film = ['F', 'G', '0', a, b] ∧ m.texture ∈ textures ∧
      m.model ≠ [] ∧ (∀ c ∈ m.model, isModelChar c = true) ∧
      m.full = m.film ++ '-' :: (m.texture ++ '-' :: m.model) := by
  unfold matchFilm2 at h
  split at h
  · rename_i b r2
    split_ifs at h with hb
    obtain ⟨h1, h2, h3, h4, h5⟩ := matchRest_shape _ _ _ h
    exact ⟨b, hb, h1, h2, h3, h4, h1 ▸ h5⟩
  · exact absurd h (by simp)

theorem matchAt_shape (s : Str) (m : Submatch) (h : matchAt s = some m) : Shape m := by
  unfold matchAt at h
  split at h
  · rename_i a r
    split_ifs at h with ha
    split at h
    · rename_i m1 htwo
      simp only [Option.some.injEq] at h
      subst h
      obtain ⟨b, hb, h1, h2, h3, h4, h5⟩ := matchFilm2_shape _ _ _ htwo
      exact ⟨⟨a, ha, Or.inr ⟨b, hb, h1⟩⟩, h2, h3, h4, h5⟩
    · obtain ⟨h1, h2, h3, h4, h5⟩ := matchRest_shape _ _ _ h
      exact ⟨⟨a, ha, Or.inl h1⟩, h2, h3, h4, h1 ▸ h5⟩
  · exact absurd h (by simp)

theorem FindStringSubmatch_shape (s : Str) (m : Submatch) (h : FindStringSubmatch s = some m) :
    Shape m := by
  induction s with
  | nil => simp [FindStringSubmatch] at h
  | cons c cs ih =>
    unfold FindStringSubmatch at h
    split at h
    · rename_i m1 hm
      simp only [Option.some.injEq] at h
      exact h ▸ matchAt_shape _ _ hm
    · exact ih h

theorem extract_shape (s : Str) (m : Submatch) (h : extract s = some m) : Shape m := by
  unfold extract at h
  split at h
  · rename_i m1 hm
    simp only [Option.some.injEq] at h
    exact h ▸ FindStringSubmatch_shape _ _ hm
  · dsimp only at h
    split_ifs at h
    exact FindStringSubmatch_shape _ _ h

theorem Atoi_le (s : Str) (v : Int) (h : Atoi s = some v) : v ≤ maxInt := by
  unfold Atoi at h
  split_ifs at h with h1 h2
  simp only [Option.some.injEq] at h
  push_neg at h2
  exact h ▸ h2.2

theorem splitQuantity_range (s : Str) : 1 ≤ (splitQuantity s).2 ∧ (splitQuantity s).2 ≤ maxInt := by
  have h1 : (1 : Int) ≤ maxInt := by decide
  unfold splitQuantity
  split_ifs
  · split
    · split
      · rename_i qty hq
        split_ifs
        · exact ⟨by omega, Atoi_le _ _ hq⟩
        · exact ⟨le_refl _, h1⟩
      · exact ⟨le_refl _, h1⟩
    · exact ⟨le_refl _, h1⟩
  · exact ⟨le_refl _, h1⟩

/-- A product returned for one segment comes from a match and has a quantity
between 1 and the largest `int`. -/
theorem parseSegment_shape (s : Str) (p : Product) (h : parseSegment s = Except.ok p) :
    ∃ m, Shape m ∧ p.ProductId = m.full ∧ p.MaterialId = m.film ++ '-' :: m.texture ∧
      p.ModelId = m.model ∧ 1 ≤ p.Qty ∧ p.Qty ≤ maxInt := by
  unfold parseSegment at h
  split at h
  · exact absurd h (by simp)
  · rename_i cleaned hc
    dsimp only at h
    split at h
    · exact absurd h (by simp)
    · rename_i m hm
      simp only [Except.ok.injEq] at h
      subst h
      exact ⟨m, extract_shape _ _ hm, rfl, rfl, rfl, splitQuantity_range _⟩

theorem forall₂_mem_right {α β : Type} {R : α → β → Prop} {l1 : List α} {l2 : List β}
    (hf : List.Forall₂ R l1 l2) {b : β} (hb : b ∈ l2) : ∃ a, a ∈ l1 ∧ R a b := by
  induction hf with
  | nil => simp at hb
  | cons h1 _ ih =>
    rcases List.mem_cons.mp hb with rfl | hb
    · exact ⟨_, List.mem_cons_self _ _, h1⟩
    · obtain ⟨a, ha, h2⟩ := ih hb
      exact ⟨a, List.mem_cons_of_mem _ ha, h2⟩

/-- Result of the segment loop, element by element. -/
theorem parseSegments_forall₂ (segs : List Str) (ps : List Product)
    (h : parseSegments segs = Except.ok ps) :
    List.Forall₂ (fun s p => parseSegment s = Except.ok p) segs ps := by
  induction segs generalizing ps with
  | nil =>
    simp only [parseSegments, Except.ok.injEq] at h
    subst h
    exact List.Forall₂.nil
  | cons s rest ih =>
    unfold parseSegments at h
    split at h
    · exact absurd h (by simp)
    · rename_i p hp
      split at h
      · exact absurd h (by simp)
      · rename_i ps1 hps
        simp only [Except.ok.injEq] at h
        subst h
        exact List.Forall₂.cons hp (ih _ hps)

/-- Every product returned by `Parse` comes from a match and has a quantity
between 1 and the largest `int`. -/
theorem Parse_shape (s : Str) (ps : List Product) (h : Parse s = Except.ok ps) (p : Product)
    (hp : p ∈ ps) :
    ∃ m, Shape m ∧ p.ProductId = m.full ∧ p.MaterialId = m.film ++ '-' :: m.texture ∧
      p.ModelId = m.model ∧ 1 ≤ p.Qty ∧ p.Qty ≤ maxInt := by
  obtain ⟨s1, -, h1⟩ := forall₂_mem_right (parseSegments_forall₂ _ _ h) hp
  exact parseSegment_shape _ _ h1

/-! ## Structure of the loops -/

theorem wrapInt_add_left (a b : Int) : wrapInt (wrapInt a + b) = wrapInt (a + b) := by
  unfold wrapInt
  have h : (a + 9223372036854775808) % 18446744073709551616 - 9223372036854775808 + b +
      9223372036854775808 = (a + 9223372036854775808) % 18446744073709551616 + b := by ring
  rw [h, Int.emod_add_emod]
  congr 2
  ring

theorem wrapInt_of_range (x : Int) (h1 : minInt ≤ x) (h2 : x ≤ maxInt) : wrapInt x = x := by
  unfold wrapInt
  unfold minInt at h1
  unfold maxInt at h2
  rw [Int.emod_eq_of_lt (by omega) (by omega)]
  omega

theorem foldl_wrap (ps : List Product) (t : Int) :
    ps.foldl (fun a p => wrapInt (a + p.Qty)) (wrapInt t) =
      wrapInt (t + (ps.map Product.Qty).sum) := by
  induction ps generalizing t with
  | nil => simp
  | cons p ps ih =>
    simp only [List.foldl_cons, List.map_cons, List.sum_cons]
    rw [wrapInt_add_left, ih, add_assoc]

/-- The loop total is the sum of the quantities, reduced to the `int` range. -/
theorem totalQty_eq (ps : List Product) : totalQty ps = wrapInt (ps.map Product.Qty).sum := by
  have h := foldl_wrap ps 0
  have h0 : wrapInt 0 = 0 := by decide
  rw [h0, zero_add] at h
  exact h

theorem productLoop_eq {F : Type} (A : FloatOps F) (ppp : F) (ps : List Product)
    (co : List (CleanedOrder F)) (no tq : Int) :
    productLoop A ppp ps ((co, no), tq) =
      ((co ++ productLines A ppp no ps, no + ps.length),
        ps.foldl (fun a p => wrapInt (a + p.Qty)) tq) := by
  induction ps generalizing co no tq with
  | nil => simp [productLoop, productLines]
  | cons p ps ih =>
    simp only [productLoop, productLines, ih, List.foldl_cons, List.length_cons, List.append_assoc,
      List.singleton_append, Nat.cast_add, Nat.cast_one]
    congr 2
    ring

theorem cleanerLoop_eq {F : Type} (A : FloatOps F) (es : List (Str × Int))
    (co : List (CleanedOrder F)) (no : Int) :
    cleanerLoop A es (co, no) = (co ++ cleanerLines A no es, no + es.length) := by
  induction es generalizing co no with
  | nil => simp [cleanerLoop, cleanerLines]
  | cons e es ih =>
    simp only [cleanerLoop, cleanerLines, ih, List.length_cons, List.append_assoc,
      List.singleton_append, Nat.cast_add, Nat.cast_one]
    congr 1
    ring

theorem productLines_length {F : Type} (A : FloatOps F) (ppp : F) (no : Int) (ps : List Product) :
    (productLines A ppp no ps).length = ps.length := by
  induction ps generalizing no with
  | nil => rfl
  | cons p ps ih => simp [productLines, ih]

theorem cleanerLines_length {F : Type} (A : FloatOps F) (no : Int) (es : List (Str × Int)) :
    (cleanerLines A no es).length = es.length := by
  induction es generalizing no with
  | nil => rfl
  | cons e es ih => simp [cleanerLines, ih]

/-- One iteration of the outer loop appends the block of the line. -/
theorem expandLine_eq {F : Type} (A : FloatOps F) (ord : MapOrder) (i : Nat) (t : F)
    (ps : List Product) (co : List (CleanedOrder F)) (no : Int) :
    expandLine A ord i t ps (co, no) =
      (co ++ (blockOf A ord i t ps no).lines, no + (blockOf A ord i t ps no).lines.length) := by
  simp only [expandLine, productLoop_eq, cleanerLoop_eq, blockOf, LineBlock.lines, totalQty,
    List.append_assoc, List.singleton_append, List.length_append, List.length_cons,
    productLines_length, cleanerLines_length]
  congr 1
  push_cast
  ring

/-- A successful run of the outer loop appends one block per input line. -/
theorem orderLoop_blocks {F : Type} (A : FloatOps F) (ord : MapOrder)
    (inputs : List (InputOrder F)) (i : Nat) (co : List (CleanedOrder F)) (no : Int)
    (st : Acc F) (h : orderLoop A ord inputs i (co, no) = Except.ok st) :
    ∃ blocks : List (LineBlock F),
      st.1 = co ++ (blocks.map LineBlock.lines).flatten ∧
      List.Forall₂ (fun input b => ∃ ps j n, Parse input.PlatformProductId = Except.ok ps ∧
        b = blockOf A ord j input.TotalPrice ps n) inputs blocks := by
  induction inputs generalizing i co no with
  | nil =>
    refine ⟨[], ?_, List.Forall₂.nil⟩
    simp only [orderLoop, Except.ok.injEq] at h
    simp [← h]
  | cons input rest ih =>
    simp only [orderLoop] at h
    cases hp : Parse input.PlatformProductId with
    | error e => simp [hp] at h
    | ok ps =>
      simp only [hp, expandLine_eq] at h
      obtain ⟨blocks, hb, hf⟩ := ih _ _ _ h
      refine ⟨blockOf A ord i input.TotalPrice ps no :: blocks, ?_, ?_⟩
      · simp [hb]
      · exact List.Forall₂.cons ⟨ps, i, no, hp, rfl⟩ hf

/-- A successful `ProcessOrders` returns one block per input line. -/
theorem ProcessOrders_blocks {F : Type} (A : FloatOps F) (ord : MapOrder)
    (inputs : List (InputOrder F)) (out : List (CleanedOrder F))
    (h : ProcessOrders A ord inputs = Except.ok out) :
    ∃ blocks : List (LineBlock F),
      out = (blocks.map LineBlock.lines).flatten ∧
      List.Forall₂ (fun input b => ∃ ps j n, Parse input.PlatformProductId = Except.ok ps ∧
        b = blockOf A ord j input.TotalPrice ps n) inputs blocks := by
  unfold ProcessOrders at h
  cases hl : orderLoop A ord inputs 0 ([], 1) with
  | error e => simp [hl] at h
  | ok st =>
    simp only [hl, Except.ok.injEq] at h
    obtain ⟨blocks, hb, hf⟩ := orderLoop_blocks A ord inputs 0 [] 1 st hl
    exact ⟨blocks, by simpa [h] using hb, hf⟩

/-! ## The texture map -/

theorem splitAux_no_sep (sep : Char) (s cur : Str) (h : sep ∉ s) :
    splitAux sep s cur = [cur.reverse ++ s] := by
  induction s generalizing cur with
  | nil => simp [splitAux]
  | cons c cs ih =>
    have hc : c ≠ sep := fun e => h (e ▸ List.mem_cons_self _ _)
    have hcs : sep ∉ cs := fun e => h (List.mem_cons_of_mem _ e)
    simp [splitAux, hc, ih _ hcs]

theorem splitAux_append (sep : Char) (a rest cur : Str) (h : sep ∉ a) :
    splitAux sep (a ++ sep :: rest) cur = (cur.reverse ++ a) :: splitAux sep rest [] := by
  induction a generalizing cur with
  | nil => simp [splitAux]
  | cons c cs ih =>
    have hc : c ≠ sep := fun e => h (e ▸ List.mem_cons_self _ _)
    have hcs : sep ∉ cs := fun e => h (List.mem_cons_of_mem _ e)
    simp [splitAux, hc, ih _ hcs]

/-- A string without the separator is its own single part. -/
theorem Split_no_sep (sep : Char) (s : Str) (h : sep ∉ s) : Split s sep = [s] := by
  simp [Split, splitAux_no_sep sep s [] h]

/-- A string with one separator has two parts. -/
theorem Split_two (sep : Char) (a b : Str) (ha : sep ∉ a) (hb : sep ∉ b) :
    Split (a ++ sep :: b) sep = [a, b] := by
  simp [Split, splitAux_append sep a b [] ha, splitAux_no_sep sep b [] hb]

theorem codeChar_ne_dash (a : Char) (h : isCodeChar a = true) : a ≠ '-' := by
  rintro rfl
  revert h
  decide

theorem Shape_film_no_dash (m : Submatch) (h : Shape m) : '-' ∉ m.film := by
  obtain ⟨⟨a, ha, hf⟩, -⟩ := h
  rcases hf with hf | ⟨b, hb, hf⟩
  · rw [hf]
    have := codeChar_ne_dash a ha
    simp [this.symm]
  · rw [hf]
    have h1 := codeChar_ne_dash a ha
    have h2 := codeChar_ne_dash b hb
    simp [h1.symm, h2.symm]

theorem Shape_texture_no_dash (m : Submatch) (h : Shape m) : '-' ∉ m.texture := by
  have ht := h.2.1
  simp only [textures, List.mem_cons, List.mem_singleton, List.not_mem_nil, or_false] at ht
  rcases ht with ht | ht | ht <;> rw [ht] <;> decide

theorem dropWhile_append_sep (sep : Char) (a b : Str) (ha : sep ∉ a) :
    (a ++ sep :: b).dropWhile (fun c => c != sep) = sep :: b := by
  induction a with
  | nil => simp [List.dropWhile]
  | cons c cs ih =>
    have hc : c ≠ sep := fun e => ha (e ▸ List.mem_cons_self _ _)
    have hcs : sep ∉ cs := fun e => ha (List.mem_cons_of_mem _ e)
    have hb : (c != sep) = true := by simp [hc]
    simp only [List.cons_append, List.dropWhile_cons, hb, if_true]
    exact ih hcs

/-- For a parsed product the guard `len(textureParts) == 2` holds and
`textureParts[1]` is its texture. -/
theorem Parse_texture (s : Str) (ps : List Product) (h : Parse s = Except.ok ps) (p : Product)
    (hp : p ∈ ps) :
    ∃ film, Split p.MaterialId '-' = [film, textureOf p] ∧ textureOf p ∈ textures := by
  obtain ⟨m, hm, -, h2, -⟩ := Parse_shape s ps h p hp
  have hf := Shape_film_no_dash m hm
  have ht := Shape_texture_no_dash m hm
  have hto : textureOf p = m.texture := by
    simp [textureOf, h2, dropWhile_append_sep '-' m.film m.texture hf]
  refine ⟨m.film, ?_, hto ▸ hm.2.1⟩
  rw [hto, h2]
  exact Split_two '-' _ _ hf ht

/-- On parsed products the second inner loop adds every product to the map. -/
theorem textureLoop_eq (ps : List Product) (m : List (Str × Int))
    (h : ∀ p ∈ ps, ∃ film, Split p.MaterialId '-' = [film, textureOf p]) :
    textureLoop ps m = ps.foldl (fun acc p => mapAdd acc (textureOf p) p.Qty) m := by
  induction ps generalizing m with
  | nil => rfl
  | cons p ps ih =>
    obtain ⟨film, hs⟩ := h p (List.mem_cons_self _ _)
    simp only [textureLoop, hs, List.foldl_cons]
    exact ih _ (fun q hq => h q (List.mem_cons_of_mem _ hq))

theorem mapGet_mapAdd (m : List (Str × Int)) (t k : Str) (q : Int) :
    mapGet (mapAdd m t q) k =
      if t = k then some (wrapInt ((mapGet m t).getD 0 + q)) else mapGet m k := by
  induction m with
  | nil =>
    by_cases h : t = k <;> simp [mapAdd, mapGet, h]
  | cons e rest ih =>
    obtain ⟨k1, v1⟩ := e
    by_cases h1 : k1 = t
    · subst h1
      by_cases h : k1 = k <;> simp [mapAdd, mapGet, h]
    · by_cases h : t = k
      · subst h
        simp [mapAdd, mapGet, h1, ih]
      · by_cases h2 : k1 = k
        · subst h2
          simp [mapAdd, mapGet, h1, h]
        · simp [mapAdd, mapGet, h1, h2, h, ih]

theorem mapAdd_keys (m : List (Str × Int)) (t : Str) (q : Int) :
    (mapAdd m t q).map Prod.fst =
      if t ∈ m.map Prod.fst then m.map Prod.fst else m.map Prod.fst ++ [t] := by
  induction m with
  | nil => simp [mapAdd]
  | cons e rest ih =>
    obtain ⟨k1, v1⟩ := e
    by_cases h1 : k1 = t
    · subst h1
      simp [mapAdd]
    · have h2 : ¬ t = k1 := fun e => h1 e.symm
      by_cases h3 : t ∈ rest.map Prod.fst
      · simp only [mapAdd, h1, if_false, List.map_cons, ih, h3, if_true, List.mem_cons, or_true]
      · simp only [mapAdd, h1, if_false, List.map_cons, ih, h3, List.mem_cons, h2, or_self,
          List.cons_append]

theorem mapAdd_nodup (m : List (Str × Int)) (t : Str) (q : Int) (h : (m.map Prod.fst).Nodup) :
    ((mapAdd m t q).map Prod.fst).Nodup := by
  rw [mapAdd_keys]
  split_ifs with h1
  · exact h
  · exact List.Nodup.append h (List.nodup_singleton t) (by simpa using h1)

theorem mapGet_of_mem (m : List (Str × Int)) (k : Str) (v : Int) (hn : (m.map Prod.fst).Nodup)
    (h : (k, v) ∈ m) : mapGet m k = some v := by
  induction m with
  | nil => simp at h
  | cons e rest ih =>
    obtain ⟨k1, v1⟩ := e
    simp only [List.map_cons, List.nodup_cons] at hn
    rcases List.mem_cons.mp h with h1 | h1
    · simp only [Prod.mk.injEq] at h1
      simp [mapGet, h1.1, h1.2]
    · have hne : k1 ≠ k := by
        rintro rfl
        exact hn.1 (List.mem_map_of_mem Prod.fst h1)
      simp [mapGet, hne, ih hn.2 h1]

theorem mem_of_mapGet (m : List (Str × Int)) (k : Str) (v : Int) (h : mapGet m k = some v) :
    (k, v) ∈ m := by
  induction m with
  | nil => simp [mapGet] at h
  | cons e rest ih =>
    obtain ⟨k1, v1⟩ := e
    by_cases h1 : k1 = k
    · simp only [mapGet, h1, if_true, Option.some.injEq] at h
      simp [h1, h]
    · simp only [mapGet, h1, if_false] at h
      exact List.mem_cons_of_mem _ (ih h)

theorem foldl_mapAdd_nodup (ps : List Product) (m : List (Str × Int))
    (h : (m.map Prod.fst).Nodup) :
    ((ps.foldl (fun acc p => mapAdd acc (textureOf p) p.Qty) m).map Prod.fst).Nodup := by
  induction ps generalizing m with
  | nil => exact h
  | cons p ps ih => exact ih _ (mapAdd_nodup m _ _ h)

theorem foldl_mapAdd_get (ps : List Product) (m : List (Str × Int)) (k : Str) :
    mapGet (ps.foldl (fun acc p => mapAdd acc (textureOf p) p.Qty) m) k =
      if k ∈ ps.map textureOf then some (wrapInt ((mapGet m k).getD 0 + textureSum k ps))
      else mapGet m k := by
  induction ps generalizing m with
  | nil => simp
  | cons p ps ih =>
    simp only [List.foldl_cons, ih, mapGet_mapAdd, List.map_cons, List.mem_cons]
    by_cases h1 : textureOf p = k
    · subst h1
      have hs : textureSum (textureOf p) (p :: ps) = p.Qty + textureSum (textureOf p) ps := by
        simp [textureSum, List.filter_cons]
      by_cases h2 : textureOf p ∈ ps.map textureOf
      · simp only [h2, if_true, true_or, or_true, Option.getD_some, wrapInt_add_left, hs]
        congr 2
        ring
      · have h0 : textureSum (textureOf p) ps = 0 := by
          unfold textureSum
          rw [List.filter_eq_nil_iff.mpr]
          · rfl
          · intro q hq
            simp only [decide_eq_true_eq]
            exact fun e => h2 (e ▸ List.mem_map_of_mem textureOf hq)
        simp [h2, hs, h0]
    · have h3 : ¬ k = textureOf p := fun e => h1 e.symm
      have hs : textureSum k (p :: ps) = textureSum k ps := by
        simp [textureSum, List.filter_cons, h1]
      simp only [h1, if_false, h3, false_or, hs]

/-- Contents of the texture map after the second inner loop on parsed products. -/
theorem textureLoop_spec (ps : List Product)
    (h : ∀ p ∈ ps, ∃ film, Split p.MaterialId '-' = [film, textureOf p]) :
    ((textureLoop ps []).map Prod.fst).Nodup ∧
    (∀ e ∈ textureLoop ps [], e.1 ∈ ps.map textureOf ∧ e.2 = wrapInt (textureSum e.1 ps)) ∧
    (∀ p ∈ ps, textureOf p ∈ (textureLoop ps []).map Prod.fst) := by
  rw [textureLoop_eq ps [] h]
  have hn := foldl_mapAdd_nodup ps [] (by simp)
  refine ⟨hn, ?_, ?_⟩
  · rintro ⟨k, v⟩ he
    have hg := mapGet_of_mem _ k v hn he
    rw [foldl_mapAdd_get] at hg
    split_ifs at hg with hk
    · simp only [mapGet, Option.getD_none, zero_add, Option.some.injEq] at hg
      exact ⟨hk, hg.symm⟩
    · simp [mapGet] at hg
  · intro p hp
    have hk : textureOf p ∈ ps.map textureOf := List.mem_map_of_mem textureOf hp
    have hg := foldl_mapAdd_get ps [] (textureOf p)
    simp only [hk, if_true] at hg
    exact List.mem_map_of_mem Prod.fst (mem_of_mapGet _ _ _ hg)

/-! ## Properties of the emitted lines -/

theorem productLines_product {F : Type} (A : FloatOps F) (ppp : F) (no : Int)
    (ps : List Product) : (productLines A ppp no ps).map CleanedOrder.product = ps := by
  induction ps generalizing no with
  | nil => rfl
  | cons p ps ih => simp [productLines, ih, CleanedOrder.product, productLine]

theorem productLines_unitPrice {F : Type} (A : FloatOps F) (ppp : F) (no : Int)
    (ps : List Product) (l : CleanedOrder F) (hl : l ∈ productLines A ppp no ps) :
    l.UnitPrice = round2 A (A.div ppp (A.ofInt l.Qty)) := by
  induction ps generalizing no with
  | nil => simp [productLines] at hl
  | cons p ps ih =>
    simp only [productLines, List.mem_cons] at hl
    rcases hl with rfl | hl
    · rfl
    · exact ih _ hl

/-- Sum of the quantities of parsed products, which are all at least 1. -/
theorem qty_sum_nonneg (ps : List Product) (h : ∀ p ∈ ps, 1 ≤ p.Qty) :
    0 ≤ (ps.map Product.Qty).sum := by
  induction ps with
  | nil => simp
  | cons p ps ih =>
    have h1 := h p (List.mem_cons_self _ _)
    have h2 := ih (fun q hq => h q (List.mem_cons_of_mem _ hq))
    simp only [List.map_cons, List.sum_cons]
    omega

/-- The name of a cleaner line ends in `-CLEANNER`. -/
theorem cleanerLines_suffix {F : Type} (A : FloatOps F) (no : Int) (es : List (Str × Int))
    (l : CleanedOrder F) (hl : l ∈ cleanerLines A no es) :
    ∃ e ∈ es, l.ProductId = e.1 ++ "-CLEANNER".toList ∧ l.Qty = e.2 ∧ l.MaterialId = [] ∧
      l.ModelId = [] ∧ l.UnitPrice = A.ofInt 0 ∧ l.TotalPrice = A.ofInt 0 := by
  induction es generalizing no with
  | nil => simp [cleanerLines] at hl
  | cons e es ih =>
    simp only [cleanerLines, List.mem_cons] at hl
    rcases hl with rfl | hl
    · exact ⟨e, List.mem_cons_self _ _, rfl, rfl, rfl, rfl, rfl, rfl⟩
    · obtain ⟨e1, h1, h2⟩ := ih _ hl
      exact ⟨e1, List.mem_cons_of_mem _ h1, h2⟩

/-- No cleaner line is named `WIPING-CLOTH`. -/
theorem cleanerLines_ne_cloth {F : Type} (A : FloatOps F) (no : Int) (es : List (Str × Int))
    (l : CleanedOrder F) (hl : l ∈ cleanerLines A no es) :
    l.ProductId ≠ "WIPING-CLOTH".toList := by
  obtain ⟨e, -, h1, -⟩ := cleanerLines_suffix A no es l hl
  intro h2
  rw [h1] at h2
  have h3 := congrArg List.reverse h2
  rw [List.reverse_append] at h3
  have h4 := congrArg (List.take 1) h3
  simp at h4

theorem cleanerLines_ids {F : Type} (A : FloatOps F) (no : Int) (es : List (Str × Int)) :
    (cleanerLines A no es).map CleanedOrder.ProductId =
      (es.map Prod.fst).map (fun t => t ++ "-CLEANNER".toList) := by
  induction es generalizing no with
  | nil => rfl
  | cons e es ih => simp [cleanerLines, cleanerLine, ih]

/-- Sum of the quantities of the parsed products with one texture. -/
theorem textureSum_nonneg (t : Str) (ps : List Product) (h : ∀ p ∈ ps, 1 ≤ p.Qty) :
    0 ≤ textureSum t ps :=
  qty_sum_nonneg _ (fun p hp => h p (List.mem_of_mem_filter hp))

/-- A batch of two lines returns the blocks of the two lines. -/
theorem ProcessOrders_pair {F : Type} (A : FloatOps F) (ord : MapOrder) (i1 i2 : InputOrder F)
    (ps1 ps2 : List Product) (h1 : Parse i1.PlatformProductId = Except.ok ps1)
    (h2 : Parse i2.PlatformProductId = Except.ok ps2) :
    ProcessOrders A ord [i1, i2] = Except.ok ((blockOf A ord 0 i1.TotalPrice ps1 1).lines ++
      (blockOf A ord 1 i2.TotalPrice ps2
        (1 + ((blockOf A ord 0 i1.TotalPrice ps1 1).lines.length : Int))).lines) := by
  simp [ProcessOrders, orderLoop, h1, h2, expandLine_eq]

/-- A batch of one line returns the block of that line. -/
theorem ProcessOrders_single {F : Type} (A : FloatOps F) (ord : MapOrder) (input : InputOrder F)
    (ps : List Product) (h : Parse input.PlatformProductId = Except.ok ps) :
    ProcessOrders A ord [input] = Except.ok (blockOf A ord 0 input.TotalPrice ps 1).lines := by
  simp [ProcessOrders, orderLoop, h, expandLine_eq]

/-! ## Matches of the pattern -/

theorem stopsModel_nil : StopsModel [] := fun _ _ h => by simp at h

theorem stopsModel_dropWhile (r : Str) : StopsModel (r.dropWhile isModelChar) := by
  intro c r1 h
  induction r with
  | nil => simp at h
  | cons d ds ih =>
    by_cases hd : isModelChar d = true
    · simp only [List.dropWhile_cons, hd, if_true] at h
      exact ih h
    · simp only [List.dropWhile_cons, hd, Bool.false_eq_true, if_false, List.cons.injEq] at h
      rw [← h.1]
      simpa using hd

theorem takeWhile_append_stop (model rest : Str) (hc : ∀ c ∈ model, isModelChar c = true)
    (hr : StopsModel rest) : (model ++ rest).takeWhile isModelChar = model := by
  induction model with
  | nil =>
    cases rest with
    | nil => rfl
    | cons c r => simp [List.takeWhile, hr c r rfl]
  | cons d ds ih =>
    have hd := hc d (List.mem_cons_self _ _)
    simp only [List.cons_append, List.takeWhile_cons, hd, if_true]
    rw [ih (fun c h => hc c (List.mem_cons_of_mem _ h))]

theorem dropPrefix?_append (t rest : Str) : dropPrefix? t (t ++ rest) = some rest := by
  induction t with
  | nil => cases rest <;> rfl
  | cons c cs ih => simp [dropPrefix?, ih]

theorem dropPrefix?_eq (t s r : Str) (h : dropPrefix? t s = some r) : s = t ++ r := by
  induction t generalizing s with
  | nil =>
    cases s <;> simp [dropPrefix?] at h <;> simp [h]
  | cons c cs ih =>
    cases s with
    | nil => simp [dropPrefix?] at h
    | cons d ds =>
      simp only [dropPrefix?] at h
      split_ifs at h with hcd
      rw [hcd, ih ds h]
      rfl

theorem matchModel_canonical (film t model rest : Str) (hm : model ≠ [])
    (hc : ∀ c ∈ model, isModelChar c = true) (hr : StopsModel rest) :
    matchModel film t ('-' :: (model ++ rest)) =
      some ⟨film ++ '-' :: (t ++ '-' :: model), film, t, model⟩ := by
  have ht := takeWhile_append_stop model rest hc hr
  simp only [matchModel, ht]
  cases model with
  | nil => exact absurd rfl hm
  | cons c cs => rfl

theorem matchTexture_canonical (film t model rest : Str) (ht : t ∈ textures) (hm : model ≠ [])
    (hc : ∀ c ∈ model, isModelChar c = true) (hr : StopsModel rest) :
    matchTexture film (t ++ '-' :: (model ++ rest)) textures =
      some ⟨film ++ '-' :: (t ++ '-' :: model), film, t, model⟩ := by
  have hmod := matchModel_canonical film t model rest hm hc hr
  simp only [textures, List.mem_cons, List.mem_singleton, List.not_mem_nil, or_false] at ht
  rcases ht with rfl | rfl | rfl
  · simp only [textures, matchTexture, dropPrefix?_append, hmod]
  · have h1 : dropPrefix? "CLEAR".toList ("MATTE".toList ++ '-' :: (model ++ rest)) = none := rfl
    simp only [textures, matchTexture, h1, dropPrefix?_append, hmod]
  · have h1 : dropPrefix? "CLEAR".toList ("PRIVACY".toList ++ '-' :: (model ++ rest)) = none := rfl
    have h2 : dropPrefix? "MATTE".toList ("PRIVACY".toList ++ '-' :: (model ++ rest)) = none := rfl
    simp only [textures, matchTexture, h1, h2, dropPrefix?_append, hmod]

theorem matchAt_canonical (m : Submatch) (hs : Shape m) (rest : Str) (hr : StopsModel rest) :
    matchAt (m.full ++ rest) = some m := by
  obtain ⟨full, film, texture, model⟩ := m
  obtain ⟨⟨a, ha, hf⟩, ht, hm, hc, hfull⟩ := hs
  simp only at hf ht hm hc hfull
  have hdash : isCodeChar '-' = false := by decide
  have hT := matchTexture_canonical film texture model rest ht hm hc hr
  subst hfull
  rcases hf with rfl | ⟨b, hb, rfl⟩
  · simp only [List.cons_append, List.nil_append, List.append_assoc, matchAt, ha, if_true,
      matchFilm2, hdash, Bool.false_eq_true, if_false, matchRest]
    exact hT
  · simp only [List.cons_append, List.nil_append, List.append_assoc, matchAt, ha, if_true,
      matchFilm2, hb, matchRest, hT]

theorem matchModel_decomp (film t s : Str) (m : Submatch) (h : matchModel film t s = some m) :
    ∃ rest, s = '-' :: (m.model ++ rest) ∧ StopsModel rest := by
  obtain ⟨-, -, -, -, -, r, hs, hmod⟩ := matchModel_spec film t s m h
  refine ⟨r.dropWhile isModelChar, ?_, stopsModel_dropWhile r⟩
  rw [hs, hmod, List.takeWhile_append_dropWhile]

theorem matchRest_decomp (film s : Str) (m : Submatch) (h : matchRest film s = some m) :
    ∃ rest, s = '-' :: (m.texture ++ '-' :: (m.model ++ rest)) ∧ StopsModel rest := by
  unfold matchRest at h
  split at h
  · obtain ⟨t, r, -, hd, hm⟩ := matchTexture_spec _ _ _ _ h
    obtain ⟨rest, h1, h2⟩ := matchModel_decomp _ _ _ _ hm
    obtain ⟨-, h3, -⟩ := matchModel_spec _ _ _ _ hm
    refine ⟨rest, ?_, h2⟩
    rw [dropPrefix?_eq _ _ _ hd, h1, h3]
  · exact absurd h (by simp)

theorem matchAt_decomp (s : Str) (m : Submatch) (h : matchAt s = some m) :
    ∃ rest, s = m.full ++ rest ∧ StopsModel rest := by
  have hfull := (matchAt_shape s m h).2.2.2.2
  unfold matchAt at h
  split at h
  · rename_i a r
    split_ifs at h with ha
    split at h
    · rename_i m1 htwo
      simp only [Option.some.injEq] at h
      subst h
      unfold matchFilm2 at htwo
      split at htwo
      · rename_i b r2
        split_ifs at htwo with hb
        obtain ⟨rest, h1, h2⟩ := matchRest_decomp _ _ _ htwo
        obtain ⟨h3, -⟩ := matchRest_shape _ _ _ htwo
        refine ⟨rest, ?_, h2⟩
        rw [hfull, h3, h1]
        simp
      · exact absurd htwo (by simp)
    · obtain ⟨rest, h1, h2⟩ := matchRest_decomp _ _ _ h
      obtain ⟨h3, -⟩ := matchRest_shape _ _ _ h
      refine ⟨rest, ?_, h2⟩
      rw [hfull, h3, h1]
      simp
  · exact absurd h (by simp)

theorem FindStringSubmatch_decomp (s : Str) (m : Submatch) (h : FindStringSubmatch s = some m) :
    ∃ pre post, s = pre ++ post ∧ matchAt post = some m := by
  induction s with
  | nil => simp [FindStringSubmatch] at h
  | cons c cs ih =>
    unfold FindStringSubmatch at h
    split at h
    · rename_i m1 hm
      simp only [Option.some.injEq] at h
      exact ⟨[], c :: cs, rfl, h ▸ hm⟩
    · obtain ⟨pre, post, h1, h2⟩ := ih h
      exact ⟨c :: pre, post, by simp [h1], h2⟩

theorem matchAt_nil : matchAt [] = none := rfl

theorem FindStringSubmatch_of_matchAt (s : Str) (m : Submatch) (h : matchAt s = some m) :
    FindStringSubmatch s = some m := by
  cases s with
  | nil => simp [matchAt_nil] at h
  | cons c cs => simp [FindStringSubmatch, h]

theorem FindStringSubmatch_append_isSome (pre post : Str) (m : Submatch)
    (h : matchAt post = some m) : ∃ m1, FindStringSubmatch (pre ++ post) = some m1 := by
  induction pre with
  | nil => exact ⟨m, FindStringSubmatch_of_matchAt _ _ h⟩
  | cons c cs ih =>
    simp only [List.cons_append, FindStringSubmatch]
    split
    · rename_i m1 _
      exact ⟨m1, rfl⟩
    · exact ih

/-- A canonical code, followed by text that does not continue the model token,
is found as it is. -/
theorem FindStringSubmatch_canonical (m : Submatch) (hs : Shape m) (rest : Str)
    (hr : StopsModel rest) : FindStringSubmatch (m.full ++ rest) = some m :=
  FindStringSubmatch_of_matchAt _ _ (matchAt_canonical m hs rest hr)

theorem matchAt_append_isSome (s t : Str) (m : Submatch) (h : matchAt s = some m) :
    ∃ m1, matchAt (s ++ t) = some m1 := by
  obtain ⟨rest, h1, h2⟩ := matchAt_decomp s m h
  have hs := matchAt_shape s m h
  cases rest with
  | cons c r =>
    refine ⟨m, ?_⟩
    rw [h1, List.append_assoc]
    refine matchAt_canonical m hs _ ?_
    intro c1 r1 he
    simp only [List.cons_append, List.cons.injEq] at he
    exact he.1 ▸ h2 c r rfl
  | nil =>
    obtain ⟨hfilm, ht, hm, hc, hfull⟩ := hs
    have hs1 : Shape ⟨m.film ++ '-' :: (m.texture ++ '-' :: (m.model ++ t.takeWhile isModelChar)),
        m.film, m.texture, m.model ++ t.takeWhile isModelChar⟩ := by
      refine ⟨hfilm, ht, ?_, ?_, rfl⟩
      · simp [hm]
      · intro c hcm
        rcases List.mem_append.mp hcm with h3 | h3
        · exact hc c h3
        · exact List.mem_takeWhile_imp h3
    have := matchAt_canonical _ hs1 (t.dropWhile isModelChar) (stopsModel_dropWhile t)
    refine ⟨_, Eq.trans ?_ this⟩
    rw [h1, hfull]
    congr 1
    simp [List.takeWhile_append_dropWhile]

/-- A match in a string is not lost when text is appended. -/
theorem FindStringSubmatch_append_right (s t : Str) (m : Submatch)
    (h : FindStringSubmatch s = some m) : ∃ m1, FindStringSubmatch (s ++ t) = some m1 := by
  obtain ⟨pre, post, h1, h2⟩ := FindStringSubmatch_decomp s m h
  obtain ⟨m1, h3⟩ := matchAt_append_isSome post t m h2
  rw [h1, List.append_assoc]
  exact FindStringSubmatch_append_isSome pre _ m1 h3

theorem matchAt_ne_F (c : Char) (cs : Str) (h : c ≠ 'F') : matchAt (c :: cs) = none := by
  unfold matchAt
  split
  · rename_i heq
    simp only [List.cons.injEq] at heq
    exact absurd heq.1 h
  · rfl

/-- No match starts in a prefix without the letter `F`. -/
theorem FindStringSubmatch_skip (pre post : Str) (h : ∀ c ∈ pre, c ≠ 'F') :
    FindStringSubmatch (pre ++ post) = FindStringSubmatch post := by
  induction pre with
  | nil => rfl
  | cons c cs ih =>
    simp only [List.cons_append, FindStringSubmatch,
      matchAt_ne_F c _ (h c (List.mem_cons_self _ _))]
    exact ih (fun d hd => h d (List.mem_cons_of_mem _ hd))

theorem Shape_chars (m : Submatch) (hs : Shape m) : ∀ c ∈ m.full, isModelChar c = true := by
  obtain ⟨⟨a, ha, hf⟩, ht, hm, hc, hfull⟩ := hs
  have hcode : ∀ c, isCodeChar c = true → isModelChar c = true := fun c h => by
    simp [isModelChar, h]
  have hfilm : ∀ c ∈ m.film, isModelChar c = true := by
    rcases hf with hf | ⟨b, hb, hf⟩ <;> rw [hf] <;> intro c hcm <;>
      simp only [List.mem_cons, List.mem_singleton, List.not_mem_nil, or_false] at hcm
    · rcases hcm with rfl | rfl | rfl | rfl
      · decide
      · decide
      · decide
      · exact hcode _ ha
    · rcases hcm with rfl | rfl | rfl | rfl | rfl
      · decide
      · decide
      · decide
      · exact hcode _ ha
      · exact hcode _ hb
  have htex : ∀ c ∈ m.texture, isModelChar c = true := by
    simp only [textures, List.mem_cons, List.mem_singleton, List.not_mem_nil, or_false] at ht
    rcases ht with ht | ht | ht <;> rw [ht] <;> decide
  intro c hcm
  rw [hfull] at hcm
  simp only [List.mem_append, List.mem_cons] at hcm
  rcases hcm with h | rfl | h | rfl | h
  · exact hfilm c h
  · decide
  · exact htex c h
  · decide
  · exact hc c h

theorem Shape_full_ne_nil (m : Submatch) (hs : Shape m) : m.full ≠ [] := by
  rw [hs.2.2.2.2]
  obtain ⟨⟨a, ha, hf⟩, -⟩ := hs
  rcases hf with hf | ⟨b, hb, hf⟩ <;> simp [hf]

theorem Shape_no_star (m : Submatch) (hs : Shape m) : '*' ∉ m.full := by
  intro h
  have := Shape_chars m hs _ h
  revert this
  decide

/-! ## Splitting -/

theorem splitAux_ne_nil (sep : Char) (s cur : Str) : splitAux sep s cur ≠ [] := by
  induction s generalizing cur with
  | nil => simp [splitAux]
  | cons c cs ih =>
    unfold splitAux
    split_ifs
    · simp
    · exact ih _

theorem mem_first_split (sep : Char) (s : Str) (h : sep ∈ s) :
    ∃ a b, s = a ++ sep :: b ∧ sep ∉ a := by
  induction s with
  | nil => simp at h
  | cons c cs ih =>
    by_cases hc : c = sep
    · exact ⟨[], cs, by simp [hc], by simp⟩
    · rcases List.mem_cons.mp h with h1 | h1
      · exact absurd h1.symm hc
      · obtain ⟨a, b, h2, h3⟩ := ih h1
        refine ⟨c :: a, b, by simp [h2], ?_⟩
        intro h4
        rcases List.mem_cons.mp h4 with h5 | h5
        · exact hc h5.symm
        · exact h3 h5

theorem takeWhile_append_sep (sep : Char) (a b : Str) (ha : sep ∉ a) :
    (a ++ sep :: b).takeWhile (fun c => c != sep) = a := by
  induction a with
  | nil => simp [List.takeWhile]
  | cons c cs ih =>
    have hc : c ≠ sep := fun e => ha (e ▸ List.mem_cons_self _ _)
    have hcs : sep ∉ cs := fun e => ha (List.mem_cons_of_mem _ e)
    have hb : (c != sep) = true := by simp [hc]
    simp only [List.cons_append, List.takeWhile_cons, hb, if_true]
    rw [ih hcs]

/-- A split into two parts cuts the string at its only separator. -/
theorem Split_two_inv (sep : Char) (s x y : Str) (h : Split s sep = [x, y]) :
    s = x ++ sep :: y ∧ sep ∉ x ∧ sep ∉ y := by
  by_cases hs : sep ∈ s
  · obtain ⟨a, b, h1, h2⟩ := mem_first_split sep s hs
    have h3 : Split s sep = a :: Split b sep := by
      rw [h1]
      simp [Split, splitAux_append sep a b [] h2]
    rw [h3] at h
    simp only [List.cons.injEq] at h
    obtain ⟨rfl, h4⟩ := h
    by_cases hb : sep ∈ b
    · obtain ⟨a1, b1, h5, h6⟩ := mem_first_split sep b hb
      have h7 : Split b sep = a1 :: Split b1 sep := by
        rw [h5]
        simp [Split, splitAux_append sep a1 b1 [] h6]
      rw [h7] at h4
      simp only [List.cons.injEq] at h4
      exact absurd h4.2 (splitAux_ne_nil sep b1 [])
    · rw [Split_no_sep sep b hb] at h4
      simp only [List.cons.injEq, and_true] at h4
      exact ⟨h4 ▸ h1, h2, h4 ▸ hb⟩
  · rw [Split_no_sep sep s hs] at h
    simp at h

theorem Contains_iff (s : Str) (c : Char) : Contains s c = true ↔ c ∈ s := by
  simp [Contains, List.any_eq_true]

theorem splitQuantity_fst (c : Str) :
    (splitQuantity c).1 = c ∨ ∃ p1, Split c '*' = [(splitQuantity c).1, p1] := by
  unfold splitQuantity
  split_ifs
  · split
    · rename_i p0 p1 hsp
      right
      refine ⟨p1, ?_⟩
      rw [hsp]
      split
      · split_ifs <;> rfl
      · rfl
    · exact Or.inl rfl
  · exact Or.inl rfl

/-! ## One segment -/

theorem FindString_none (s : Str) (h : FindStringSubmatch s = none) : FindString s = [] := by
  simp [FindString, h]

theorem FindString_some (s : Str) (m : Submatch) (h : FindStringSubmatch s = some m) :
    FindString s = m.full := by
  simp [FindString, h]

theorem extract_none (s : Str) (h : FindStringSubmatch s = none) : extract s = none := by
  simp [extract, h, FindString_none s h]

theorem extract_some (s : Str) (m : Submatch) (h : FindStringSubmatch s = some m) :
    extract s = some m := by
  simp [extract, h]

theorem locate_none (p : Str) (h : FindStringSubmatch p = none) : locate p = Except.ok p := by
  simp [locate, FindString_none p h]

theorem locate_some (p : Str) (m : Submatch) (h : FindStringSubmatch p = some m) :
    locate p = Except.error Fault.slicePanic ∨ locate p = Except.ok m.full ∨
      ∃ tail, locate p = Except.ok (m.full ++ '*' :: tail) := by
  unfold locate
  rw [FindString_some p m h]
  split_ifs with h1 h2 h3 h4
  · exact Or.inl rfl
  · right
    right
    have hc : '*' ∈ p := by
      by_contra hn
      have : Contains p '*' = false := by
        rw [← Bool.not_eq_true, Contains_iff]
        exact hn
      simp [Index, this] at h2
    obtain ⟨a, b, h5, h6⟩ := mem_first_split '*' p hc
    exact ⟨b, by rw [h5, dropWhile_append_sep '*' a b h6]⟩
  · exact Or.inr (Or.inl rfl)
  · exact Or.inr (Or.inl rfl)
  · exact absurd h1 (by
      have := Shape_full_ne_nil m (FindStringSubmatch_shape p m h)
      cases hm : m.full with
      | nil => exact absurd hm this
      | cons c cs => simp)

/-- After the quantity marker is split off a cleaned string that starts with a
canonical code, the code is found again. -/
theorem extract_cleaned (m : Submatch) (hs : Shape m) (cleaned : Str)
    (h : cleaned = m.full ∨ ∃ tail, cleaned = m.full ++ '*' :: tail) :
    extract (splitQuantity cleaned).1 = some m := by
  have hstar := Shape_no_star m hs
  have hfull : FindStringSubmatch m.full = some m := by
    have := FindStringSubmatch_canonical m hs [] stopsModel_nil
    simpa using this
  rcases h with h | ⟨tail, h⟩
  · have hc : Contains cleaned '*' = false := by
      rw [← Bool.not_eq_true, Contains_iff, h]
      exact hstar
    have : (splitQuantity cleaned).1 = cleaned := by simp [splitQuantity, hc]
    rw [this, h]
    exact extract_some _ _ hfull
  · rcases splitQuantity_fst cleaned with h1 | ⟨p1, h1⟩
    · rw [h1, h]
      refine extract_some _ _ (FindStringSubmatch_canonical m hs _ ?_)
      intro c r he
      simp only [List.cons.injEq] at he
      rw [← he.1]
      decide
    · obtain ⟨h2, h3, -⟩ := Split_two_inv '*' _ _ _ h1
      have h4 : (splitQuantity cleaned).1 = m.full := by
        have e1 := takeWhile_append_sep '*' _ p1 h3
        rw [← h2, h] at e1
        rw [takeWhile_append_sep '*' _ tail hstar] at e1
        rw [h]
        exact e1.symm
      rw [h4]
      exact extract_some _ _ hfull

/-- Outcome of the loop body of `Parse` on one segment, by whether the trimmed
segment contains a match. -/
theorem parseSegment_cases (seg : Str) :
    (FindStringSubmatch (removePct20 (TrimSpace seg)) = none →
      parseSegment seg = Except.error Fault.ErrInvalidProductFormat) ∧
    (∀ m, FindStringSubmatch (removePct20 (TrimSpace seg)) = some m →
      parseSegment seg = Except.error Fault.slicePanic ∨
      ∃ q, parseSegment seg = Except.ok ⟨m.full, m.film ++ '-' :: m.texture, m.model, q⟩) := by
  constructor
  · intro h
    have hx : FindStringSubmatch (splitQuantity (removePct20 (TrimSpace seg))).1 = none := by
      rcases splitQuantity_fst (removePct20 (TrimSpace seg)) with h1 | ⟨p1, h1⟩
      · rw [h1]
        exact h
      · obtain ⟨h2, -, -⟩ := Split_two_inv '*' _ _ _ h1
        cases hx : FindStringSubmatch (splitQuantity (removePct20 (TrimSpace seg))).1 with
        | none => rfl
        | some m1 =>
          obtain ⟨m2, h3⟩ := FindStringSubmatch_append_right _ ('*' :: p1) m1 hx
          rw [← h2, h] at h3
          exact absurd h3 (by simp)
    simp [parseSegment, cleanProductString, locate_none _ h, extract_none _ hx]
  · intro m h
    have hs := FindStringSubmatch_shape _ m h
    rcases locate_some _ m h with h1 | h1 | ⟨tail, h1⟩
    · left
      simp [parseSegment, cleanProductString, h1]
    · right
      have := extract_cleaned m hs m.full (Or.inl rfl)
      exact ⟨(splitQuantity m.full).2, by simp [parseSegment, cleanProductString, h1, this]⟩
    · right
      have := extract_cleaned m hs _ (Or.inr ⟨tail, rfl⟩)
      exact ⟨(splitQuantity (m.full ++ '*' :: tail)).2,
        by simp [parseSegment, cleanProductString, h1, this]⟩

theorem parseSegments_error (segs : List Str) (e : Fault)
    (h : parseSegments segs = Except.error e) : ∃ seg ∈ segs, parseSegment seg = Except.error e := by
  induction segs with
  | nil => simp [parseSegments] at h
  | cons s rest ih =>
    unfold parseSegments at h
    split at h
    · rename_i e1 he
      simp only [Except.error.injEq] at h
      exact ⟨s, List.mem_cons_self _ _, h ▸ he⟩
    · split at h
      · rename_i e1 he
        simp only [Except.error.injEq] at h
        obtain ⟨seg, h1, h2⟩ := ih (h ▸ he)
        exact ⟨seg, List.mem_cons_of_mem _ h1, h2⟩
      · exact absurd h (by simp)

theorem parseSegments_ok_mem (segs : List Str) (ps : List Product)
    (h : parseSegments segs = Except.ok ps) (seg : Str) (hseg : seg ∈ segs) :
    ∃ p, parseSegment seg = Except.ok p := by
  have hf := parseSegments_forall₂ segs ps h
  clear h
  induction hf with
  | nil => simp at hseg
  | cons h1 _ ih =>
    rcases List.mem_cons.mp hseg with rfl | h2
    · exact ⟨_, h1⟩
    · exact ih h2

/-! ## Cleaning a segment with a noise prefix -/

theorem trimLeft_head (c : Char) (cs : Str) (h : isSpace c = false) :
    trimLeft (c :: cs) = c :: cs := by
  simp [trimLeft, h]

theorem trimLeft_append (N : Str) (c : Char) (cs : Str) (h : isSpace c = false) :
    trimLeft (N ++ c :: cs) = trimLeft N ++ c :: cs := by
  induction N with
  | nil => simp [trimLeft, h]
  | cons d ds ih =>
    by_cases hd : isSpace d = true
    · simp [trimLeft, hd, ih]
    · simp [trimLeft, hd]

theorem mem_trimLeft (N : Str) (c : Char) (h : c ∈ trimLeft N) : c ∈ N := by
  induction N with
  | nil => simp [trimLeft] at h
  | cons d ds ih =>
    unfold trimLeft at h
    split_ifs at h
    · exact List.mem_cons_of_mem _ (ih h)
    · exact h

/-- Trimming a string that ends in a non-space character only trims the left. -/
theorem TrimSpace_append (N : Str) (c : Char) (mid : Str) (l : Char) (hc : isSpace c = false)
    (hl : isSpace l = false) :
    TrimSpace (N ++ c :: (mid ++ [l])) = trimLeft N ++ c :: (mid ++ [l]) := by
  unfold TrimSpace
  rw [trimLeft_append N c _ hc]
  have : (trimLeft N ++ c :: (mid ++ [l])).reverse =
      l :: (mid.reverse ++ c :: (trimLeft N).reverse) := by simp
  rw [this, trimLeft_head l _ hl, ← this, List.reverse_reverse]

theorem removePct20_cons (c : Char) (s : Str)
    (h : ∀ t, c :: s ≠ '%' :: '2' :: '0' :: t) : removePct20 (c :: s) = c :: removePct20 s := by
  rw [removePct20]
  intro cs h1 h2
  exact h cs (by rw [h1, h2])

theorem mem_removePct20 (s : Str) (c : Char) (h : c ∈ removePct20 s) : c ∈ s := by
  induction s using removePct20.induct with
  | case1 => simp [removePct20] at h
  | case2 cs ih =>
    simp only [removePct20] at h
    exact List.mem_cons_of_mem _ (List.mem_cons_of_mem _ (List.mem_cons_of_mem _ (ih h)))
  | case3 d ds hne ih =>
    rw [removePct20_cons d ds (fun t ht => hne t (List.cons.inj ht).1 (List.cons.inj ht).2)] at h
    rcases List.mem_cons.mp h with h1 | h1
    · exact h1 ▸ List.mem_cons_self _ _
    · exact List.mem_cons_of_mem _ (ih h1)

theorem removePct20_no_pct (s : Str) (h : '%' ∉ s) : removePct20 s = s := by
  induction s with
  | nil => rfl
  | cons c cs ih =>
    have hc : c ≠ '%' := fun e => h (e ▸ List.mem_cons_self _ _)
    rw [removePct20_cons c cs (fun t ht => hc (List.cons.inj ht).1),
      ih (fun e => h (List.mem_cons_of_mem _ e))]

/-- Deleting `%20` in a noise prefix does not touch the text after it, when that
text starts with `F` and contains no `%`. -/
theorem removePct20_append (N rest : Str) (hr : '%' ∉ 'F' :: rest) :
    removePct20 (N ++ 'F' :: rest) = removePct20 N ++ 'F' :: rest := by
  induction N using removePct20.induct with
  | case1 => simpa [removePct20] using removePct20_no_pct _ hr
  | case2 cs ih => simpa [removePct20] using ih
  | case3 d ds hne ih =>
    rw [removePct20_cons d ds (fun t ht => hne t (List.cons.inj ht).1 (List.cons.inj ht).2), List.cons_append, List.cons_append,
      removePct20_cons, ih]
    intro t ht
    simp only [List.cons.injEq] at ht
    obtain ⟨h1, h2⟩ := ht
    cases ds with
    | nil =>
      simp only [List.nil_append, List.cons.injEq] at h2
      exact absurd h2.1 (by decide)
    | cons x xs =>
      cases xs with
      | nil =>
        simp only [List.cons_append, List.nil_append, List.cons.injEq] at h2
        exact absurd h2.2.1 (by decide)
      | cons y ys =>
        simp only [List.cons_append, List.cons.injEq] at h2
        exact hne ys h1 (by rw [h2.1, h2.2.1])

theorem utf8_append (a b : Str) : utf8 (a ++ b) = utf8 a ++ utf8 b := by
  induction a with
  | nil => rfl
  | cons c cs ih => simp [utf8, ih]

theorem utf8Char_length_pos (c : Char) : 0 < (utf8Char c).length := by
  unfold utf8Char
  simp only
  split_ifs <;> simp

theorem utf8_length_pos (s : Str) (h : s ≠ []) : 0 < (utf8 s).length := by
  cases s with
  | nil => exact absurd rfl h
  | cons c cs =>
    have := utf8Char_length_pos c
    simp only [utf8, List.length_append]
    omega

theorem isPrefixOf_self (l : List Nat) : l.isPrefixOf l = true := by
  induction l with
  | nil => rfl
  | cons a as ih => simp [List.isPrefixOf, ih]

theorem stopsModel_star (tail : Str) : StopsModel ('*' :: tail) := by
  intro c r he
  simp only [List.cons.injEq] at he
  rw [← he.1]
  decide

/-- No match starts in a prefix that passes the check `noMatchStartsIn`. -/
theorem FindStringSubmatch_skip_checked (pre post : Str)
    (h : noMatchStartsIn pre post = true) :
    FindStringSubmatch (pre ++ post) = FindStringSubmatch post := by
  induction pre with
  | nil => rfl
  | cons c cs ih =>
    simp only [noMatchStartsIn, Bool.and_eq_true, Option.isNone_iff_eq_none,
      List.cons_append] at h
    rw [List.cons_append, FindStringSubmatch, h.1]
    exact ih h.2

/-- A prefix without the letter `F` passes the check `noMatchStartsIn`. -/
theorem noMatchStartsIn_of_no_F (pre post : Str) (h : ∀ c ∈ pre, c ≠ 'F') :
    noMatchStartsIn pre post = true := by
  induction pre with
  | nil => rfl
  | cons c cs ih =>
    simp only [noMatchStartsIn, Bool.and_eq_true, Option.isNone_iff_eq_none]
    exact ⟨matchAt_ne_F c _ (h c (List.mem_cons_self _ _)),
      ih (fun d hd => h d (List.mem_cons_of_mem _ hd))⟩

/-- The code is located after a prefix without `*` in which no match starts,
and the quantity marker that follows it is kept. -/
theorem locate_found (m : Submatch) (hs : Shape m) (N tail : Str)
    (hno : noMatchStartsIn N (m.full ++ '*' :: tail) = true) (hstar : '*' ∉ N) :
    locate (N ++ (m.full ++ '*' :: tail)) = Except.ok (m.full ++ '*' :: tail) := by
  have hstop : StopsModel ('*' :: tail) := stopsModel_star tail
  have hfind : FindString (N ++ (m.full ++ '*' :: tail)) = m.full := by
    apply FindString_some
    rw [FindStringSubmatch_skip_checked N _ hno]
    exact FindStringSubmatch_canonical m hs _ hstop
  have hne := Shape_full_ne_nil m hs
  have hns : '*' ∉ N ++ m.full := by
    intro h
    rcases List.mem_append.mp h with h | h
    · exact hstar h
    · exact Shape_no_star m hs h
  have hassoc : N ++ (m.full ++ '*' :: tail) = (N ++ m.full) ++ '*' :: tail := by simp
  have htake : (N ++ (m.full ++ '*' :: tail)).takeWhile (fun d => d != '*') = N ++ m.full := by
    rw [hassoc, takeWhile_append_sep '*' _ _ hns]
  have hdrop : (N ++ (m.full ++ '*' :: tail)).dropWhile (fun d => d != '*') = '*' :: tail := by
    rw [hassoc, dropWhile_append_sep '*' _ _ hns]
  have hcont : Contains (N ++ (m.full ++ '*' :: tail)) '*' = true := by
    rw [Contains_iff]
    simp
  have hidx : Index (N ++ (m.full ++ '*' :: tail)) '*' =
      ((utf8 N).length : Int) + ((utf8 m.full).length : Int) := by
    simp [Index, hcont, htake, utf8_append]
  have hpos := utf8_length_pos m.full hne
  have hstart : sliceStart (N ++ (m.full ++ '*' :: tail)) m.full = ((utf8 N).length : Int) := by
    simp [sliceStart, hidx]
  have hslice : sliceBefore (N ++ (m.full ++ '*' :: tail)) m.full = utf8 m.full := by
    simp [sliceBefore, hstart, htake, utf8_append]
  unfold locate
  rw [hfind, hidx, hstart, hslice, hdrop]
  have h1 : (!m.full.isEmpty) = true := by
    cases hm : m.full with
    | nil => exact absurd hm hne
    | cons c cs => rfl
  have h2 : (0 : Int) < ((utf8 N).length : Int) + ((utf8 m.full).length : Int) := by omega
  have h3 : ¬ (((utf8 N).length : Int) < 0) := by omega
  simp only [h1, h2, h3, if_true, if_false, isPrefixOf_self]

/-- The code is located after a prefix without `F` and `*`, and the quantity
marker that follows it is kept. -/
theorem locate_prefixed (m : Submatch) (hs : Shape m) (N tail : Str) (hF : ∀ c ∈ N, c ≠ 'F')
    (hstar : '*' ∉ N) :
    locate (N ++ (m.full ++ '*' :: tail)) = Except.ok (m.full ++ '*' :: tail) :=
  locate_found m hs N tail (noMatchStartsIn_of_no_F N _ hF) hstar

/-! ## Decimal numerals -/

theorem digitChar_spec (k : Nat) (h : k < 10) :
    isDigit (Nat.digitChar k) = true ∧ (Nat.digitChar k).toNat - 48 = k := by
  interval_cases k <;> decide

theorem digitsValue_append (l : Str) (d : Char) :
    digitsValue (l ++ [d]) = 10 * digitsValue l + (d.toNat - 48) := by
  simp [digitsValue, List.foldl_append]

theorem toDigitsCore_spec (fuel n : Nat) (h : n < fuel) (ds : Str) :
    ∃ l, Nat.toDigitsCore 10 fuel n ds = l ++ ds ∧ l ≠ [] ∧ (∀ c ∈ l, isDigit c = true) ∧
      digitsValue l = n := by
  induction fuel generalizing n ds with
  | zero => omega
  | succ fuel ih =>
    have hd := digitChar_spec (n % 10) (Nat.mod_lt _ (by decide))
    simp only [Nat.toDigitsCore]
    split_ifs with h0
    · refine ⟨[Nat.digitChar (n % 10)], rfl, by simp, ?_, ?_⟩
      · intro c hc
        rw [List.mem_singleton.mp hc]
        exact hd.1
      · have : digitsValue [Nat.digitChar (n % 10)] = (Nat.digitChar (n % 10)).toNat - 48 := by
          simp [digitsValue]
        rw [this, hd.2]
        omega
    · obtain ⟨l, h1, h2, h3, h4⟩ := ih (n / 10) (by omega) (Nat.digitChar (n % 10) :: ds)
      refine ⟨l ++ [Nat.digitChar (n % 10)], by simp [h1], by simp, ?_, ?_⟩
      · intro c hc
        rcases List.mem_append.mp hc with h5 | h5
        · exact h3 c h5
        · rw [List.mem_singleton.mp h5]
          exact hd.1
      · rw [digitsValue_append, h4, hd.2]
        omega

/-- The decimal numeral of `n`: digits only, with value `n`. -/
theorem toDigits_spec (n : Nat) :
    Nat.toDigits 10 n ≠ [] ∧ (∀ c ∈ Nat.toDigits 10 n, isDigit c = true) ∧
      digitsValue (Nat.toDigits 10 n) = n := by
  obtain ⟨l, h1, h2, h3, h4⟩ := toDigitsCore_spec (n + 1) n (by omega) []
  have : Nat.toDigits 10 n = l := by simpa [Nat.toDigits] using h1
  rw [this]
  exact ⟨h2, h3, h4⟩

theorem atoiSign_digits (s : Str) (h : ∀ c ∈ s, isDigit c = true) : atoiSign s = (false, s) := by
  unfold atoiSign
  split
  · exact absurd (h '-' (List.mem_cons_self _ _)) (by decide)
  · exact absurd (h '+' (List.mem_cons_self _ _)) (by decide)
  · rfl

/-- `Atoi` reads back the decimal numeral of a number in the `int` range. -/
theorem Atoi_toDigits (n : Nat) (h : (n : Int) ≤ maxInt) : Atoi (Nat.toDigits 10 n) = some (n : Int) := by
  obtain ⟨h1, h2, h3⟩ := toDigits_spec n
  have hs := atoiSign_digits _ h2
  have hv : atoiValue (Nat.toDigits 10 n) = (n : Int) := by simp [atoiValue, hs, h3]
  have he : (Nat.toDigits 10 n).isEmpty = false := by
    cases hd : Nat.toDigits 10 n with
    | nil => exact absurd hd h1
    | cons c cs => rfl
  have ha : (Nat.toDigits 10 n).all isDigit = true := List.all_eq_true.mpr h2
  have hmin : ¬ ((n : Int) < minInt) := by
    unfold minInt
    omega
  have hmax : ¬ (maxInt < (n : Int)) := by omega
  simp [Atoi, hs, hv, he, ha, hmin, hmax]

/-! ## A single product with a quantity marker -/

theorem digit_not_space (c : Char) (h : isDigit c = true) : isSpace c = false := by
  simp only [isDigit, Bool.and_eq_true, decide_eq_true_eq] at h
  rw [Bool.eq_false_iff]
  intro hs
  simp only [isSpace, Bool.or_eq_true, Bool.and_eq_true, decide_eq_true_eq, beq_iff_eq] at hs
  omega

theorem Shape_head (m : Submatch) (hs : Shape m) : ∃ fr, m.full = 'F' :: fr := by
  rw [hs.2.2.2.2]
  obtain ⟨⟨a, ha, hf⟩, -⟩ := hs
  rcases hf with hf | ⟨b, hb, hf⟩ <;> rw [hf] <;> exact ⟨_, rfl⟩

/-- Cleaning a segment made of a noise prefix without `*` in which, once it is
cleaned, no match starts, a canonical code and a quantity marker followed by
digits leaves the code and the marker. -/
theorem cleanProductString_found (m : Submatch) (hs : Shape m) (N dec : Str)
    (hstar : '*' ∉ N) (hno : noMatchStartsIn (cleanPrefix N) (m.full ++ '*' :: dec) = true)
    (hne : dec ≠ []) (hd : ∀ c ∈ dec, isDigit c = true) :
    cleanProductString (N ++ (m.full ++ '*' :: dec)) = Except.ok (m.full ++ '*' :: dec) := by
  obtain ⟨fr, hfr⟩ := Shape_head m hs
  obtain ⟨dinit, l, hl⟩ : ∃ dinit l, dec = dinit ++ [l] := by
    rcases List.eq_nil_or_concat dec with h | ⟨L, b, h⟩
    · exact absurd h hne
    · exact ⟨L, b, by simpa using h⟩
  have hlsp : isSpace l = false := digit_not_space l (hd l (by simp [hl]))
  have hform : N ++ (m.full ++ '*' :: dec) = N ++ 'F' :: ((fr ++ '*' :: dinit) ++ [l]) := by
    rw [hfr, hl]
    simp
  have hpct : '%' ∉ 'F' :: ((fr ++ '*' :: dinit) ++ [l]) := by
    have e : 'F' :: ((fr ++ '*' :: dinit) ++ [l]) = m.full ++ '*' :: dec := by
      rw [hfr, hl]
      simp
    rw [e]
    intro h
    rcases List.mem_append.mp h with h | h
    · exact absurd (Shape_chars m hs _ h) (by decide)
    · rcases List.mem_cons.mp h with h | h
      · exact absurd h (by decide)
      · exact absurd (hd _ h) (by decide)
  unfold cleanProductString
  rw [hform, TrimSpace_append N 'F' _ l (by decide) hlsp, removePct20_append _ _ hpct]
  have e : 'F' :: ((fr ++ '*' :: dinit) ++ [l]) = m.full ++ '*' :: dec := by
    rw [hfr, hl]
    simp
  rw [e]
  exact locate_found m hs _ dec hno (fun hc => hstar (mem_trimLeft _ _ (mem_removePct20 _ _ hc)))

/-- Cleaning a segment made of a noise prefix without `F` and `*`, a canonical
code and a quantity marker followed by digits leaves the code and the marker. -/
theorem cleanProductString_prefixed (m : Submatch) (hs : Shape m) (N dec : Str)
    (hN : ∀ c ∈ N, c ≠ '*' ∧ c ≠ 'F') (hne : dec ≠ []) (hd : ∀ c ∈ dec, isDigit c = true) :
    cleanProductString (N ++ (m.full ++ '*' :: dec)) = Except.ok (m.full ++ '*' :: dec) :=
  cleanProductString_found m hs N dec (fun h => (hN _ h).1 rfl)
    (noMatchStartsIn_of_no_F _ _
      (fun c hc => (hN c (mem_trimLeft _ _ (mem_removePct20 _ _ hc))).2)) hne hd

/-- The quantity marker with the numeral of a positive number in the `int`
range is split off as that number. -/
theorem splitQuantity_marker (m : Submatch) (hs : Shape m) (Q : Nat) (hQ : 0 < Q)
    (hmax : (Q : Int) ≤ maxInt) :
    splitQuantity (m.full ++ '*' :: Nat.toDigits 10 Q) = (m.full, (Q : Int)) := by
  obtain ⟨h1, h2, h3⟩ := toDigits_spec Q
  have hc : Contains (m.full ++ '*' :: Nat.toDigits 10 Q) '*' = true := by
    rw [Contains_iff]
    simp
  have hsp : Split (m.full ++ '*' :: Nat.toDigits 10 Q) '*' = [m.full, Nat.toDigits 10 Q] :=
    Split_two '*' _ _ (Shape_no_star m hs) (fun h => absurd (h2 _ h) (by decide))
  have hq : (0 : Int) < (Q : Int) := by omega
  simp [splitQuantity, hc, hsp, Atoi_toDigits Q hmax, hq]

/-! ## Rounding -/

/-- In exact arithmetic `round2` is rounding to two decimal places, halves away
from zero: the result is a whole number of hundredths, at most half a hundredth
from the argument, and a half is moved away from zero. -/
theorem round2_exact (x : ℚ) :
    (∃ k : Int, round2 exactOps x = (k : ℚ) / 100) ∧
    |round2 exactOps x - x| ≤ 1 / 200 ∧
    (∀ k : Int, x * 100 = (k : ℚ) + 1 / 2 →
      round2 exactOps x = if 0 ≤ x then ((k : ℚ) + 1) / 100 else (k : ℚ) / 100) := by
  have hr : round2 exactOps x = roundHalfAway (x * 100) / 100 := by
    simp [round2, exactOps]
  rw [hr]
  unfold roundHalfAway
  by_cases h : 0 ≤ x * 100
  · have hx : 0 ≤ x := by linarith
    have h1 := Int.floor_le (x * 100 + 1 / 2)
    have h2 := Int.lt_floor_add_one (x * 100 + 1 / 2)
    simp only [h, if_true, hx]
    refine ⟨⟨_, rfl⟩, ?_, ?_⟩
    · rw [abs_le]
      constructor <;> linarith
    · intro k hk
      have : ⌊x * 100 + 1 / 2⌋ = k + 1 := by
        rw [hk, Int.floor_eq_iff]
        push_cast
        constructor <;> linarith
      rw [this]
      push_cast
      ring
  · have hx : ¬ 0 ≤ x := by
      intro h0
      exact h (by linarith)
    have h1 := Int.floor_le (-(x * 100) + 1 / 2)
    have h2 := Int.lt_floor_add_one (-(x * 100) + 1 / 2)
    simp only [h, if_false, hx]
    refine ⟨⟨-⌊-(x * 100) + 1 / 2⌋, by push_cast; ring⟩, ?_, ?_⟩
    · rw [abs_le]
      constructor <;> linarith
    · intro k hk
      have : ⌊-(x * 100) + 1 / 2⌋ = -k := by
        rw [hk, Int.floor_eq_iff]
        push_cast
        constructor <;> linarith
      rw [this]
      push_cast
      ring

/-! ## Runs on the test inputs -/

/-- A segment with a texture outside the pattern makes `Parse` fail. -/
theorem glossy_fails :
    Parse "FG0A-CLEAR-OPPOA3/FG0A-GLOSSY-X".toList =
      Except.error Fault.ErrInvalidProductFormat := rfl

/-- Run of the code on `case6` with the map visited in order of insertion. -/
theorem run_case6 : ProcessOrders exactOps insertionOrder case6 = Except.ok case6Out := by
  have h : ProcessOrders exactOps insertionOrder case6 = Except.ok
      [productLine exactOps (exactOps.div 120 (exactOps.ofInt 2)) 1
        ⟨"FG0A-CLEAR-OPPOA3".toList, "FG0A-CLEAR".toList, "OPPOA3".toList, 2⟩,
       productLine exactOps (exactOps.div 120 (exactOps.ofInt 2)) 2
        ⟨"FG0A-MATTE-OPPOA3".toList, "FG0A-MATTE".toList, "OPPOA3".toList, 1⟩,
       clothLine exactOps 3 3, cleanerLine exactOps 4 ("CLEAR".toList, 2),
       cleanerLine exactOps 5 ("MATTE".toList, 1)] := rfl
  rw [h, case6Out]
  simp only [productLine, round2, exactOps, roundHalfAway, clothLine, cleanerLine]
  norm_num

/-! ## Numbering of the output -/

theorem numberedFrom_append {F : Type} (l1 l2 : List (CleanedOrder F)) (s : Int)
    (h1 : NumberedFrom s l1) (h2 : NumberedFrom (s + l1.length) l2) :
    NumberedFrom s (l1 ++ l2) := by
  induction l1 generalizing s with
  | nil => simpa using h2
  | cons l ls ih =>
    refine ⟨h1.1, ih (s + 1) h1.2 ?_⟩
    have e : s + 1 + (ls.length : Int) = s + ((l :: ls).length : Int) := by
      simp only [List.length_cons, Nat.cast_add, Nat.cast_one]
      ring
    rw [e]
    exact h2

theorem numberedFrom_get? {F : Type} (ls : List (CleanedOrder F)) (s : Int)
    (h : NumberedFrom s ls) (k : Nat) (l : CleanedOrder F) (hk : ls.get? k = some l) :
    l.No = s + k := by
  induction ls generalizing s k with
  | nil => simp at hk
  | cons x xs ih =>
    cases k with
    | zero =>
      simp only [List.get?_cons_zero, Option.some.injEq] at hk
      rw [← hk, h.1]
      simp
    | succ k =>
      simp only [List.get?_cons_succ] at hk
      rw [ih (s + 1) h.2 k hk]
      push_cast
      ring

theorem productLines_numbered {F : Type} (A : FloatOps F) (ppp : F) (no : Int)
    (ps : List Product) : NumberedFrom no (productLines A ppp no ps) := by
  induction ps generalizing no with
  | nil => trivial
  | cons p ps ih => exact ⟨rfl, ih (no + 1)⟩

theorem cleanerLines_numbered {F : Type} (A : FloatOps F) (no : Int) (es : List (Str × Int)) :
    NumberedFrom no (cleanerLines A no es) := by
  induction es generalizing no with
  | nil => trivial
  | cons e es ih => exact ⟨rfl, ih (no + 1)⟩

/-- The lines of a block carry consecutive numbers from the counter on. -/
theorem blockOf_numbered {F : Type} (A : FloatOps F) (ord : MapOrder) (i : Nat) (t : F)
    (ps : List Product) (no : Int) : NumberedFrom no (blockOf A ord i t ps no).lines := by
  unfold LineBlock.lines blockOf
  refine numberedFrom_append _ _ no (productLines_numbered A _ no ps) ?_
  rw [productLines_length]
  exact ⟨rfl, cleanerLines_numbered A _ _⟩

/-- A run of the outer loop appends lines numbered from the counter on and
advances the counter by their number. -/
theorem orderLoop_numbered {F : Type} (A : FloatOps F) (ord : MapOrder)
    (inputs : List (InputOrder F)) (i : Nat) (co : List (CleanedOrder F)) (no : Int)
    (st : Acc F) (h : orderLoop A ord inputs i (co, no) = Except.ok st) :
    ∃ new, st.1 = co ++ new ∧ NumberedFrom no new := by
  induction inputs generalizing i co no with
  | nil =>
    simp only [orderLoop, Except.ok.injEq] at h
    exact ⟨[], by simp [← h], trivial⟩
  | cons input rest ih =>
    simp only [orderLoop] at h
    cases hp : Parse input.PlatformProductId with
    | error e => simp [hp] at h
    | ok ps =>
      simp only [hp, expandLine_eq] at h
      obtain ⟨new, h1, h2⟩ := ih _ _ _ h
      refine ⟨(blockOf A ord i input.TotalPrice ps no).lines ++ new, by simp [h1], ?_⟩
      exact numberedFrom_append _ _ no (blockOf_numbered A ord i _ ps no) h2

/-- Run of the code on `case7` with the maps visited in order of insertion. -/
theorem run_case7 : ProcessOrders exactOps insertionOrder case7 = Except.ok case7Out := by
  have h : ProcessOrders exactOps insertionOrder case7 = Except.ok
      [productLine exactOps (exactOps.div 160 (exactOps.ofInt 2)) 1
        ⟨"FG0A-CLEAR-OPPOA3".toList, "FG0A-CLEAR".toList, "OPPOA3".toList, 2⟩,
       productLine exactOps (exactOps.div 160 (exactOps.ofInt 2)) 2
        ⟨"FG0A-MATTE-OPPOA3".toList, "FG0A-MATTE".toList, "OPPOA3".toList, 2⟩,
       clothLine exactOps 3 4, cleanerLine exactOps 4 ("CLEAR".toList, 2),
       cleanerLine exactOps 5 ("MATTE".toList, 2),
       productLine exactOps (exactOps.div 50 (exactOps.ofInt 1)) 6
        ⟨"FG0A-PRIVACY-IPHONE16PROMAX".toList, "FG0A-PRIVACY".toList,
          "IPHONE16PROMAX".toList, 1⟩,
       clothLine exactOps 7 1, cleanerLine exactOps 8 ("PRIVACY".toList, 1)] := rfl
  rw [h, case7Out]
  simp only [productLine, round2, exactOps, roundHalfAway, clothLine, cleanerLine]
  norm_num

/-! ## Segments and products -/

theorem splitAux_length (sep : Char) (s cur : Str) :
    (splitAux sep s cur).length = s.count sep + 1 := by
  induction s generalizing cur with
  | nil => simp [splitAux]
  | cons c cs ih =>
    unfold splitAux
    split_ifs with h
    · simp [ih, h]
    · have hne : (c == sep) = false := by simpa using h
      simp [ih, List.count_cons, hne]

/-- The number of parts is one more than the number of separators. -/
theorem Split_length (s : Str) (sep : Char) : (Split s sep).length = s.count sep + 1 :=
  splitAux_length sep s []

theorem modelChar_not_space (c : Char) (h : isModelChar c = true) : isSpace c = false := by
  simp only [isModelChar, isCodeChar, Bool.or_eq_true, Bool.and_eq_true, decide_eq_true_eq,
    beq_iff_eq] at h
  rw [Bool.eq_false_iff]
  intro hs
  simp only [isSpace, Bool.or_eq_true, Bool.and_eq_true, decide_eq_true_eq, beq_iff_eq] at hs
  omega

/-- The outer loop reads only the SKU and the total price of the input lines. -/
theorem orderLoop_congr {F : Type} (A : FloatOps F) (ord : MapOrder)
    (b1 b2 : List (InputOrder F))
    (h : List.Forall₂ (fun x y => x.PlatformProductId = y.PlatformProductId ∧
      x.TotalPrice = y.TotalPrice) b1 b2) (i : Nat) (st : Acc F) :
    orderLoop A ord b1 i st = orderLoop A ord b2 i st := by
  induction h generalizing i st with
  | nil => rfl
  | cons hxy _ ih =>
    simp only [orderLoop, hxy.1, hxy.2]
    split
    · rfl
    · exact ih _ _

theorem productLines_totalPrice {F : Type} (A : FloatOps F) (ppp : F) (no : Int)
    (ps : List Product) (l : CleanedOrder F) (hl : l ∈ productLines A ppp no ps) :
    l.TotalPrice = A.mul l.UnitPrice (A.ofInt l.Qty) := by
  induction ps generalizing no with
  | nil => simp [productLines] at hl
  | cons p ps ih =>
    simp only [productLines, List.mem_cons] at hl
    rcases hl with rfl | hl
    · rfl
    · exact ih _ hl

/-! ## Canonical codes -/

theorem trimLeft_id (s : Str) (h : ∀ c ∈ s, isSpace c = false) : trimLeft s = s := by
  cases s with
  | nil => rfl
  | cons c cs => exact trimLeft_head c cs (h c (List.mem_cons_self _ _))

theorem TrimSpace_id (s : Str) (h : ∀ c ∈ s, isSpace c = false) : TrimSpace s = s := by
  unfold TrimSpace
  rw [trimLeft_id s h, trimLeft_id s.reverse (fun c hc => h c (List.mem_reverse.mp hc)),
    List.reverse_reverse]

theorem removePct20_keep_left (a b : Str) (h : '%' ∉ a) :
    removePct20 (a ++ b) = a ++ removePct20 b := by
  induction a with
  | nil => rfl
  | cons c cs ih =>
    have hc : c ≠ '%' := fun e => h (e ▸ List.mem_cons_self _ _)
    rw [List.cons_append, removePct20_cons c _ (fun t ht => hc (List.cons.inj ht).1),
      ih (fun e => h (List.mem_cons_of_mem _ e))]
    rfl

theorem Shape_no_pct (m : Submatch) (hs : Shape m) : '%' ∉ m.full := by
  intro h
  have := Shape_chars m hs _ h
  revert this
  decide

theorem Shape_no_slash (m : Submatch) (hs : Shape m) : '/' ∉ m.full := by
  intro h
  have := Shape_chars m hs _ h
  revert this
  decide

/-- A canonical code is left as it is by the cleaning step. -/
theorem cleanProductString_canonical (m : Submatch) (hs : Shape m) :
    cleanProductString m.full = Except.ok m.full := by
  have hsp : ∀ c ∈ m.full, isSpace c = false := fun c hc =>
    modelChar_not_space c (Shape_chars m hs c hc)
  have hfind : FindString m.full = m.full := by
    apply FindString_some
    have := FindStringSubmatch_canonical m hs [] stopsModel_nil
    simpa using this
  have hc : Contains m.full '*' = false := by
    rw [← Bool.not_eq_true, Contains_iff]
    exact Shape_no_star m hs
  unfold cleanProductString
  rw [TrimSpace_id _ hsp, removePct20_no_pct _ (Shape_no_pct m hs)]
  unfold locate
  rw [hfind]
  simp [Index, hc]

/-- Parsing a canonical code returns it with quantity 1. -/
theorem Parse_canonical (m : Submatch) (hs : Shape m) :
    Parse m.full = Except.ok [⟨m.full, m.film ++ '-' :: m.texture, m.model, 1⟩] := by
  have hc : Contains m.full '*' = false := by
    rw [← Bool.not_eq_true, Contains_iff]
    exact Shape_no_star m hs
  have hsq : splitQuantity m.full = (m.full, 1) := by simp [splitQuantity, hc]
  have hex := extract_cleaned m hs m.full (Or.inl rfl)
  rw [hsq] at hex
  rw [Parse, Split_no_sep '/' _ (Shape_no_slash m hs)]
  simp only [parseSegments, parseSegment, cleanProductString_canonical m hs, hsq, hex]

/-- Cleaning a canonical code followed by a marker keeps the code, the marker
and the cleaned text after it. -/
theorem cleanProductString_marker (m : Submatch) (hs : Shape m) (r : Str) :
    cleanProductString (m.full ++ '*' :: r) = Except.ok (m.full ++ '*' :: cleanSuffix r) := by
  obtain ⟨fr, hfr⟩ := Shape_head m hs
  have htrim : TrimSpace (m.full ++ '*' :: r) = m.full ++ '*' :: (trimLeft r.reverse).reverse := by
    unfold TrimSpace
    have h1 : trimLeft (m.full ++ '*' :: r) = m.full ++ '*' :: r := by
      rw [hfr]
      exact trimLeft_head 'F' _ (by decide)
    have h2 : (m.full ++ '*' :: r).reverse = r.reverse ++ '*' :: m.full.reverse := by simp
    rw [h1, h2, trimLeft_append _ '*' _ (by decide)]
    simp
  have hrem : removePct20 (m.full ++ '*' :: (trimLeft r.reverse).reverse) =
      m.full ++ '*' :: cleanSuffix r := by
    rw [removePct20_keep_left _ _ (Shape_no_pct m hs),
      removePct20_cons '*' _ (fun t ht => absurd (List.cons.inj ht).1 (by decide))]
    rfl
  unfold cleanProductString
  rw [htrim, hrem]
  have := locate_prefixed m hs [] (cleanSuffix r) (by simp) (by simp)
  simpa using this

/-- The quantity read after a canonical code is 1 unless `Atoi` reads the
cleaned text after the marker as a positive number. -/
theorem splitQuantity_degrade (m : Submatch) (hs : Shape m) (r : Str)
    (hdeg : ∀ q, Atoi r = some q → q ≤ 0) : (splitQuantity (m.full ++ '*' :: r)).2 = 1 := by
  unfold splitQuantity
  split_ifs
  · split
    · rename_i p0 p1 hsp
      obtain ⟨h2, h3, -⟩ := Split_two_inv '*' _ _ _ hsp
      have e1 := takeWhile_append_sep '*' p0 p1 h3
      rw [← h2, takeWhile_append_sep '*' _ r (Shape_no_star m hs)] at e1
      rw [← e1] at h2
      have e2 : r = p1 := by
        have := List.append_cancel_left h2
        exact (List.cons.inj this).2
      subst e2
      split
      · rename_i qty hq
        have := hdeg qty hq
        split_ifs with hpos
        · omega
        · rfl
      · rfl
    · rfl
  · rfl

/-- A canonical code followed by a marker always parses to the code; the
quantity is the one read from the cleaned text after the marker. -/
theorem Parse_marker (m : Submatch) (hs : Shape m) (r : Str) (hslash : '/' ∉ r) :
    Parse (m.full ++ '*' :: r) = Except.ok [⟨m.full, m.film ++ '-' :: m.texture, m.model,
      (splitQuantity (m.full ++ '*' :: cleanSuffix r)).2⟩] := by
  have hns : '/' ∉ m.full ++ '*' :: r := by
    intro h
    rcases List.mem_append.mp h with h | h
    · exact Shape_no_slash m hs h
    · rcases List.mem_cons.mp h with h | h
      · exact absurd h (by decide)
      · exact hslash h
  have hex := extract_cleaned m hs (m.full ++ '*' :: cleanSuffix r) (Or.inr ⟨_, rfl⟩)
  rw [Parse, Split_no_sep '/' _ hns]
  simp only [parseSegments, parseSegment, cleanProductString_marker m hs r, hex]

/-! ## Errors of a batch -/

theorem orderLoop_error {F : Type} (A : FloatOps F) (ord : MapOrder)
    (inputs : List (InputOrder F)) (i : Nat) (st : Acc F) (e : Fault)
    (h : orderLoop A ord inputs i st = Except.error e) :
    ∃ input ∈ inputs, Parse input.PlatformProductId = Except.error e := by
  induction inputs generalizing i st with
  | nil => simp [orderLoop] at h
  | cons input rest ih =>
    simp only [orderLoop] at h
    cases hp : Parse input.PlatformProductId with
    | error e1 =>
      simp only [hp, Except.error.injEq] at h
      exact ⟨input, List.mem_cons_self _ _, h ▸ hp⟩
    | ok ps =>
      simp only [hp] at h
      obtain ⟨x, hx, h1⟩ := ih _ _ h
      exact ⟨x, List.mem_cons_of_mem _ hx, h1⟩

theorem orderLoop_ok {F : Type} (A : FloatOps F) (ord : MapOrder)
    (inputs : List (InputOrder F)) (i : Nat) (st st1 : Acc F)
    (h : orderLoop A ord inputs i st = Except.ok st1) :
    ∀ input ∈ inputs, ∃ ps, Parse input.PlatformProductId = Except.ok ps := by
  induction inputs generalizing i st with
  | nil => simp
  | cons input rest ih =>
    simp only [orderLoop] at h
    cases hp : Parse input.PlatformProductId with
    | error e1 => simp [hp] at h
    | ok ps =>
      simp only [hp] at h
      intro x hx
      rcases List.mem_cons.mp hx with rfl | hx
      · exact ⟨ps, hp⟩
      · exact ih _ _ h x hx

/-- On a batch on which no `Parse` aborts, `ProcessOrders` returns
InvalidProductFormat exactly when `Parse` returns it for some input line, and
returns output lines otherwise. -/
theorem ProcessOrders_error_iff {F : Type} (A : FloatOps F) (ord : MapOrder)
    (inputs : List (InputOrder F))
    (hsafe : ∀ input ∈ inputs, Parse input.PlatformProductId ≠ Except.error Fault.slicePanic) :
    (ProcessOrders A ord inputs = Except.error Fault.ErrInvalidProductFormat ↔
      ∃ input ∈ inputs,
        Parse input.PlatformProductId = Except.error Fault.ErrInvalidProductFormat) ∧
    ((∃ out, ProcessOrders A ord inputs = Except.ok out) ↔
      ∀ input ∈ inputs, ∃ ps, Parse input.PlatformProductId = Except.ok ps) := by
  unfold ProcessOrders
  cases hl : orderLoop A ord inputs 0 ([], 1) with
  | error e =>
    obtain ⟨x, hx, h1⟩ := orderLoop_error A ord inputs 0 _ e hl
    cases e with
    | slicePanic => exact absurd h1 (hsafe x hx)
    | ErrInvalidProductFormat =>
      refine ⟨⟨fun _ => ⟨x, hx, h1⟩, fun _ => rfl⟩, ⟨fun ⟨out, ho⟩ => by simp at ho, fun hall => ?_⟩⟩
      obtain ⟨ps, hps⟩ := hall x hx
      rw [h1] at hps
      exact absurd hps (by simp)
  | ok st =>
    have hall := orderLoop_ok A ord inputs 0 _ st hl
    refine ⟨⟨fun h => by simp at h, fun ⟨x, hx, h1⟩ => ?_⟩, ⟨fun _ => hall, fun _ => ⟨st.1, rfl⟩⟩⟩
    obtain ⟨ps, hps⟩ := hall x hx
    rw [h1] at hps
    exact absurd hps (by simp)

/-! ## Totals of the texture map -/

theorem wrapInt_idem (a : Int) : wrapInt (wrapInt a) = wrapInt a := by
  have := wrapInt_add_left a 0
  simpa using this

theorem wrapInt_add_right (a b : Int) : wrapInt (a + wrapInt b) = wrapInt (a + b) := by
  rw [add_comm, wrapInt_add_left, add_comm]

theorem mapTotal_mapAdd_wrap (m : List (Str × Int)) (t : Str) (q : Int) :
    wrapInt (mapTotal (mapAdd m t q)) = wrapInt (mapTotal m + q) := by
  induction m with
  | nil => simp [mapAdd, mapTotal, wrapInt_idem]
  | cons e rest ih =>
    obtain ⟨k, v⟩ := e
    by_cases hk : k = t
    · simp only [mapAdd, hk, if_true, mapTotal, List.map_cons, List.sum_cons]
      rw [wrapInt_add_left]
      congr 1
      ring
    · simp only [mapAdd, hk, if_false, mapTotal, List.map_cons, List.sum_cons]
      have ih1 : wrapInt ((List.map Prod.snd (mapAdd rest t q)).sum) =
          wrapInt ((List.map Prod.snd rest).sum + q) := ih
      rw [← wrapInt_add_right, ih1, wrapInt_add_right]
      congr 1
      ring

theorem foldl_mapAdd_total_wrap (ps : List Product) (m : List (Str × Int)) :
    wrapInt (mapTotal (ps.foldl (fun acc p => mapAdd acc (textureOf p) p.Qty) m)) =
      wrapInt (mapTotal m + (ps.map Product.Qty).sum) := by
  induction ps generalizing m with
  | nil => simp
  | cons p ps ih =>
    simp only [List.foldl_cons, List.map_cons, List.sum_cons]
    rw [ih, ← wrapInt_add_left, mapTotal_mapAdd_wrap, wrapInt_add_left]
    congr 1
    ring

theorem mapTotal_nonneg (m : List (Str × Int)) (h : ∀ e ∈ m, 0 ≤ e.2) : 0 ≤ mapTotal m := by
  induction m with
  | nil => simp [mapTotal]
  | cons e rest ih =>
    have h1 := h e (List.mem_cons_self _ _)
    have h2 := ih (fun x hx => h x (List.mem_cons_of_mem _ hx))
    simp only [mapTotal, List.map_cons, List.sum_cons] at h2 ⊢
    omega

theorem mapTotal_mapAdd_exact (m : List (Str × Int)) (t : Str) (q : Int)
    (hm : ∀ e ∈ m, 0 ≤ e.2) (hq : 0 ≤ q) (hle : mapTotal m + q ≤ maxInt) :
    mapTotal (mapAdd m t q) = mapTotal m + q ∧ ∀ e ∈ mapAdd m t q, 0 ≤ e.2 := by
  have hmin : minInt ≤ 0 := by decide
  induction m with
  | nil =>
    have hw : wrapInt (0 + q) = q := by
      rw [zero_add]
      refine wrapInt_of_range q (le_trans hmin hq) ?_
      simpa [mapTotal] using hle
    simp only [mapAdd, hw]
    refine ⟨by simp [mapTotal], ?_⟩
    intro e he
    rw [List.mem_singleton.mp he]
    exact hq
  | cons e rest ih =>
    obtain ⟨k, v⟩ := e
    have hv : 0 ≤ v := hm (k, v) (List.mem_cons_self _ _)
    have hrest : ∀ x ∈ rest, 0 ≤ x.2 := fun x hx => hm x (List.mem_cons_of_mem _ hx)
    have hr0 := mapTotal_nonneg rest hrest
    have htot : mapTotal ((k, v) :: rest) = v + mapTotal rest := by simp [mapTotal]
    rw [htot] at hle
    by_cases hk : k = t
    · have hw : wrapInt (v + q) = v + q :=
        wrapInt_of_range _ (le_trans hmin (by omega)) (by omega)
      simp only [mapAdd, hk, if_true, hw]
      refine ⟨?_, ?_⟩
      · simp only [mapTotal, List.map_cons, List.sum_cons]
        ring
      · intro x hx
        rcases List.mem_cons.mp hx with rfl | hx
        · show 0 ≤ v + q
          omega
        · exact hrest x hx
    · obtain ⟨h1, h2⟩ := ih hrest (by omega)
      simp only [mapAdd, hk, if_false]
      refine ⟨?_, ?_⟩
      · have : mapTotal ((k, v) :: mapAdd rest t q) = v + mapTotal (mapAdd rest t q) := by
          simp [mapTotal]
        rw [this, h1, htot]
        ring
      · intro x hx
        rcases List.mem_cons.mp hx with rfl | hx
        · exact hv
        · exact h2 x hx

theorem foldl_mapAdd_total_exact (ps : List Product) (m : List (Str × Int))
    (hm : ∀ e ∈ m, 0 ≤ e.2) (hps : ∀ p ∈ ps, 1 ≤ p.Qty)
    (hle : mapTotal m + (ps.map Product.Qty).sum ≤ maxInt) :
    mapTotal (ps.foldl (fun acc p => mapAdd acc (textureOf p) p.Qty) m) =
      mapTotal m + (ps.map Product.Qty).sum := by
  induction ps generalizing m with
  | nil => simp
  | cons p ps ih =>
    have hp := hps p (List.mem_cons_self _ _)
    have hrest : ∀ x ∈ ps, 1 ≤ x.Qty := fun x hx => hps x (List.mem_cons_of_mem _ hx)
    have hs0 := qty_sum_nonneg ps hrest
    simp only [List.map_cons, List.sum_cons] at hle
    obtain ⟨h1, h2⟩ := mapTotal_mapAdd_exact m (textureOf p) p.Qty hm (by omega) (by omega)
    simp only [List.foldl_cons, List.map_cons, List.sum_cons]
    rw [ih _ h2 hrest (by rw [h1]; omega), h1]
    ring

theorem cleanerLines_qty {F : Type} (A : FloatOps F) (no : Int) (es : List (Str × Int)) :
    ((cleanerLines A no es).map CleanedOrder.Qty).sum = mapTotal es := by
  induction es generalizing no with
  | nil => rfl
  | cons e es ih =>
    have := ih (no + 1)
    simp only [mapTotal] at this ⊢
    simp [cleanerLines, cleanerLine, this]

/-! ## Blocks of a batch and fields that are not read -/

/-- On a successful batch, for every arithmetic, the output is the concatenation
of one block per input line; the product lines of a block are the products
parsed from the SKU of the line, and each of them has as UnitPrice the value of
`round2` at (P / n) / q for the total price P of the line, the number n of
parsed products and its own quantity q. -/
theorem unit_price_formula {F : Type} (A : FloatOps F) (ord : MapOrder)
    (inputs : List (InputOrder F)) (out : List (CleanedOrder F))
    (h : ProcessOrders A ord inputs = Except.ok out) :
    ∃ blocks : List (LineBlock F),
      out = (blocks.map LineBlock.lines).flatten ∧
      List.Forall₂ (fun input b => ∃ ps, Parse input.PlatformProductId = Except.ok ps ∧
        b.products.map CleanedOrder.product = ps ∧
        b.cloth.ProductId = "WIPING-CLOTH".toList ∧
        ∀ l ∈ b.products, l.UnitPrice =
          round2 A (A.div (A.div input.TotalPrice (A.ofInt (ps.length : Int))) (A.ofInt l.Qty)))
        inputs blocks := by
  obtain ⟨blocks, hb, hf⟩ := ProcessOrders_blocks A ord inputs out h
  refine ⟨blocks, hb, hf.imp ?_⟩
  rintro input b ⟨ps, j, n, hp, rfl⟩
  exact ⟨ps, hp, productLines_product _ _ _ _, rfl, fun l hl => productLines_unitPrice _ _ _ _ l hl⟩

/-- For every arithmetic and every fixed order in which the texture maps are
visited, two batches whose lines agree pairwise on PlatformProductId and
TotalPrice give the same result, whatever their fields No, Qty and UnitPrice
are. -/
theorem result_ignores_unused_fields {F : Type} (A : FloatOps F) (ord : MapOrder)
    (b1 b2 : List (InputOrder F))
    (h : List.Forall₂ (fun x y => x.PlatformProductId = y.PlatformProductId ∧
      x.TotalPrice = y.TotalPrice) b1 b2) :
    ProcessOrders A ord b1 = ProcessOrders A ord b2 := by
  unfold ProcessOrders
  rw [orderLoop_congr A ord b1 b2 h]

/-- Run of the code on `case6` with the map visited in reverse order of
insertion. -/
theorem run_case6_reversed :
    ProcessOrders exactOps reverseOrder case6 = Except.ok case6OutReversed := by
  have h : ProcessOrders exactOps reverseOrder case6 = Except.ok
      [productLine exactOps (exactOps.div 120 (exactOps.ofInt 2)) 1
        ⟨"FG0A-CLEAR-OPPOA3".toList, "FG0A-CLEAR".toList, "OPPOA3".toList, 2⟩,
       productLine exactOps (exactOps.div 120 (exactOps.ofInt 2)) 2
        ⟨"FG0A-MATTE-OPPOA3".toList, "FG0A-MATTE".toList, "OPPOA3".toList, 1⟩,
       clothLine exactOps 3 3, cleanerLine exactOps 4 ("MATTE".toList, 1),
       cleanerLine exactOps 5 ("CLEAR".toList, 2)] := rfl
  rw [h, case6OutReversed]
  simp only [productLine, round2, exactOps, roundHalfAway, clothLine, cleanerLine]
  norm_num

/-! ## Properties of the binary64 model -/

theorem log2Steps_spec (fuel n : Nat) (hf : n < 2 ^ fuel) (hn : 0 < n) :
    2 ^ log2Steps fuel n ≤ n ∧ n < 2 ^ (log2Steps fuel n + 1) := by
  induction fuel generalizing n with
  | zero => simp at hf; omega
  | succ fuel ih =>
    unfold log2Steps
    split_ifs with h2
    · constructor <;> simp <;> omega
    · rw [Nat.pow_succ] at hf
      obtain ⟨h3, h4⟩ := ih (n / 2) (by omega) (by omega)
      rw [Nat.pow_succ] at h4 ⊢
      rw [Nat.pow_succ]
      constructor <;> omega

theorem log2Chunks_spec (fuel n : Nat) (hf : n ≤ fuel) (hn : 0 < n) :
    2 ^ log2Chunks fuel n ≤ n ∧ n < 2 ^ (log2Chunks fuel n + 1) := by
  induction fuel generalizing n with
  | zero => omega
  | succ fuel ih =>
    unfold log2Chunks
    split_ifs with h2
    · exact log2Steps_spec 64 n h2 hn
    · have hp : 0 < 2 ^ 64 := by positivity
      have hd : 0 < n / 2 ^ 64 := Nat.div_pos (by omega) hp
      have hlt : n / 2 ^ 64 < n := Nat.div_lt_self hn (by norm_num)
      obtain ⟨h3, h4⟩ := ih (n / 2 ^ 64) (by omega) hd
      constructor
      · rw [Nat.pow_add]
        exact (Nat.le_div_iff_mul_le hp).mp h3
      · rw [show log2Chunks fuel (n / 2 ^ 64) + 64 + 1 = (log2Chunks fuel (n / 2 ^ 64) + 1) + 64
          by omega, Nat.pow_add]
        exact (Nat.div_lt_iff_lt_mul hp).mp h4

/-- The leading bit of a positive number is at position `floorLog2`. -/
theorem floorLog2_spec (n : Nat) (hn : 0 < n) :
    2 ^ floorLog2 n ≤ n ∧ n < 2 ^ (floorLog2 n + 1) :=
  log2Chunks_spec n n (le_refl n) hn

/-- The rational value of a whole number of units of 1. -/
theorem toRat_whole (k : Nat) : F64.toRat (F64.finite false (k * 2 ^ 1074)) = some (k : ℚ) := by
  have hp : (2 : ℚ) ^ 1074 ≠ 0 := pow_ne_zero 1074 (by norm_num)
  simp only [F64.toRat, Bool.false_eq_true, if_false, one_mul, Nat.cast_mul, Nat.cast_pow,
    Nat.cast_ofNat]
  rw [mul_div_assoc, div_self hp, mul_one]

/-- The value with `k` hundredths is the value of `round2` in exact arithmetic
at every non-negative number that is less than half a hundredth away from it,
the upper half excluded. -/
theorem round2_exact_of_bounds (d : ℚ) (k : Int) (h0 : 0 ≤ d) (h1 : (k : ℚ) - 1 / 2 ≤ d * 100)
    (h2 : d * 100 < (k : ℚ) + 1 / 2) : round2 exactOps d = (k : ℚ) / 100 := by
  have hr : round2 exactOps d = roundHalfAway (d * 100) / 100 := by
    simp [round2, exactOps]
  have hpos : 0 ≤ d * 100 := by linarith
  have hfl : ⌊d * 100 + 1 / 2⌋ = k := by
    rw [Int.floor_eq_iff]
    constructor <;> linarith
  rw [hr, roundHalfAway, if_pos hpos, hfl]

/-! ## Claims -/

/-- C2 (fails on the code): on the input `2*FG0A-CLEAR-IPHONE16PROMAX` the slice
`productStr[idx-len(match):idx]` has start index `1 - 25 = -24`, and `Parse`
aborts with a run-time panic instead of returning products or an error. -/
theorem parse_panics_on_leading_marker :
    sliceStart "2*FG0A-CLEAR-IPHONE16PROMAX".toList
      (FindString "2*FG0A-CLEAR-IPHONE16PROMAX".toList) = -24 ∧
    cleanProductString "2*FG0A-CLEAR-IPHONE16PROMAX".toList = Except.error Fault.slicePanic ∧
    Parse "2*FG0A-CLEAR-IPHONE16PROMAX".toList = Except.error Fault.slicePanic :=
  ⟨rfl, rfl, rfl⟩

/-- C5 (fails on the code): on the input of test case 1 (input Qty 2, total
100) and on the same line with the noise prefix `x2-3&`, whatever the map
order, the product line has Qty 1, UnitPrice 100 and TotalPrice 100, and the two
complementary lines have Qty 1: the Qty of the input line is not used. -/
theorem case1_ignores_input_qty (ord : MapOrder) :
    ProcessOrders exactOps ord case1 =
      Except.ok [⟨1, "FG0A-CLEAR-IPHONE16PROMAX".toList, "FG0A-CLEAR".toList,
          "IPHONE16PROMAX".toList, 1, 100, 100⟩,
        ⟨2, "WIPING-CLOTH".toList, [], [], 1, 0, 0⟩,
        ⟨3, "CLEAR-CLEANNER".toList, [], [], 1, 0, 0⟩] ∧
    ProcessOrders exactOps ord case2 = ProcessOrders exactOps ord case1 := by
  have h1 : ProcessOrders exactOps ord case1 = _ := run_case1 exactOps ord 1 2 50 100
  have h2 : ProcessOrders exactOps ord case2 = _ := run_case2 exactOps ord 1 2 50 100
  refine ⟨?_, h2.trans h1.symm⟩
  rw [h1, price_case1]
  simp [clothLine, cleanerLine, exactOps]

/-- C7 (fails on the code as stated): the two products of `hugeQty` have
quantity 9223372036854775807 each, their sum is 18446744073709551614, and the
WIPING-CLOTH line, the third line of the output, has Qty -2 (the map order
plays no part in it; it is fixed to the order of insertion here). -/
theorem cloth_qty_overflow :
    Parse "FG0A-CLEAR-X*9223372036854775807/FG0A-CLEAR-Y*9223372036854775807".toList =
      Except.ok [⟨"FG0A-CLEAR-X".toList, "FG0A-CLEAR".toList, "X".toList, 9223372036854775807⟩,
        ⟨"FG0A-CLEAR-Y".toList, "FG0A-CLEAR".toList, "Y".toList, 9223372036854775807⟩] ∧
    lineAt (ProcessOrders exactOps insertionOrder hugeQty) 2 =
      some ⟨3, "WIPING-CLOTH".toList, [], [], -2, 0, 0⟩ := by
  have hp : Parse "FG0A-CLEAR-X*9223372036854775807/FG0A-CLEAR-Y*9223372036854775807".toList =
      Except.ok [⟨"FG0A-CLEAR-X".toList, "FG0A-CLEAR".toList, "X".toList, 9223372036854775807⟩,
        ⟨"FG0A-CLEAR-Y".toList, "FG0A-CLEAR".toList, "Y".toList, 9223372036854775807⟩] := rfl
  have key : ∀ ord : MapOrder, lineAt (ProcessOrders exactOps ord hugeQty) 2 =
      some ⟨3, "WIPING-CLOTH".toList, [], [], -2, 0, 0⟩ := by
    intro ord
    rw [hugeQty, ProcessOrders_single exactOps ord
      ⟨1, "FG0A-CLEAR-X*9223372036854775807/FG0A-CLEAR-Y*9223372036854775807".toList, 1, 100,
        100⟩ _ hp]
    have ht : totalQty
        [⟨"FG0A-CLEAR-X".toList, "FG0A-CLEAR".toList, "X".toList, 9223372036854775807⟩,
          ⟨"FG0A-CLEAR-Y".toList, "FG0A-CLEAR".toList, "Y".toList, 9223372036854775807⟩] = -2 := by
      decide
    simp [lineAt, blockOf, LineBlock.lines, productLines, clothLine, exactOps]
    exact ht
  exact ⟨hp, key insertionOrder⟩

/-- C7 (amended): on a successful batch the output is the concatenation of one
block per input line; in each block the product lines, which are the products
parsed from the SKU of the line, are followed by one line with ProductId
WIPING-CLOTH, empty MaterialId and ModelId, UnitPrice 0 and TotalPrice 0, whose
Qty is the sum of the quantities of these products reduced to the `int` range;
it is the sum itself when the sum is at most the largest `int`. -/
theorem cloth_line_after_products {F : Type} (A : FloatOps F) (ord : MapOrder)
    (inputs : List (InputOrder F)) (out : List (CleanedOrder F))
    (h : ProcessOrders A ord inputs = Except.ok out) :
    ∃ blocks : List (LineBlock F),
      out = (blocks.map LineBlock.lines).flatten ∧
      List.Forall₂ (fun input b => ∃ ps, Parse input.PlatformProductId = Except.ok ps ∧
        b.products.map CleanedOrder.product = ps ∧
        b.cloth.ProductId = "WIPING-CLOTH".toList ∧ b.cloth.MaterialId = [] ∧
        b.cloth.ModelId = [] ∧ b.cloth.UnitPrice = A.ofInt 0 ∧ b.cloth.TotalPrice = A.ofInt 0 ∧
        b.cloth.Qty = wrapInt (ps.map Product.Qty).sum ∧
        ((ps.map Product.Qty).sum ≤ maxInt → b.cloth.Qty = (ps.map Product.Qty).sum) ∧
        ∀ l ∈ b.cleaners, l.ProductId ≠ "WIPING-CLOTH".toList)
        inputs blocks := by
  obtain ⟨blocks, hb, hf⟩ := ProcessOrders_blocks A ord inputs out h
  refine ⟨blocks, hb, hf.imp ?_⟩
  rintro input b ⟨ps, j, n, hp, rfl⟩
  refine ⟨ps, hp, productLines_product _ _ _ _, rfl, rfl, rfl, rfl, rfl, totalQty_eq ps, ?_, ?_⟩
  · intro hle
    have h0 := qty_sum_nonneg ps (fun p hp1 => by
      obtain ⟨m, -, -, -, -, h1, -⟩ := Parse_shape _ _ hp p hp1
      exact h1)
    show totalQty ps = _
    rw [totalQty_eq]
    exact wrapInt_of_range _ (le_trans (by decide) h0) hle
  · intro l hl
    exact cleanerLines_ne_cloth _ _ _ l hl

/-- Witness of C7 on the input of test case 6. -/
theorem cloth_line_after_products_witness :
    ProcessOrders exactOps insertionOrder case6 = Except.ok case6Out ∧
    ∃ blocks : List (LineBlock ℚ),
      case6Out = (blocks.map LineBlock.lines).flatten ∧
      List.Forall₂ (fun input b => ∃ ps, Parse input.PlatformProductId = Except.ok ps ∧
        b.products.map CleanedOrder.product = ps ∧
        b.cloth.ProductId = "WIPING-CLOTH".toList ∧ b.cloth.MaterialId = [] ∧
        b.cloth.ModelId = [] ∧ b.cloth.UnitPrice = exactOps.ofInt 0 ∧
        b.cloth.TotalPrice = exactOps.ofInt 0 ∧
        b.cloth.Qty = wrapInt (ps.map Product.Qty).sum ∧
        ((ps.map Product.Qty).sum ≤ maxInt → b.cloth.Qty = (ps.map Product.Qty).sum) ∧
        ∀ l ∈ b.cleaners, l.ProductId ≠ "WIPING-CLOTH".toList)
        case6 blocks :=
  ⟨run_case6, cloth_line_after_products exactOps insertionOrder case6 case6Out run_case6⟩

/-- C6 (fails on the code): on the input of test case 6 (total 120, products
with quantities 2 and 1), whatever the map order, the first two lines have
UnitPrice 30 with TotalPrice 60 and UnitPrice 60 with TotalPrice 60; the test
and the claim expect 40 with 80 and 40 with 40. -/
theorem case6_unit_prices (ord : MapOrder) :
    lineAt (ProcessOrders exactOps ord case6) 0 =
      some ⟨1, "FG0A-CLEAR-OPPOA3".toList, "FG0A-CLEAR".toList, "OPPOA3".toList, 2, 30, 60⟩ ∧
    lineAt (ProcessOrders exactOps ord case6) 1 =
      some ⟨2, "FG0A-MATTE-OPPOA3".toList, "FG0A-MATTE".toList, "OPPOA3".toList, 1, 60, 60⟩ := by
  have hp : Parse "--FG0A-CLEAR-OPPOA3*2/FG0A-MATTE-OPPOA3".toList =
      Except.ok [⟨"FG0A-CLEAR-OPPOA3".toList, "FG0A-CLEAR".toList, "OPPOA3".toList, 2⟩,
        ⟨"FG0A-MATTE-OPPOA3".toList, "FG0A-MATTE".toList, "OPPOA3".toList, 1⟩] := rfl
  rw [case6, ProcessOrders_single exactOps ord
    ⟨1, "--FG0A-CLEAR-OPPOA3*2/FG0A-MATTE-OPPOA3".toList, 1, 120, 120⟩ _ hp]
  simp only [lineAt, blockOf, LineBlock.lines, productLines, productLine, round2, exactOps,
    roundHalfAway, List.cons_append, List.nil_append, List.get?_cons_zero, List.get?_cons_succ]
  norm_num

/-- C9 (fails on the code): on the input of test case 7, whatever the map
order, the third output line is a WIPING-CLOTH line with Qty 4, emitted before
the product line of the second input line; with the maps visited in order of
insertion the output has eight lines, with a second WIPING-CLOTH line at No 7. -/
theorem case7_blocks_per_line (ord : MapOrder) :
    lineAt (ProcessOrders exactOps ord case7) 2 =
      some ⟨3, "WIPING-CLOTH".toList, [], [], 4, 0, 0⟩ ∧
    ProcessOrders exactOps insertionOrder case7 = Except.ok case7Out := by
  have hp1 : Parse "--FG0A-CLEAR-OPPOA3*2/FG0A-MATTE-OPPOA3*2".toList =
      Except.ok [⟨"FG0A-CLEAR-OPPOA3".toList, "FG0A-CLEAR".toList, "OPPOA3".toList, 2⟩,
        ⟨"FG0A-MATTE-OPPOA3".toList, "FG0A-MATTE".toList, "OPPOA3".toList, 2⟩] := rfl
  have hp2 : Parse "FG0A-PRIVACY-IPHONE16PROMAX".toList =
      Except.ok [⟨"FG0A-PRIVACY-IPHONE16PROMAX".toList, "FG0A-PRIVACY".toList,
        "IPHONE16PROMAX".toList, 1⟩] := rfl
  constructor
  · rw [case7, ProcessOrders_pair exactOps ord
      ⟨1, "--FG0A-CLEAR-OPPOA3*2/FG0A-MATTE-OPPOA3*2".toList, 1, 160, 160⟩
      ⟨2, "FG0A-PRIVACY-IPHONE16PROMAX".toList, 1, 50, 50⟩ _ _ hp1 hp2]
    have ht : totalQty
        [⟨"FG0A-CLEAR-OPPOA3".toList, "FG0A-CLEAR".toList, "OPPOA3".toList, 2⟩,
          ⟨"FG0A-MATTE-OPPOA3".toList, "FG0A-MATTE".toList, "OPPOA3".toList, 2⟩] = 4 := by
      decide
    simp [lineAt, blockOf, LineBlock.lines, productLines, clothLine, exactOps]
    exact ht
  · have h : ProcessOrders exactOps insertionOrder case7 = Except.ok
        [productLine exactOps (exactOps.div 160 (exactOps.ofInt 2)) 1
          ⟨"FG0A-CLEAR-OPPOA3".toList, "FG0A-CLEAR".toList, "OPPOA3".toList, 2⟩,
         productLine exactOps (exactOps.div 160 (exactOps.ofInt 2)) 2
          ⟨"FG0A-MATTE-OPPOA3".toList, "FG0A-MATTE".toList, "OPPOA3".toList, 2⟩,
         clothLine exactOps 3 4, cleanerLine exactOps 4 ("CLEAR".toList, 2),
         cleanerLine exactOps 5 ("MATTE".toList, 2),
         productLine exactOps (exactOps.div 50 (exactOps.ofInt 1)) 6
          ⟨"FG0A-PRIVACY-IPHONE16PROMAX".toList, "FG0A-PRIVACY".toList,
            "IPHONE16PROMAX".toList, 1⟩,
         clothLine exactOps 7 1, cleanerLine exactOps 8 ("PRIVACY".toList, 1)] := rfl
    rw [h, case7Out]
    simp only [productLine, round2, exactOps, roundHalfAway, clothLine, cleanerLine]
    norm_num

/-- C10 (fails on the code): on the input of test case 6, when the map is
visited in reverse order of insertion, MATTE-CLEANNER is line No 4 and
CLEAR-CLEANNER line No 5, so two admissible runs on the same batch return
different sequences. -/
theorem case6_cleaner_order_varies :
    ProcessOrders exactOps reverseOrder case6 = Except.ok case6OutReversed ∧
    ProcessOrders exactOps insertionOrder case6 = Except.ok case6Out ∧
    ProcessOrders exactOps reverseOrder case6 ≠ ProcessOrders exactOps insertionOrder case6 := by
  have h : ProcessOrders exactOps reverseOrder case6 = Except.ok
      [productLine exactOps (exactOps.div 120 (exactOps.ofInt 2)) 1
        ⟨"FG0A-CLEAR-OPPOA3".toList, "FG0A-CLEAR".toList, "OPPOA3".toList, 2⟩,
       productLine exactOps (exactOps.div 120 (exactOps.ofInt 2)) 2
        ⟨"FG0A-MATTE-OPPOA3".toList, "FG0A-MATTE".toList, "OPPOA3".toList, 1⟩,
       clothLine exactOps 3 3, cleanerLine exactOps 4 ("MATTE".toList, 1),
       cleanerLine exactOps 5 ("CLEAR".toList, 2)] := rfl
  have h1 : ProcessOrders exactOps reverseOrder case6 = Except.ok case6OutReversed := by
    rw [h, case6OutReversed]
    simp only [productLine, round2, exactOps, roundHalfAway, clothLine, cleanerLine]
    norm_num
  refine ⟨h1, run_case6, ?_⟩
  rw [h1, run_case6]
  intro heq
  have h2 := congrArg (fun r => (lineAt r 3).map CleanedOrder.Qty) heq
  revert h2
  decide

/-- C8 (fails on the code as stated): the two products of `hugeTexture` have
texture MATTE and quantities 9223372036854775807 and 1, which add up to
9223372036854775808, and the MATTE-CLEANNER line, the fourth line of the output,
has Qty -9223372036854775808 (the map has one entry, so its order plays no
part). -/
theorem cleaner_qty_overflow :
    Parse "FG0A-MATTE-X*9223372036854775807/FG0A-MATTE-Y*1".toList =
      Except.ok [⟨"FG0A-MATTE-X".toList, "FG0A-MATTE".toList, "X".toList, 9223372036854775807⟩,
        ⟨"FG0A-MATTE-Y".toList, "FG0A-MATTE".toList, "Y".toList, 1⟩] ∧
    lineAt (ProcessOrders exactOps insertionOrder hugeTexture) 3 =
      some ⟨4, "MATTE-CLEANNER".toList, [], [], -9223372036854775808, 0, 0⟩ := by
  have hp : Parse "FG0A-MATTE-X*9223372036854775807/FG0A-MATTE-Y*1".toList =
      Except.ok [⟨"FG0A-MATTE-X".toList, "FG0A-MATTE".toList, "X".toList, 9223372036854775807⟩,
        ⟨"FG0A-MATTE-Y".toList, "FG0A-MATTE".toList, "Y".toList, 1⟩] := rfl
  have key : ∀ ord : MapOrder, lineAt (ProcessOrders exactOps ord hugeTexture) 3 =
      some ⟨4, "MATTE-CLEANNER".toList, [], [], -9223372036854775808, 0, 0⟩ := by
    intro ord
    rw [hugeTexture, ProcessOrders_single exactOps ord
      ⟨1, "FG0A-MATTE-X*9223372036854775807/FG0A-MATTE-Y*1".toList, 1, 100, 100⟩ _ hp]
    have ht : textureLoop
        [⟨"FG0A-MATTE-X".toList, "FG0A-MATTE".toList, "X".toList, 9223372036854775807⟩,
          ⟨"FG0A-MATTE-Y".toList, "FG0A-MATTE".toList, "Y".toList, 1⟩] [] =
        [("MATTE".toList, -9223372036854775808)] := by
      decide
    simp only [lineAt, blockOf, LineBlock.lines, productLines, ht, order_singleton, cleanerLines,
      List.cons_append, List.nil_append, List.get?_cons_succ, List.get?_cons_zero]
    norm_num [cleanerLine, exactOps]
  exact ⟨hp, key insertionOrder⟩

/-- C8 (amended): on a successful batch the output is the concatenation of one
block per input line; in each block the WIPING-CLOTH line is followed by the
cleaner lines and nothing else: their names are pairwise different, every
texture of a product of the line has its line `<TEXTURE>-CLEANNER`, and every
cleaner line has empty MaterialId and ModelId, UnitPrice 0, TotalPrice 0, is
named after a texture occurring among the products of the line and has as Qty
the sum of the quantities of the products with that texture reduced to the
`int` range, which is the sum itself when the sum is at most the largest `int`. -/
theorem cleaner_lines_per_texture {F : Type} (A : FloatOps F) (ord : MapOrder)
    (inputs : List (InputOrder F)) (out : List (CleanedOrder F))
    (h : ProcessOrders A ord inputs = Except.ok out) :
    ∃ blocks : List (LineBlock F),
      out = (blocks.map LineBlock.lines).flatten ∧
      List.Forall₂ (fun input b => ∃ ps, Parse input.PlatformProductId = Except.ok ps ∧
        b.products.map CleanedOrder.product = ps ∧
        b.cloth.ProductId = "WIPING-CLOTH".toList ∧
        (b.cleaners.map CleanedOrder.ProductId).Nodup ∧
        (∀ p ∈ ps, textureOf p ++ "-CLEANNER".toList ∈ b.cleaners.map CleanedOrder.ProductId) ∧
        ∀ l ∈ b.cleaners, l.MaterialId = [] ∧ l.ModelId = [] ∧ l.UnitPrice = A.ofInt 0 ∧
          l.TotalPrice = A.ofInt 0 ∧
          ∃ t ∈ ps.map textureOf, l.ProductId = t ++ "-CLEANNER".toList ∧
            l.Qty = wrapInt (textureSum t ps) ∧
            (textureSum t ps ≤ maxInt → l.Qty = textureSum t ps))
        inputs blocks := by
  obtain ⟨blocks, hb, hf⟩ := ProcessOrders_blocks A ord inputs out h
  refine ⟨blocks, hb, hf.imp ?_⟩
  rintro input b ⟨ps, j, n, hp, rfl⟩
  have hsplit : ∀ p ∈ ps, ∃ film, Split p.MaterialId '-' = [film, textureOf p] := fun p hp1 => by
    obtain ⟨film, h1, -⟩ := Parse_texture _ _ hp p hp1
    exact ⟨film, h1⟩
  obtain ⟨hn, hv, hk⟩ := textureLoop_spec ps hsplit
  have hperm := ord.perm j (textureLoop ps [])
  refine ⟨ps, hp, productLines_product _ _ _ _, rfl, ?_, ?_, ?_⟩
  · show ((cleanerLines A _ _).map CleanedOrder.ProductId).Nodup
    rw [cleanerLines_ids]
    refine List.Nodup.map ?_ ((hperm.map Prod.fst).nodup_iff.mpr hn)
    intro a b hab
    exact List.append_cancel_right hab
  · intro p hp1
    show _ ∈ (cleanerLines A _ _).map CleanedOrder.ProductId
    rw [cleanerLines_ids]
    exact List.mem_map_of_mem _ ((hperm.map Prod.fst).mem_iff.mpr (hk p hp1))
  · intro l hl
    obtain ⟨e, he, h1, h2, h3, h4, h5, h6⟩ := cleanerLines_suffix A _ _ l hl
    obtain ⟨hv1, hv2⟩ := hv e (hperm.mem_iff.mp he)
    refine ⟨h3, h4, h5, h6, e.1, hv1, h1, h2.trans hv2, fun hle => ?_⟩
    rw [h2, hv2]
    have h0 := textureSum_nonneg e.1 ps (fun p hp1 => by
      obtain ⟨m, -, -, -, -, hq, -⟩ := Parse_shape _ _ hp p hp1
      exact hq)
    exact wrapInt_of_range _ (le_trans (by decide) h0) hle

/-- Witness of C8 on the input of test case 6. -/
theorem cleaner_lines_per_texture_witness :
    ProcessOrders exactOps insertionOrder case6 = Except.ok case6Out ∧
    ∃ blocks : List (LineBlock ℚ),
      case6Out = (blocks.map LineBlock.lines).flatten ∧
      List.Forall₂ (fun input b => ∃ ps, Parse input.PlatformProductId = Except.ok ps ∧
        b.products.map CleanedOrder.product = ps ∧
        b.cloth.ProductId = "WIPING-CLOTH".toList ∧
        (b.cleaners.map CleanedOrder.ProductId).Nodup ∧
        (∀ p ∈ ps, textureOf p ++ "-CLEANNER".toList ∈ b.cleaners.map CleanedOrder.ProductId) ∧
        ∀ l ∈ b.cleaners, l.MaterialId = [] ∧ l.ModelId = [] ∧ l.UnitPrice = exactOps.ofInt 0 ∧
          l.TotalPrice = exactOps.ofInt 0 ∧
          ∃ t ∈ ps.map textureOf, l.ProductId = t ++ "-CLEANNER".toList ∧
            l.Qty = wrapInt (textureSum t ps) ∧
            (textureSum t ps ≤ maxInt → l.Qty = textureSum t ps))
        case6 blocks :=
  ⟨run_case6, cleaner_lines_per_texture exactOps insertionOrder case6 case6Out run_case6⟩

/-- C1 (fails on the code as stated): with the prefix `x/` the parse fails, with
the prefix `FG0A-CLEAR-` the match starts inside the prefix, with the prefix
`2*` the parse aborts, and the quantity 9223372036854775808 is read as 1. -/
theorem prefix_and_quantity_limits :
    Parse "x/FG0A-MATTE-IPHONE16PROMAX*3".toList =
      Except.error Fault.ErrInvalidProductFormat ∧
    Parse "FG0A-CLEAR-FG0A-MATTE-IPHONE16PROMAX*3".toList =
      Except.ok [⟨"FG0A-CLEAR-FG0A-MATTE-IPHONE16PROMAX".toList, "FG0A-CLEAR".toList,
        "FG0A-MATTE-IPHONE16PROMAX".toList, 3⟩] ∧
    Parse "2*FG0A-MATTE-IPHONE16PROMAX*3".toList = Except.error Fault.slicePanic ∧
    Nat.toDigits 10 9223372036854775808 = "9223372036854775808".toList ∧
    Parse "FG0A-MATTE-IPHONE16PROMAX*9223372036854775808".toList =
      Except.ok [⟨"FG0A-MATTE-IPHONE16PROMAX".toList, "FG0A-MATTE".toList,
        "IPHONE16PROMAX".toList, 1⟩] :=
  ⟨rfl, rfl, rfl, by decide, rfl⟩

/-- C1 (amended): for every film code F, every texture T of the pattern, every
non-empty model token M over `[A-Z0-9-]`, every number Q with 1 ≤ Q ≤ 2^63 - 1
and every prefix N without the characters `/` and `*` in which, once leading
white space is trimmed and every `%20` deleted, no match of the pattern starts,
`Parse` of N ++ F-T-M ++ `*` ++ decimal(Q) returns exactly one product with
ProductId F-T-M, MaterialId F-T, ModelId M and Qty Q. -/
theorem parse_single_with_quantity (F T M N : Str) (Q : Nat) (hF : IsFilmCode F)
    (hT : T ∈ textures) (hM : M ≠ []) (hMc : ∀ c ∈ M, isModelChar c = true) (hQ : 0 < Q)
    (hmax : (Q : Int) ≤ maxInt) (hslash : '/' ∉ N) (hstar : '*' ∉ N)
    (hno : noMatchStartsIn (cleanPrefix N)
      ((F ++ '-' :: (T ++ '-' :: M)) ++ '*' :: Nat.toDigits 10 Q) = true) :
    Parse (N ++ (F ++ '-' :: (T ++ '-' :: M)) ++ '*' :: Nat.toDigits 10 Q) =
      Except.ok [⟨F ++ '-' :: (T ++ '-' :: M), F ++ '-' :: T, M, (Q : Int)⟩] := by
  have hs : Shape ⟨F ++ '-' :: (T ++ '-' :: M), F, T, M⟩ := ⟨hF, hT, hM, hMc, rfl⟩
  obtain ⟨h1, h2, h3⟩ := toDigits_spec Q
  have hns : '/' ∉ N ++ (F ++ '-' :: (T ++ '-' :: M)) ++ '*' :: Nat.toDigits 10 Q := by
    intro h
    rcases List.mem_append.mp h with h | h
    · rcases List.mem_append.mp h with h | h
      · exact hslash h
      · exact absurd (Shape_chars _ hs _ h) (by decide)
    · rcases List.mem_cons.mp h with h | h
      · exact absurd h (by decide)
      · exact absurd (h2 _ h) (by decide)
  have hclean := cleanProductString_found _ hs N (Nat.toDigits 10 Q) hstar hno h1 h2
  have hsq := splitQuantity_marker _ hs Q hQ hmax
  have hex : extract (F ++ '-' :: (T ++ '-' :: M)) =
      some ⟨F ++ '-' :: (T ++ '-' :: M), F, T, M⟩ := by
    have := FindStringSubmatch_canonical _ hs [] stopsModel_nil
    simp only [List.append_nil] at this
    exact extract_some _ _ this
  simp only at hclean hsq
  rw [Parse, Split_no_sep '/' _ hns, List.append_assoc]
  simp only [parseSegments, parseSegment, hclean, hsq, hex]

/-- Witness of C1: `x2-3&FG0A-MATTE-IPHONE16PROMAX*3` yields one product with
Qty 3, and so do the prefixes `FOO-` and `REF:`, which contain the letter `F`
but no start of a match. -/
theorem parse_single_with_quantity_witness :
    Parse ("x2-3&".toList ++ ("FG0A".toList ++ '-' :: ("MATTE".toList ++ '-' ::
        "IPHONE16PROMAX".toList)) ++ '*' :: Nat.toDigits 10 3) =
      Except.ok [⟨"FG0A".toList ++ '-' :: ("MATTE".toList ++ '-' :: "IPHONE16PROMAX".toList),
        "FG0A".toList ++ '-' :: "MATTE".toList, "IPHONE16PROMAX".toList, ((3 : Nat) : Int)⟩] ∧
    "x2-3&".toList ++ ("FG0A".toList ++ '-' :: ("MATTE".toList ++ '-' ::
        "IPHONE16PROMAX".toList)) ++ '*' :: Nat.toDigits 10 3 =
      "x2-3&FG0A-MATTE-IPHONE16PROMAX*3".toList ∧
    Parse ("FOO-".toList ++ ("FG0A".toList ++ '-' :: ("MATTE".toList ++ '-' ::
        "IPHONE16PROMAX".toList)) ++ '*' :: Nat.toDigits 10 3) =
      Except.ok [⟨"FG0A".toList ++ '-' :: ("MATTE".toList ++ '-' :: "IPHONE16PROMAX".toList),
        "FG0A".toList ++ '-' :: "MATTE".toList, "IPHONE16PROMAX".toList, ((3 : Nat) : Int)⟩] ∧
    Parse ("REF:".toList ++ ("FG0A".toList ++ '-' :: ("MATTE".toList ++ '-' ::
        "IPHONE16PROMAX".toList)) ++ '*' :: Nat.toDigits 10 3) =
      Except.ok [⟨"FG0A".toList ++ '-' :: ("MATTE".toList ++ '-' :: "IPHONE16PROMAX".toList),
        "FG0A".toList ++ '-' :: "MATTE".toList, "IPHONE16PROMAX".toList, ((3 : Nat) : Int)⟩] ∧
    noMatchStartsIn (cleanPrefix "FG0A-CLEAR-".toList)
      (("FG0A".toList ++ '-' :: ("MATTE".toList ++ '-' :: "IPHONE16PROMAX".toList)) ++
        '*' :: Nat.toDigits 10 3) = false :=
  ⟨parse_single_with_quantity "FG0A".toList "MATTE".toList "IPHONE16PROMAX".toList
      "x2-3&".toList 3 ⟨'A', by decide, Or.inl rfl⟩ (by decide) (by decide) (by decide)
      (by decide) (by decide) (by decide) (by decide) (by decide),
    by decide,
    parse_single_with_quantity "FG0A".toList "MATTE".toList "IPHONE16PROMAX".toList
      "FOO-".toList 3 ⟨'A', by decide, Or.inl rfl⟩ (by decide) (by decide) (by decide)
      (by decide) (by decide) (by decide) (by decide) (by decide),
    parse_single_with_quantity "FG0A".toList "MATTE".toList "IPHONE16PROMAX".toList
      "REF:".toList 3 ⟨'A', by decide, Or.inl rfl⟩ (by decide) (by decide) (by decide)
      (by decide) (by decide) (by decide) (by decide) (by decide),
    by decide⟩

/-- C3 (fails on the code as stated): the only segment of
`xxxxxxxxxxxxxxx*FG0A-CLEAR-Y`, after trimming, deleting `%20` and stripping the
quantity marker, is `xxxxxxxxxxxxxxx`, which contains no match, and `Parse`
returns a product. -/
theorem marker_in_noise_is_dropped :
    Split "xxxxxxxxxxxxxxx*FG0A-CLEAR-Y".toList '/' = ["xxxxxxxxxxxxxxx*FG0A-CLEAR-Y".toList] ∧
    (splitQuantity (removePct20 (TrimSpace "xxxxxxxxxxxxxxx*FG0A-CLEAR-Y".toList))).1 =
      "xxxxxxxxxxxxxxx".toList ∧
    FindStringSubmatch "xxxxxxxxxxxxxxx".toList = none ∧
    Parse "xxxxxxxxxxxxxxx*FG0A-CLEAR-Y".toList =
      Except.ok [⟨"FG0A-CLEAR-Y".toList, "FG0A-CLEAR".toList, "Y".toList, 1⟩] :=
  ⟨rfl, rfl, rfl, rfl⟩

/-- C3 (amended): when `Parse` does not abort, it returns InvalidProductFormat
if and only if at least one segment between `/`, after trimming surrounding
white space and deleting every `%20`, contains no match of the pattern; when
every segment contains a match it returns a product list. -/
theorem parse_error_iff (s : Str) (h : Parse s ≠ Except.error Fault.slicePanic) :
    (Parse s = Except.error Fault.ErrInvalidProductFormat ↔
      ∃ seg ∈ Split s '/', FindStringSubmatch (removePct20 (TrimSpace seg)) = none) ∧
    ((∀ seg ∈ Split s '/', FindStringSubmatch (removePct20 (TrimSpace seg)) ≠ none) →
      ∃ ps, Parse s = Except.ok ps) := by
  have hfwd : Parse s = Except.error Fault.ErrInvalidProductFormat →
      ∃ seg ∈ Split s '/', FindStringSubmatch (removePct20 (TrimSpace seg)) = none := by
    intro he
    obtain ⟨seg, h1, h2⟩ := parseSegments_error _ _ he
    refine ⟨seg, h1, ?_⟩
    cases hm : FindStringSubmatch (removePct20 (TrimSpace seg)) with
    | none => rfl
    | some m =>
      rcases (parseSegment_cases seg).2 m hm with h3 | ⟨q, h3⟩
      · rw [h3] at h2
        exact absurd h2 (by simp)
      · rw [h3] at h2
        exact absurd h2 (by simp)
  refine ⟨⟨hfwd, ?_⟩, ?_⟩
  · rintro ⟨seg, h1, h2⟩
    have h3 := (parseSegment_cases seg).1 h2
    cases hp : Parse s with
    | ok ps =>
      obtain ⟨p, h4⟩ := parseSegments_ok_mem _ ps hp seg h1
      rw [h3] at h4
      exact absurd h4 (by simp)
    | error e =>
      cases e with
      | ErrInvalidProductFormat => rfl
      | slicePanic => exact absurd hp h
  · intro hall
    cases hp : Parse s with
    | ok ps => exact ⟨ps, rfl⟩
    | error e =>
      cases e with
      | ErrInvalidProductFormat =>
        obtain ⟨seg, h1, h2⟩ := hfwd hp
        exact absurd h2 (hall seg h1)
      | slicePanic => exact absurd hp h

/-- Witness of C3: a bundle whose second segment has the texture GLOSSY. -/
theorem parse_error_iff_witness :
    Parse "FG0A-CLEAR-OPPOA3/FG0A-GLOSSY-X".toList ≠ Except.error Fault.slicePanic ∧
    Parse "FG0A-CLEAR-OPPOA3/FG0A-GLOSSY-X".toList = Except.error Fault.ErrInvalidProductFormat ∧
    (Parse "FG0A-CLEAR-OPPOA3/FG0A-GLOSSY-X".toList = Except.error Fault.ErrInvalidProductFormat ↔
      ∃ seg ∈ Split "FG0A-CLEAR-OPPOA3/FG0A-GLOSSY-X".toList '/',
        FindStringSubmatch (removePct20 (TrimSpace seg)) = none) :=
  ⟨by rw [glossy_fails]; simp, glossy_fails,
    (parse_error_iff "FG0A-CLEAR-OPPOA3/FG0A-GLOSSY-X".toList (by rw [glossy_fails]; simp)).1⟩

/-- C11: on a successful batch the line at position k of the output, counted
from 0, has No = k + 1, whatever the No fields of the input lines are. -/
theorem output_numbers_consecutive {F : Type} (A : FloatOps F) (ord : MapOrder)
    (inputs : List (InputOrder F)) (out : List (CleanedOrder F))
    (h : ProcessOrders A ord inputs = Except.ok out) (k : Nat) (l : CleanedOrder F)
    (hk : out.get? k = some l) : l.No = (k : Int) + 1 := by
  unfold ProcessOrders at h
  cases hl : orderLoop A ord inputs 0 ([], 1) with
  | error e => simp [hl] at h
  | ok st =>
    simp only [hl, Except.ok.injEq] at h
    obtain ⟨new, h1, h2⟩ := orderLoop_numbered A ord inputs 0 [] 1 st hl
    rw [List.nil_append] at h1
    rw [← h, h1] at hk
    rw [numberedFrom_get? new 1 h2 k l hk]
    ring

/-- Witness of C11 on the input of test case 7: the line at position 6 is the
WIPING-CLOTH line of the second input line and has No 7. -/
theorem output_numbers_consecutive_witness :
    ProcessOrders exactOps insertionOrder case7 = Except.ok case7Out ∧
    case7Out.get? 6 = some ⟨7, "WIPING-CLOTH".toList, [], [], 1, 0, 0⟩ ∧
    (⟨7, "WIPING-CLOTH".toList, [], [], 1, 0, 0⟩ : CleanedOrder ℚ).No = ((6 : Nat) : Int) + 1 :=
  ⟨run_case7, rfl,
    output_numbers_consecutive exactOps insertionOrder case7 case7Out run_case7 6 _ rfl⟩

/-- C13: when `Parse` succeeds, the number of products is the number of
segments between `/`, which is one more than the number of `/` characters, and
the product at each position is the one extracted from the segment at that
position. -/
theorem one_product_per_segment (s : Str) (ps : List Product) (h : Parse s = Except.ok ps) :
    ps.length = (Split s '/').length ∧ (Split s '/').length = s.count '/' + 1 ∧
    List.Forall₂ (fun seg p => parseSegment seg = Except.ok p) (Split s '/') ps := by
  have hf := parseSegments_forall₂ _ _ h
  exact ⟨hf.length_eq.symm, Split_length s '/', hf⟩

/-- Witness of C13 on the SKU of test case 4. -/
theorem one_product_per_segment_witness :
    Parse "FG0A-CLEAR-OPPOA3/%20xFG0A-CLEAR-OPPOA3-B".toList =
      Except.ok [⟨"FG0A-CLEAR-OPPOA3".toList, "FG0A-CLEAR".toList, "OPPOA3".toList, 1⟩,
        ⟨"FG0A-CLEAR-OPPOA3-B".toList, "FG0A-CLEAR".toList, "OPPOA3-B".toList, 1⟩] ∧
    ([⟨"FG0A-CLEAR-OPPOA3".toList, "FG0A-CLEAR".toList, "OPPOA3".toList, 1⟩,
        ⟨"FG0A-CLEAR-OPPOA3-B".toList, "FG0A-CLEAR".toList, "OPPOA3-B".toList, 1⟩] :
          List Product).length =
      (Split "FG0A-CLEAR-OPPOA3/%20xFG0A-CLEAR-OPPOA3-B".toList '/').length ∧
    (Split "FG0A-CLEAR-OPPOA3/%20xFG0A-CLEAR-OPPOA3-B".toList '/').length =
      "FG0A-CLEAR-OPPOA3/%20xFG0A-CLEAR-OPPOA3-B".toList.count '/' + 1 ∧
    List.Forall₂ (fun seg p => parseSegment seg = Except.ok p)
      (Split "FG0A-CLEAR-OPPOA3/%20xFG0A-CLEAR-OPPOA3-B".toList '/')
      [⟨"FG0A-CLEAR-OPPOA3".toList, "FG0A-CLEAR".toList, "OPPOA3".toList, 1⟩,
        ⟨"FG0A-CLEAR-OPPOA3-B".toList, "FG0A-CLEAR".toList, "OPPOA3-B".toList, 1⟩] :=
  ⟨rfl, one_product_per_segment _ _ rfl⟩

/-- C15: on a successful batch the output is the concatenation of one block per
input line, and every product line of a block has TotalPrice equal to the
product of its rounded UnitPrice and its Qty. -/
theorem total_is_unit_times_qty {F : Type} (A : FloatOps F) (ord : MapOrder)
    (inputs : List (InputOrder F)) (out : List (CleanedOrder F))
    (h : ProcessOrders A ord inputs = Except.ok out) :
    ∃ blocks : List (LineBlock F),
      out = (blocks.map LineBlock.lines).flatten ∧
      List.Forall₂ (fun input b => ∃ ps, Parse input.PlatformProductId = Except.ok ps ∧
        b.products.map CleanedOrder.product = ps ∧
        b.cloth.ProductId = "WIPING-CLOTH".toList ∧
        ∀ l ∈ b.products, l.TotalPrice = A.mul l.UnitPrice (A.ofInt l.Qty) ∧
          l.UnitPrice =
            round2 A (A.div (A.div input.TotalPrice (A.ofInt (ps.length : Int))) (A.ofInt l.Qty)))
        inputs blocks := by
  obtain ⟨blocks, hb, hf⟩ := ProcessOrders_blocks A ord inputs out h
  refine ⟨blocks, hb, hf.imp ?_⟩
  rintro input b ⟨ps, j, n, hp, rfl⟩
  exact ⟨ps, hp, productLines_product _ _ _ _, rfl, fun l hl =>
    ⟨productLines_totalPrice _ _ _ _ l hl, productLines_unitPrice _ _ _ _ l hl⟩⟩

/-- Witness of C15 on the input of test case 7. -/
theorem total_is_unit_times_qty_witness :
    ProcessOrders exactOps insertionOrder case7 = Except.ok case7Out ∧
    ∃ blocks : List (LineBlock ℚ),
      case7Out = (blocks.map LineBlock.lines).flatten ∧
      List.Forall₂ (fun input b => ∃ ps, Parse input.PlatformProductId = Except.ok ps ∧
        b.products.map CleanedOrder.product = ps ∧
        b.cloth.ProductId = "WIPING-CLOTH".toList ∧
        ∀ l ∈ b.products, l.TotalPrice = exactOps.mul l.UnitPrice (exactOps.ofInt l.Qty) ∧
          l.UnitPrice =
            round2 exactOps (exactOps.div (exactOps.div input.TotalPrice
              (exactOps.ofInt (ps.length : Int))) (exactOps.ofInt l.Qty)))
        case7 blocks :=
  ⟨run_case7, total_is_unit_times_qty exactOps insertionOrder case7 case7Out run_case7⟩

/-- C17: every product returned by a successful `Parse` is well formed:
ProductId is MaterialId, `-` and ModelId; MaterialId is a film code, `-` and a
texture of the pattern; ModelId is not empty, consists of characters of
`[A-Z0-9-]` and contains no `*`. -/
theorem parsed_product_well_formed (s : Str) (ps : List Product) (h : Parse s = Except.ok ps)
    (p : Product) (hp : p ∈ ps) :
    p.ProductId = p.MaterialId ++ '-' :: p.ModelId ∧
    (∃ F T, IsFilmCode F ∧ T ∈ textures ∧ p.MaterialId = F ++ '-' :: T) ∧
    p.ModelId ≠ [] ∧ (∀ c ∈ p.ModelId, isModelChar c = true) ∧ '*' ∉ p.ModelId := by
  obtain ⟨m, ⟨hF, hT, hM, hMc, hfull⟩, h1, h2, h3, -⟩ := Parse_shape s ps h p hp
  refine ⟨?_, ⟨m.film, m.texture, hF, hT, h2⟩, h3 ▸ hM, h3 ▸ hMc, ?_⟩
  · rw [h1, h2, h3, hfull]
    simp
  · intro hstar
    rw [h3] at hstar
    exact absurd (hMc _ hstar) (by decide)

/-- Witness of C17 on the SKU of test case 3. -/
theorem parsed_product_well_formed_witness :
    Parse "x2-3&FG0A-MATTE-IPHONE16PROMAX*3".toList =
      Except.ok [⟨"FG0A-MATTE-IPHONE16PROMAX".toList, "FG0A-MATTE".toList,
        "IPHONE16PROMAX".toList, 3⟩] ∧
    "FG0A-MATTE-IPHONE16PROMAX".toList = "FG0A-MATTE".toList ++ '-' :: "IPHONE16PROMAX".toList ∧
    (∃ F T, IsFilmCode F ∧ T ∈ textures ∧ "FG0A-MATTE".toList = F ++ '-' :: T) ∧
    "IPHONE16PROMAX".toList ≠ [] ∧ (∀ c ∈ "IPHONE16PROMAX".toList, isModelChar c = true) ∧
    '*' ∉ "IPHONE16PROMAX".toList :=
  ⟨rfl, parsed_product_well_formed "x2-3&FG0A-MATTE-IPHONE16PROMAX*3".toList _ rfl
    ⟨"FG0A-MATTE-IPHONE16PROMAX".toList, "FG0A-MATTE".toList, "IPHONE16PROMAX".toList, 3⟩
    (List.mem_singleton.mpr rfl)⟩

/-- C19: when `Parse` succeeds it returns at least one product and every
product has Qty at least 1, so neither `float64(len(products))` nor
`float64(product.Qty)` is the conversion of zero. -/
theorem divisors_positive (s : Str) (ps : List Product) (h : Parse s = Except.ok ps) :
    1 ≤ ps.length ∧ ∀ p ∈ ps, 1 ≤ p.Qty := by
  constructor
  · rw [(parseSegments_forall₂ _ _ h).length_eq.symm, Split_length]
    omega
  · intro p hp
    obtain ⟨m, -, -, -, -, h1, -⟩ := Parse_shape s ps h p hp
    exact h1

/-- Witness of C19: the markers `*0`, `*-5` and `*9223372036854775808` all give
Qty 1. -/
theorem divisors_positive_witness :
    Parse "FG0A-CLEAR-X*0".toList =
      Except.ok [⟨"FG0A-CLEAR-X".toList, "FG0A-CLEAR".toList, "X".toList, 1⟩] ∧
    Parse "FG0A-CLEAR-X*-5".toList =
      Except.ok [⟨"FG0A-CLEAR-X".toList, "FG0A-CLEAR".toList, "X".toList, 1⟩] ∧
    Parse "FG0A-CLEAR-X*9223372036854775808".toList =
      Except.ok [⟨"FG0A-CLEAR-X".toList, "FG0A-CLEAR".toList, "X".toList, 1⟩] ∧
    Parse "".toList = Except.error Fault.ErrInvalidProductFormat ∧
    1 ≤ ([⟨"FG0A-CLEAR-X".toList, "FG0A-CLEAR".toList, "X".toList, 1⟩] : List Product).length ∧
    ∀ p ∈ ([⟨"FG0A-CLEAR-X".toList, "FG0A-CLEAR".toList, "X".toList, 1⟩] : List Product),
      1 ≤ p.Qty :=
  ⟨rfl, rfl, rfl, rfl, divisors_positive "FG0A-CLEAR-X*0".toList _ rfl⟩

/-- C14: `Parse` of a string that as a whole matches the pattern, that is a film
code F, `-`, a texture T, `-` and a non-empty model token M, returns exactly
one product, with that string as ProductId and Qty 1; hence `Parse` of the
ProductId of any product returned by a successful `Parse` returns that product
with Qty 1. -/
theorem parse_canonical_idempotent :
    (∀ F T M : Str, IsFilmCode F → T ∈ textures → M ≠ [] →
      (∀ c ∈ M, isModelChar c = true) →
      Parse (F ++ '-' :: (T ++ '-' :: M)) =
        Except.ok [⟨F ++ '-' :: (T ++ '-' :: M), F ++ '-' :: T, M, 1⟩]) ∧
    (∀ (s : Str) (ps : List Product) (p : Product), Parse s = Except.ok ps → p ∈ ps →
      Parse p.ProductId = Except.ok [⟨p.ProductId, p.MaterialId, p.ModelId, 1⟩]) := by
  constructor
  · intro F T M hF hT hM hMc
    exact Parse_canonical ⟨F ++ '-' :: (T ++ '-' :: M), F, T, M⟩ ⟨hF, hT, hM, hMc, rfl⟩
  · intro s ps p h hp
    obtain ⟨m, hs, h1, h2, h3, -⟩ := Parse_shape s ps h p hp
    rw [h1, h2, h3]
    exact Parse_canonical m hs

/-- Witness of C14 on the code of test case 1 and on the product parsed from
the SKU of test case 3. -/
theorem parse_canonical_idempotent_witness :
    Parse ("FG0A".toList ++ '-' :: ("CLEAR".toList ++ '-' :: "IPHONE16PROMAX".toList)) =
      Except.ok [⟨"FG0A".toList ++ '-' :: ("CLEAR".toList ++ '-' :: "IPHONE16PROMAX".toList),
        "FG0A".toList ++ '-' :: "CLEAR".toList, "IPHONE16PROMAX".toList, 1⟩] ∧
    Parse "x2-3&FG0A-MATTE-IPHONE16PROMAX*3".toList =
      Except.ok [⟨"FG0A-MATTE-IPHONE16PROMAX".toList, "FG0A-MATTE".toList,
        "IPHONE16PROMAX".toList, 3⟩] ∧
    Parse "FG0A-MATTE-IPHONE16PROMAX".toList =
      Except.ok [⟨"FG0A-MATTE-IPHONE16PROMAX".toList, "FG0A-MATTE".toList,
        "IPHONE16PROMAX".toList, 1⟩] :=
  ⟨parse_canonical_idempotent.1 "FG0A".toList "CLEAR".toList "IPHONE16PROMAX".toList
      ⟨'A', by decide, Or.inl rfl⟩ (by decide) (by decide) (by decide),
    rfl,
    parse_canonical_idempotent.2 "x2-3&FG0A-MATTE-IPHONE16PROMAX*3".toList _
      ⟨"FG0A-MATTE-IPHONE16PROMAX".toList, "FG0A-MATTE".toList, "IPHONE16PROMAX".toList, 3⟩
      rfl (List.mem_singleton.mpr rfl)⟩

/-- C16 (fails on the code as stated): the suffixes `+2`, `2` followed by a
space and `%202` are not decimal numerals, and each of them is read as the
quantity 2. -/
theorem signed_and_padded_markers :
    Parse "FG0A-CLEAR-X*+2".toList =
      Except.ok [⟨"FG0A-CLEAR-X".toList, "FG0A-CLEAR".toList, "X".toList, 2⟩] ∧
    Parse "FG0A-CLEAR-X*2 ".toList =
      Except.ok [⟨"FG0A-CLEAR-X".toList, "FG0A-CLEAR".toList, "X".toList, 2⟩] ∧
    Parse "FG0A-CLEAR-X*%202".toList =
      Except.ok [⟨"FG0A-CLEAR-X".toList, "FG0A-CLEAR".toList, "X".toList, 2⟩] ∧
    "+2".toList.all isDigit = false ∧ "2 ".toList.all isDigit = false ∧
    "%202".toList.all isDigit = false :=
  ⟨rfl, rfl, rfl, rfl, rfl, rfl⟩

/-- C16 (amended): for a canonical code F-T-M and a suffix r without `/`, when
`Atoi` does not read r, with trailing white space trimmed and every `%20`
deleted, as a positive number, `Parse` of F-T-M ++ `*` ++ r returns exactly one
product with ProductId F-T-M and Qty 1. -/
theorem marker_degrades_to_one (F T M r : Str) (hF : IsFilmCode F) (hT : T ∈ textures)
    (hM : M ≠ []) (hMc : ∀ c ∈ M, isModelChar c = true) (hslash : '/' ∉ r)
    (hdeg : ∀ q, Atoi (cleanSuffix r) = some q → q ≤ 0) :
    Parse ((F ++ '-' :: (T ++ '-' :: M)) ++ '*' :: r) =
      Except.ok [⟨F ++ '-' :: (T ++ '-' :: M), F ++ '-' :: T, M, 1⟩] := by
  have hs : Shape ⟨F ++ '-' :: (T ++ '-' :: M), F, T, M⟩ := ⟨hF, hT, hM, hMc, rfl⟩
  have h1 := Parse_marker _ hs r hslash
  have h2 := splitQuantity_degrade _ hs (cleanSuffix r) hdeg
  simp only at h1 h2
  rw [h1, h2]

/-- Witness of C16 with the suffix `2*3`. -/
theorem marker_degrades_to_one_witness :
    Parse (("FG0A".toList ++ '-' :: ("CLEAR".toList ++ '-' :: "IPHONE16PROMAX".toList)) ++
        '*' :: "2*3".toList) =
      Except.ok [⟨"FG0A".toList ++ '-' :: ("CLEAR".toList ++ '-' :: "IPHONE16PROMAX".toList),
        "FG0A".toList ++ '-' :: "CLEAR".toList, "IPHONE16PROMAX".toList, 1⟩] ∧
    Atoi (cleanSuffix "2*3".toList) = none ∧
    Parse "FG0A-CLEAR-X*abc".toList =
      Except.ok [⟨"FG0A-CLEAR-X".toList, "FG0A-CLEAR".toList, "X".toList, 1⟩] ∧
    Parse "FG0A-CLEAR-X*".toList =
      Except.ok [⟨"FG0A-CLEAR-X".toList, "FG0A-CLEAR".toList, "X".toList, 1⟩] :=
  ⟨marker_degrades_to_one "FG0A".toList "CLEAR".toList "IPHONE16PROMAX".toList "2*3".toList
      ⟨'A', by decide, Or.inl rfl⟩ (by decide) (by decide) (by decide) (by decide)
      (fun q hq => by
        have h0 : Atoi (cleanSuffix "2*3".toList) = none := by decide
        rw [h0] at hq
        exact absurd hq (by simp)),
    by decide, rfl, rfl⟩

/-- C12 (fails on the code): in the batch `panicThenInvalid` the SKU of the
second line makes `Parse` return InvalidProductFormat, but `ProcessOrders`
aborts on the first line and returns neither an error nor output lines; in the
batch `validThenInvalid`, where no `Parse` aborts, it returns
InvalidProductFormat and no lines. -/
theorem batch_aborts_before_error (ord : MapOrder) :
    Parse "RANDOM-TEXT".toList = Except.error Fault.ErrInvalidProductFormat ∧
    Parse "2*FG0A-CLEAR-IPHONE16PROMAX".toList = Except.error Fault.slicePanic ∧
    ProcessOrders exactOps ord panicThenInvalid = Except.error Fault.slicePanic ∧
    ProcessOrders exactOps ord validThenInvalid = Except.error Fault.ErrInvalidProductFormat :=
  ⟨rfl, rfl, rfl, rfl⟩

/-- C20 (fails on the code as stated): the two products of `hugeTwoTextures`
have the textures CLEAR and MATTE and quantity 9223372036854775807 each; the
WIPING-CLOTH line has Qty -2 and the two cleaner lines have Qty
9223372036854775807 each, which add up to 18446744073709551614. -/
theorem cleaner_sum_overflow :
    lineAt (ProcessOrders exactOps insertionOrder hugeTwoTextures) 2 =
      some ⟨3, "WIPING-CLOTH".toList, [], [], -2, 0, 0⟩ ∧
    lineAt (ProcessOrders exactOps insertionOrder hugeTwoTextures) 3 =
      some ⟨4, "CLEAR-CLEANNER".toList, [], [], 9223372036854775807, 0, 0⟩ ∧
    lineAt (ProcessOrders exactOps insertionOrder hugeTwoTextures) 4 =
      some ⟨5, "MATTE-CLEANNER".toList, [], [], 9223372036854775807, 0, 0⟩ ∧
    lineAt (ProcessOrders exactOps insertionOrder hugeTwoTextures) 5 = none ∧
    (9223372036854775807 : Int) + 9223372036854775807 ≠ -2 := by
  have h : ProcessOrders exactOps insertionOrder hugeTwoTextures = Except.ok
      [productLine exactOps (exactOps.div 100 (exactOps.ofInt 2)) 1
        ⟨"FG0A-CLEAR-X".toList, "FG0A-CLEAR".toList, "X".toList, 9223372036854775807⟩,
       productLine exactOps (exactOps.div 100 (exactOps.ofInt 2)) 2
        ⟨"FG0A-MATTE-Y".toList, "FG0A-MATTE".toList, "Y".toList, 9223372036854775807⟩,
       clothLine exactOps 3 (-2), cleanerLine exactOps 4 ("CLEAR".toList, 9223372036854775807),
       cleanerLine exactOps 5 ("MATTE".toList, 9223372036854775807)] := rfl
  rw [h]
  refine ⟨?_, ?_, ?_, rfl, by decide⟩ <;>
    simp [lineAt, clothLine, cleanerLine, exactOps]

/-- C20 (amended): on a successful batch the output is the concatenation of one
block per input line; for every product of a line the split of MaterialId at
`-` has exactly two parts, the second being its texture, so every product is
counted in the texture map; the sum of the Qty of the cleaner lines of a block
and the Qty of its WIPING-CLOTH line agree after reduction to the `int` range,
and they are equal when the sum of the quantities of the products of the line
is at most the largest `int`. -/
theorem cleaner_total_matches_cloth {F : Type} (A : FloatOps F) (ord : MapOrder)
    (inputs : List (InputOrder F)) (out : List (CleanedOrder F))
    (h : ProcessOrders A ord inputs = Except.ok out) :
    ∃ blocks : List (LineBlock F),
      out = (blocks.map LineBlock.lines).flatten ∧
      List.Forall₂ (fun input b => ∃ ps, Parse input.PlatformProductId = Except.ok ps ∧
        b.products.map CleanedOrder.product = ps ∧
        b.cloth.ProductId = "WIPING-CLOTH".toList ∧
        (∀ p ∈ ps, ∃ film, Split p.MaterialId '-' = [film, textureOf p]) ∧
        wrapInt (b.cleaners.map CleanedOrder.Qty).sum = b.cloth.Qty ∧
        ((ps.map Product.Qty).sum ≤ maxInt →
          (b.cleaners.map CleanedOrder.Qty).sum = b.cloth.Qty))
        inputs blocks := by
  obtain ⟨blocks, hb, hf⟩ := ProcessOrders_blocks A ord inputs out h
  refine ⟨blocks, hb, hf.imp ?_⟩
  rintro input b ⟨ps, j, n, hp, rfl⟩
  have hsplit : ∀ p ∈ ps, ∃ film, Split p.MaterialId '-' = [film, textureOf p] := fun p hp1 => by
    obtain ⟨film, h1, -⟩ := Parse_texture _ _ hp p hp1
    exact ⟨film, h1⟩
  have hqty : ∀ p ∈ ps, 1 ≤ p.Qty := fun p hp1 => by
    obtain ⟨m, -, -, -, -, h1, -⟩ := Parse_shape _ _ hp p hp1
    exact h1
  have hperm := ord.perm j (textureLoop ps [])
  have hsum : ((blockOf A ord j input.TotalPrice ps n).cleaners.map CleanedOrder.Qty).sum =
      mapTotal (textureLoop ps []) := by
    show ((cleanerLines A _ _).map CleanedOrder.Qty).sum = _
    rw [cleanerLines_qty]
    exact (hperm.map Prod.snd).sum_eq
  have hcloth : (blockOf A ord j input.TotalPrice ps n).cloth.Qty =
      wrapInt (ps.map Product.Qty).sum := totalQty_eq ps
  refine ⟨ps, hp, productLines_product _ _ _ _, rfl, hsplit, ?_, ?_⟩
  · rw [hsum, hcloth, textureLoop_eq ps [] hsplit, foldl_mapAdd_total_wrap]
    simp [mapTotal]
  · intro hle
    have h0 := qty_sum_nonneg ps hqty
    rw [hsum, hcloth, textureLoop_eq ps [] hsplit,
      foldl_mapAdd_total_exact ps [] (by simp) hqty (by simpa [mapTotal] using hle),
      wrapInt_of_range _ (le_trans (by decide) h0) hle]
    simp [mapTotal]

/-- Witness of C20 on the input of test case 6. -/
theorem cleaner_total_matches_cloth_witness :
    ProcessOrders exactOps insertionOrder case6 = Except.ok case6Out ∧
    ∃ blocks : List (LineBlock ℚ),
      case6Out = (blocks.map LineBlock.lines).flatten ∧
      List.Forall₂ (fun input b => ∃ ps, Parse input.PlatformProductId = Except.ok ps ∧
        b.products.map CleanedOrder.product = ps ∧
        b.cloth.ProductId = "WIPING-CLOTH".toList ∧
        (∀ p ∈ ps, ∃ film, Split p.MaterialId '-' = [film, textureOf p]) ∧
        wrapInt (b.cleaners.map CleanedOrder.Qty).sum = b.cloth.Qty ∧
        ((ps.map Product.Qty).sum ≤ maxInt →
          (b.cleaners.map CleanedOrder.Qty).sum = b.cloth.Qty))
        case6 blocks :=
  ⟨run_case6, cleaner_total_matches_cloth exactOps insertionOrder case6 case6Out run_case6⟩

set_option exponentiation.threshold 2200

/-- C4 (fails on the code as stated): for the total price 201 and one product
with quantity 200 the exact value (201 / 1) / 200 is 1.005 and its rounding to 2
decimals with ties away from zero is 1.01, but the code returns UnitPrice 1.00;
for the total price 3 and one product with quantity 40 the `float64` quotient
lies below 0.075, so its rounding to 2 decimals is 0.07, but the code returns
the `float64` nearest to 0.08. -/
theorem rounding_law_fails_in_float64 :
    (lineAt (ProcessOrders float64Ops insertionOrder tie201) 0).map CleanedOrder.UnitPrice =
      some (F64.ofInt 1) ∧
    F64.toRat (F64.ofInt 201) = some 201 ∧
    F64.toRat (F64.ofInt 1) = some 1 ∧
    round2 exactOps ((201 / 1) / 200) = 101 / 100 ∧
    F64.ofInt 1 ≠ F64.div (F64.ofInt 101) (F64.ofInt 100) ∧
    (lineAt (ProcessOrders float64Ops insertionOrder tie3) 0).map CleanedOrder.UnitPrice =
      some (F64.div (F64.ofInt 8) (F64.ofInt 100)) ∧
    F64.toRat (F64.ofInt 3) = some 3 ∧
    (∃ m : Nat, F64.div (F64.div (F64.ofInt 3) (F64.ofInt 1)) (F64.ofInt 40) =
        F64.finite false m ∧
      65 * 2 ^ 1074 ≤ 1000 * m ∧ 1000 * m < 75 * 2 ^ 1074 ∧
      round2 exactOps ((m : ℚ) / 2 ^ 1074) = 7 / 100) ∧
    F64.div (F64.ofInt 8) (F64.ofInt 100) ≠ F64.div (F64.ofInt 7) (F64.ofInt 100) := by
  refine ⟨by decide, ?_, ?_, ?_, by decide, by decide, ?_, ?_, by decide⟩
  · have h : F64.ofInt 201 = F64.finite false (201 * 2 ^ 1074) := by decide
    rw [h]
    exact toRat_whole 201
  · have h : F64.ofInt 1 = F64.finite false (1 * 2 ^ 1074) := by decide
    rw [h]
    exact toRat_whole 1
  · simp only [round2, exactOps, roundHalfAway]
    norm_num
  · have h : F64.ofInt 3 = F64.finite false (3 * 2 ^ 1074) := by decide
    rw [h]
    exact toRat_whole 3
  · obtain ⟨m, hm, hlo, hhi⟩ : ∃ m : Nat,
        F64.div (F64.div (F64.ofInt 3) (F64.ofInt 1)) (F64.ofInt 40) = F64.finite false m ∧
        65 * 2 ^ 1074 ≤ 1000 * m ∧ 1000 * m < 75 * 2 ^ 1074 :=
      ⟨roundMag (3 * 2 ^ 1074 * 2 ^ 1074) (40 * 2 ^ 1074), by decide, by decide, by decide⟩
    refine ⟨m, hm, hlo, hhi, ?_⟩
    have hp : (0 : ℚ) < 2 ^ 1074 := pow_pos (by norm_num) 1074
    have hloq : (65 : ℚ) * 2 ^ 1074 ≤ 1000 * (m : ℚ) := by exact_mod_cast hlo
    have hhiq : 1000 * (m : ℚ) < 75 * 2 ^ 1074 := by exact_mod_cast hhi
    have e := round2_exact_of_bounds ((m : ℚ) / 2 ^ 1074) 7
      (div_nonneg (Nat.cast_nonneg m) hp.le)
      (by
        rw [div_mul_eq_mul_div, le_div_iff₀ hp]
        push_cast
        linarith)
      (by
        rw [div_mul_eq_mul_div, div_lt_iff₀ hp]
        push_cast
        linarith)
    simpa using e

/-- C4 (amended): on a successful batch in `float64` arithmetic the output is
the concatenation of one block per input line; the product lines of a block
are the products parsed from the SKU of the line, and each of them has
UnitPrice = Round(((P / n) / q) * 100) / 100 for the total price P of the line,
the number n of parsed products and its own quantity q, where the two
divisions, the multiplication by 100 and the division by 100 are `float64`
operations and Round is `math.Round`. -/
theorem unit_price_even_split (ord : MapOrder) (inputs : List (InputOrder F64))
    (out : List (CleanedOrder F64)) (h : ProcessOrders float64Ops ord inputs = Except.ok out) :
    ∃ blocks : List (LineBlock F64),
      out = (blocks.map LineBlock.lines).flatten ∧
      List.Forall₂ (fun input b => ∃ ps, Parse input.PlatformProductId = Except.ok ps ∧
        b.products.map CleanedOrder.product = ps ∧
        b.cloth.ProductId = "WIPING-CLOTH".toList ∧
        ∀ l ∈ b.products, l.UnitPrice =
          F64.div (F64.round (F64.mul
            (F64.div (F64.div input.TotalPrice (F64.ofInt (ps.length : Int))) (F64.ofInt l.Qty))
            (F64.ofInt 100))) (F64.ofInt 100))
        inputs blocks :=
  unit_price_formula float64Ops ord inputs out h

/-- Witness of C4: the total price 100 and one product with quantity 3 give the
UnitPrice 33.33 and the TotalPrice 33.33 * 3 in `float64`. -/
theorem unit_price_even_split_witness :
    ProcessOrders float64Ops insertionOrder third100 =
      Except.ok [⟨1, "FG0A-CLEAR-X".toList, "FG0A-CLEAR".toList, "X".toList, 3,
          F64.div (F64.ofInt 3333) (F64.ofInt 100),
          F64.mul (F64.div (F64.ofInt 3333) (F64.ofInt 100)) (F64.ofInt 3)⟩,
        ⟨2, "WIPING-CLOTH".toList, [], [], 3, F64.ofInt 0, F64.ofInt 0⟩,
        ⟨3, "CLEAR-CLEANNER".toList, [], [], 3, F64.ofInt 0, F64.ofInt 0⟩] ∧
    ∃ blocks : List (LineBlock F64),
      [⟨1, "FG0A-CLEAR-X".toList, "FG0A-CLEAR".toList, "X".toList, 3,
          F64.div (F64.ofInt 3333) (F64.ofInt 100),
          F64.mul (F64.div (F64.ofInt 3333) (F64.ofInt 100)) (F64.ofInt 3)⟩,
        ⟨2, "WIPING-CLOTH".toList, [], [], 3, F64.ofInt 0, F64.ofInt 0⟩,
        ⟨3, "CLEAR-CLEANNER".toList, [], [], 3, F64.ofInt 0, F64.ofInt 0⟩] =
        (blocks.map LineBlock.lines).flatten ∧
      List.Forall₂ (fun input b => ∃ ps, Parse input.PlatformProductId = Except.ok ps ∧
        b.products.map CleanedOrder.product = ps ∧
        b.cloth.ProductId = "WIPING-CLOTH".toList ∧
        ∀ l ∈ b.products, l.UnitPrice =
          F64.div (F64.round (F64.mul
            (F64.div (F64.div input.TotalPrice (F64.ofInt (ps.length : Int))) (F64.ofInt l.Qty))
            (F64.ofInt 100))) (F64.ofInt 100))
        third100 blocks :=
  ⟨rfl, unit_price_even_split insertionOrder third100 _ rfl⟩

/-- C18 (fails on the code): `case6` and `case6Relabelled` agree on
PlatformProductId and TotalPrice; a run on the first that visits the texture
map in order of insertion and a run on the second that visits it in reverse
order return different sequences. -/
theorem unused_fields_runs_differ :
    List.Forall₂ (fun x y => x.PlatformProductId = y.PlatformProductId ∧
      x.TotalPrice = y.TotalPrice) case6 case6Relabelled ∧
    ProcessOrders exactOps insertionOrder case6 = Except.ok case6Out ∧
    ProcessOrders exactOps reverseOrder case6Relabelled = Except.ok case6OutReversed ∧
    case6Out ≠ case6OutReversed := by
  have hag : List.Forall₂ (fun x y => x.PlatformProductId = y.PlatformProductId ∧
      x.TotalPrice = y.TotalPrice) case6 case6Relabelled :=
    List.Forall₂.cons ⟨rfl, rfl⟩ List.Forall₂.nil
  refine ⟨hag, run_case6, ?_, ?_⟩
  · rw [← result_ignores_unused_fields exactOps reverseOrder case6 case6Relabelled hag]
    exact run_case6_reversed
  · intro heq
    have h2 := congrArg (fun r => (r.get? 3).map CleanedOrder.Qty) heq
    revert h2
    decide

end Bewell
